import Mathlib

/-!
# Event loop of `neo/framework/EventLoop.cpp`

A shallow embedding of `idEventLoop` (ring buffer of pushed events, journal
recorder / player, dispatch, the per-frame `RunEventLoop` pass, `Init`,
`Shutdown`) and of `CreateMouseEvent`, together with the properties established
about them.

Conventions of the embedding

* The state of the program and of its collaborators is one record, `World`;
  every C++ function becomes a function on `World`.
* Calls into collaborators (`common`, `cmdSystem`, `session`, `idKeyInput`,
  the allocator, the platform layer) are recorded, in program order, in
  `World.trace`.
* `common->FatalError` does not return: a function that can reach it returns
  an `Outcome`, whose `fatal` case carries the state at the call.
* Dereferencing a null file handle, or reading payload bytes that are not
  there, is undefined behaviour in C++; the embedding reports it as
  `Outcome.crash`.
* The counters of the ring buffer are unbounded naturals; `evValue`, `evValue2`
  are unbounded integers, `evPtrLength` is a byte count (a natural number) and
  a pointer is an address (a natural number, `0` for the null pointer).
* The type `float` is IEEE 754 binary32.  A `float` is represented by the
  rational it stands for, and an operation rounds its exact result to the
  nearest `float`, a tie going to the even one (`toFloat`); every operation is
  rounded by itself (no wider intermediate precision, no fused multiply-add).
* The loop `while ( 1 )` of `RunEventLoop` runs on fuel: `RunEventLoop` returns
  `none` when the fuel does not suffice, and the outcome of the pass otherwise.
-/

namespace EventLoop

/-! ## Data model -/

/-- One byte of a stream or of a payload block. -/
abbrev byte := UInt8

/-- Modelled from the spec: the enumeration `sysEventType_t` (its declaration,
in `sys/sys_public.h`, is not part of the sources).  The kinds the event loop
names, plus `SE_OTHER` for every other kind the platform defines. -/
inductive sysEventType_t where
  | SE_NONE
  | SE_KEY
  | SE_MOUSE
  | SE_JOYSTICK_AXIS
  | SE_CONSOLE
  | SE_OTHER (code : Nat)
deriving DecidableEq

open sysEventType_t

/-- Modelled from the spec: the record `sysEvent_t` (declared in
`sys/sys_public.h`, not part of the sources): kind, two integers, the length
of the payload and the pointer to it (an address, `0` for the null pointer). -/
structure sysEvent_t where
  evType : sysEventType_t
  evValue : Int
  evValue2 : Int
  evPtrLength : Nat
  evPtr : Nat
deriving DecidableEq

/-- The value of a zero-initialised `sysEvent_t` (`sysEvent_t ev = {}`, and every
slot of the statically allocated `com_pushedEvents`). -/
def zeroEvent : sysEvent_t :=
  { evType := SE_NONE, evValue := 0, evValue2 := 0, evPtrLength := 0, evPtr := 0 }

/-- Modelled from the spec: the object representation of a `sysEvent_t`, that
is what `Write( &ev, sizeof(ev) )` puts on a stream and what
`Read( &ev, sizeof(ev) )` makes of `sizeof(ev)` bytes.  The layout of the
record is not part of the sources, so it is a parameter; every record takes
`size` bytes. -/
structure RecordLayout where
  size : Nat
  encode : sysEvent_t → List byte
  decode : List byte → sysEvent_t
  encode_length : ∀ e, (encode e).length = size

/-- Modelled from the spec: the declarations the event loop takes from headers
that are not part of the sources: the capacity of the ring buffer, the two
axis ids of the right stick, the layout of an event record, and the reciprocal
square root `idMath::InvSqrt` that `idVec2::Truncate` uses (a function from
`float` to `float`). -/
structure Decls where
  MAX_PUSHED_EVENTS : Nat
  RX_AXIS : Int
  RY_AXIS : Int
  layout : RecordLayout
  InvSqrt : ℚ → ℚ

/-- Modelled from the spec: a sequential byte stream (`idFile`, §6 "Journal
storage").  `Read` delivers the bytes from the cursor on, fewer than asked
only at the end of the data; `Write` appends, fewer than asked only when the
medium has no more `room`. -/
structure idFile where
  data : List byte
  pos : Nat
  room : Nat
deriving DecidableEq

/-- Modelled from the spec: `idFile::Read( buffer, len )`: the bytes read (their
number is the return value) and the stream afterwards. -/
def idFile.Read (f : idFile) (len : Nat) : List byte × idFile :=
  let bs := (f.data.drop f.pos).take len
  (bs, { f with pos := f.pos + bs.length })

/-- Modelled from the spec: `idFile::Write( buffer, len )` with the `len` bytes
`bs` of the buffer: the number of bytes written and the stream afterwards. -/
def idFile.Write (f : idFile) (bs : List byte) : Nat × idFile :=
  let n := min bs.length f.room
  (n, { f with data := f.data ++ bs.take n, room := f.room - n })

/-- The argument of `cmdSystem->BufferCommandText`: the text a payload pointer
points to, or a string literal. -/
inductive CmdText where
  | payload (p : Nat)
  | literal (s : String)
deriving DecidableEq

/-- The calls the event loop makes, as they appear in `World.trace`.  A call of
`idEventLoop::GetEvent` or `idEventLoop::ProcessEvent` is recorded too; the
latter with the event and the block its payload pointer points to at the time
of the call (`none` for the null pointer or a pointer to no block). -/
inductive Effect where
  | Printf (msg : String)
  | Mem_Free (p : Nat)
  | Mem_ClearedAlloc (size : Nat) (p : Nat)
  | PreliminaryKeyEvent (key : Int) (down : Bool)
  | BufferCommandText (text : CmdText)
  | ExecuteCommandBuffer
  | session_ProcessEvent (ev : sysEvent_t)
  | Sys_GetEvent (ev : sysEvent_t)
  | Sys_PollSysEvents (count : Nat)
  | Sys_ReturnSysEvent (i : Nat) (ev : sysEvent_t)
  | Sys_EndSysEvents
  | GetEvent
  | ProcessEvent (ev : sysEvent_t) (payload : Option (List byte))
  | CloseFile (f : idFile)
deriving DecidableEq

/-- The state: the members of `idEventLoop`, the file-scope variables of
`EventLoop.cpp` (`com_journal`, `dx`, `dy`, the function-local static
`printedWarning`), and the collaborators' state the loop observes: payload
memory, the platform's pending events, the platform's secondary batches. -/
structure World where
  com_journal : Int
  com_journalFile : Option idFile
  com_journalDataFile : Option idFile
  com_pushedEvents : Nat → sysEvent_t
  com_pushedEventsHead : Nat
  com_pushedEventsTail : Nat
  printedWarning : Bool
  dx : Int
  dy : Int
  blocks : Nat → Option (List byte)
  lastAlloc : Nat
  sysEvents : List sysEvent_t
  sysBatches : List (List sysEvent_t)
  trace : List Effect

/-- The result of a function that can reach `common->FatalError` (which does
not return) or undefined behaviour. -/
inductive Outcome (α : Type) where
  | ok (a : α) (w : World)
  | fatal (msg : String) (w : World)
  | crash (w : World)

/-- The state an outcome ends in. -/
def Outcome.world {α : Type} : Outcome α → World
  | .ok _ w => w
  | .fatal _ w => w
  | .crash w => w

/-- The state right after construction of `eventLoopLocal` and static
initialisation: null handles, empty ring buffer, `dx = dy = 0`, journal
variable at its configured value. -/
def World.initial (journal : Int) (blocks : Nat → Option (List byte)) (lastAlloc : Nat)
    (sysEvents : List sysEvent_t) (sysBatches : List (List sysEvent_t)) : World :=
  { com_journal := journal
    com_journalFile := none
    com_journalDataFile := none
    com_pushedEvents := fun _ => zeroEvent
    com_pushedEventsHead := 0
    com_pushedEventsTail := 0
    printedWarning := false
    dx := 0
    dy := 0
    blocks := blocks
    lastAlloc := lastAlloc
    sysEvents := sysEvents
    sysBatches := sysBatches
    trace := [] }

/-! ## Collaborators -/

/-- Append a call to the trace. -/
def World.emit (w : World) (e : Effect) : World :=
  { w with trace := w.trace ++ [e] }

/-- Modelled from the spec: the allocator's `Mem_Free( p )` (not part of the
sources): the block is gone. -/
def Mem_Free (w : World) (p : Nat) : World :=
  { w with blocks := Function.update w.blocks p none, trace := w.trace ++ [Effect.Mem_Free p] }

/-- Modelled from the spec: the allocator's `Mem_ClearedAlloc( size )` (not part
of the sources): a block of `size` zero bytes at an address that is not null and
was never handed out before. -/
def Mem_ClearedAlloc (w : World) (size : Nat) : Nat × World :=
  let p := w.lastAlloc + 1
  (p, { w with blocks := Function.update w.blocks p (some (List.replicate size 0))
               lastAlloc := p
               trace := w.trace ++ [Effect.Mem_ClearedAlloc size p] })

/-- Modelled from the spec: the event of kind none that `Sys_GetEvent` returns
when the platform has nothing pending. -/
def noneEvent : sysEvent_t := zeroEvent

/-- Modelled from the spec: the platform's `Sys_GetEvent` (§6
`PollNextEvent`): the oldest pending event, or an event of kind none. -/
def Sys_GetEvent (w : World) : sysEvent_t × World :=
  match w.sysEvents with
  | [] => (noneEvent, w.emit (Effect.Sys_GetEvent noneEvent))
  | e :: rest => (e, { w with sysEvents := rest, trace := w.trace ++ [Effect.Sys_GetEvent e] })

/-- The block a payload pointer points to: none for the null pointer. -/
def payloadAt (w : World) (p : Nat) : Option (List byte) :=
  if p = 0 then none else w.blocks p

/-- The `len` bytes at `p`, when they are there. -/
def readBlock (w : World) (p : Nat) (len : Nat) : Option (List byte) :=
  match w.blocks p with
  | none => none
  | some bs => if len ≤ bs.length then some (bs.take len) else none

/-! ## `idEventLoop::GetRealEvent` -/

/-- The playback branch of `GetRealEvent` (`com_journal == 2`). -/
def GetRealEvent_playback (H : Decls) (w : World) : Outcome sysEvent_t :=
  match w.com_journalFile with
  | none => .crash w
  | some f =>
    let r := f.Read H.layout.size
    let w1 := { w with com_journalFile := some r.2 }
    if r.1.length ≠ H.layout.size then
      .fatal "Error reading from journal file" w1
    else
      let ev := H.layout.decode r.1
      if ev.evPtrLength ≠ 0 then
        let a := Mem_ClearedAlloc w1 ev.evPtrLength
        let r2 := r.2.Read ev.evPtrLength
        let w3 := { a.2 with com_journalFile := some r2.2
                             blocks := Function.update a.2.blocks a.1
                               (some (r2.1 ++ List.replicate (ev.evPtrLength - r2.1.length) 0)) }
        if r2.1.length ≠ ev.evPtrLength then
          .fatal "Error reading from journal file" w3
        else
          .ok { ev with evPtr := a.1 } w3
      else
        .ok ev w1

/-- The record branch of `GetRealEvent` after `Sys_GetEvent` (`com_journal == 1`). -/
def GetRealEvent_record (H : Decls) (w : World) (ev : sysEvent_t) : Outcome sysEvent_t :=
  match w.com_journalFile with
  | none => .crash w
  | some f =>
    let r := f.Write (H.layout.encode ev)
    let w1 := { w with com_journalFile := some r.2 }
    if r.1 ≠ H.layout.size then
      .fatal "Error writing to journal file" w1
    else if ev.evPtrLength ≠ 0 then
      match readBlock w1 ev.evPtr ev.evPtrLength with
      | none => .crash w1
      | some ps =>
        let r2 := r.2.Write ps
        let w2 := { w1 with com_journalFile := some r2.2 }
        if r2.1 ≠ ev.evPtrLength then
          .fatal "Error writing to journal file" w2
        else
          .ok ev w2
    else
      .ok ev w1

/-- The function `idEventLoop::GetRealEvent`. -/
def GetRealEvent (H : Decls) (w : World) : Outcome sysEvent_t :=
  if w.com_journal = 2 then
    GetRealEvent_playback H w
  else
    let s := Sys_GetEvent w
    if s.2.com_journal = 1 then
      GetRealEvent_record H s.2 s.1
    else
      .ok s.1 s.2

/-! ## `idEventLoop::PushEvent`, `idEventLoop::GetEvent` -/

/-- The function `idEventLoop::PushEvent`. -/
def PushEvent (H : Decls) (w : World) (event : sysEvent_t) : World :=
  let slot := w.com_pushedEventsHead &&& (H.MAX_PUSHED_EVENTS - 1)
  let ev := w.com_pushedEvents slot
  let w1 :=
    if (w.com_pushedEventsHead : Int) - w.com_pushedEventsTail ≥ H.MAX_PUSHED_EVENTS then
      let w2 :=
        if w.printedWarning = false then
          { w with printedWarning := true
                   trace := w.trace ++ [Effect.Printf "WARNING: Com_PushEvent overflow\n"] }
        else w
      let w3 := if ev.evPtr ≠ 0 then Mem_Free w2 ev.evPtr else w2
      { w3 with com_pushedEventsTail := w3.com_pushedEventsTail + 1 }
    else
      { w with printedWarning := false }
  { w1 with com_pushedEvents := Function.update w1.com_pushedEvents slot event
            com_pushedEventsHead := w1.com_pushedEventsHead + 1 }

/-- The function `idEventLoop::GetEvent`. -/
def GetEvent (H : Decls) (w : World) : Outcome sysEvent_t :=
  let w0 := w.emit Effect.GetEvent
  if w0.com_pushedEventsHead > w0.com_pushedEventsTail then
    let w1 := { w0 with com_pushedEventsTail := w0.com_pushedEventsTail + 1 }
    .ok (w1.com_pushedEvents ((w1.com_pushedEventsTail - 1) &&& (H.MAX_PUSHED_EVENTS - 1))) w1
  else
    GetRealEvent H w0

/-! ## The type `float`, `idVec2` -/

/-- Rounding of a rational to the nearest integer, a tie going to the even one
(the rounding of IEEE 754 arithmetic). -/
def roundHalfEven (q : ℚ) : ℤ :=
  if q - ⌊q⌋ < 1 / 2 then ⌊q⌋
  else if 1 / 2 < q - ⌊q⌋ then ⌊q⌋ + 1
  else if ⌊q⌋ % 2 = 0 then ⌊q⌋ else ⌊q⌋ + 1

/-- The value of type `float` (IEEE 754 binary32) nearest to the rational `q`:
24 significant bits, with the least exponent -126, below which the values are
spaced by `2 ^ (-149)`.  A `float` is represented by the rational it stands
for; infinities and NaN are not represented (no operation of the event loop
overflows). -/
def toFloat (q : ℚ) : ℚ :=
  roundHalfEven (q / 2 ^ (max (Int.log 2 |q|) (-126) - 23)) *
    2 ^ (max (Int.log 2 |q|) (-126) - 23)

/-- The product of two `float`s, rounded to `float`. -/
def fmul (a b : ℚ) : ℚ := toFloat (a * b)

/-- The quotient of two `float`s, rounded to `float`. -/
def fdiv (a b : ℚ) : ℚ := toFloat (a / b)

/-- The sum of two `float`s, rounded to `float`. -/
def fadd (a b : ℚ) : ℚ := toFloat (a + b)

/-- The conversion of an `int` to `float`. -/
def intToFloat (n : ℤ) : ℚ := toFloat n

/-- The conversion `(int)` of a `float`: the fractional part is discarded.  (For
a value outside the range of `int` the conversion is undefined in C++; the
vector of `CreateMouseEvent` has components of magnitude below 34.) -/
def floatToInt (q : ℚ) : ℤ := if 0 ≤ q then ⌊q⌋ else ⌈q⌉

/-- Modelled from the spec: the class `idVec2` (`idlib/math/Vector.h`, not part
of the sources): two `float` components. -/
structure idVec2 where
  x : ℚ
  y : ℚ

/-- Modelled from the spec: `idVec2::LengthSqr`, the squared magnitude
`x * x + y * y` in `float` arithmetic. -/
def idVec2.LengthSqr (v : idVec2) : ℚ :=
  fadd (fmul v.x v.x) (fmul v.y v.y)

/-- Modelled from the spec: `idVec2::Truncate( length )` (§4.5, "vector
truncation"): a vector whose magnitude exceeds `length` is scaled down, both
components by the same factor `length * InvSqrt( LengthSqr() )`, so that its
magnitude is `length`; any other vector is left as it is.  `InvSqrt` is the
reciprocal square root of `idMath`, which is not part of the sources either. -/
def idVec2.Truncate (InvSqrt : ℚ → ℚ) (v : idVec2) (length : ℚ) : idVec2 :=
  if length = 0 then { x := 0, y := 0 }
  else if v.LengthSqr > fmul length length then
    { x := fmul v.x (fmul length (InvSqrt v.LengthSqr))
      y := fmul v.y (fmul length (InvSqrt v.LengthSqr)) }
  else v

/-- The constant `SDL_JOYSTICK_AXIS_MAX`. -/
def SDL_JOYSTICK_AXIS_MAX : ℤ := 32767

/-- The file-scope variable `mouseSpeed`, which nothing assigns to. -/
def mouseSpeed : ℤ := 15

/-- The vector `v` of `CreateMouseEvent` before `v.Truncate`: the two axis
readings divided by `SDL_JOYSTICK_AXIS_MAX` and multiplied by `mouseSpeed`. -/
def axisVector (dx dy : ℤ) : idVec2 :=
  { x := fmul (fdiv (intToFloat dx) (intToFloat SDL_JOYSTICK_AXIS_MAX)) (intToFloat mouseSpeed)
    y := fmul (fdiv (intToFloat dy) (intToFloat SDL_JOYSTICK_AXIS_MAX)) (intToFloat mouseSpeed) }

/-- The vector `v` of `CreateMouseEvent` after `v.Truncate( mouseSpeed )`. -/
def mouseVector (InvSqrt : ℚ → ℚ) (dx dy : ℤ) : idVec2 :=
  (axisVector dx dy).Truncate InvSqrt (intToFloat mouseSpeed)

/-! ## `idEventLoop::ProcessEvent`, `CreateMouseEvent` -/

/-- The function `idEventLoop::ProcessEvent`. -/
def ProcessEvent (w : World) (ev : sysEvent_t) : World :=
  let w0 := w.emit (Effect.ProcessEvent ev (payloadAt w ev.evPtr))
  let w1 :=
    if ev.evType = SE_KEY then
      w0.emit (Effect.PreliminaryKeyEvent ev.evValue (decide (ev.evValue2 ≠ 0)))
    else w0
  let w2 :=
    if ev.evType = SE_CONSOLE then
      (w1.emit (Effect.BufferCommandText (CmdText.payload ev.evPtr))).emit
        (Effect.BufferCommandText (CmdText.literal "\n"))
    else
      w1.emit (Effect.session_ProcessEvent ev)
  if ev.evPtr ≠ 0 then Mem_Free w2 ev.evPtr else w2

/-- The function `CreateMouseEvent`: the vector `v` after `v.Truncate`,
each component converted to `int`. -/
def CreateMouseEvent (H : Decls) (dx dy : Int) : sysEvent_t :=
  { evType := SE_MOUSE
    evValue := floatToInt (mouseVector H.InvSqrt dx dy).x
    evValue2 := floatToInt (mouseVector H.InvSqrt dx dy).y
    evPtrLength := 0
    evPtr := 0 }

/-! ## `idEventLoop::RunEventLoop` -/

/-- Modelled from the spec: the platform's `Sys_PollSysEvents` (§6
`PollSecondaryEvents`): the next batch of secondary events; its length is the
count the call returns. -/
def Sys_PollSysEvents (w : World) : List sysEvent_t × World :=
  match w.sysBatches with
  | [] => ([], w.emit (Effect.Sys_PollSysEvents 0))
  | b :: rest =>
    (b, { w with sysBatches := rest, trace := w.trace ++ [Effect.Sys_PollSysEvents b.length] })

/-- The loop `for(int i = 0; i < count; i++)` of `RunEventLoop`, from index `i`
on, over the events `Sys_ReturnSysEvent` hands back. -/
def drainSysEvents : World → Nat → List sysEvent_t → World
  | w, _, [] => w
  | w, i, e :: rest =>
    drainSysEvents (ProcessEvent (w.emit (Effect.Sys_ReturnSysEvent i e)) e) (i + 1) rest

/-- The update of `dx`, `dy` in `RunEventLoop` after a primary event. -/
def updateAxis (H : Decls) (w : World) (ev : sysEvent_t) : World :=
  if ev.evType = SE_JOYSTICK_AXIS then
    if ev.evValue = H.RX_AXIS ∨ ev.evValue = H.RY_AXIS then
      if ev.evValue = H.RX_AXIS then { w with dx := ev.evValue2 }
      else { w with dy := ev.evValue2 }
    else w
  else w

/-- What `RunEventLoop` does with a primary event of kind other than none:
dispatch, axis update, drain of the secondary events, `Sys_EndSysEvents`. -/
def handlePrimary (H : Decls) (w : World) (ev : sysEvent_t) : World :=
  let w3 := ProcessEvent w ev
  let w4 := updateAxis H w3 ev
  let s := Sys_PollSysEvents w4
  let w6 := drainSysEvents s.2 0 s.1
  w6.emit Effect.Sys_EndSysEvents

/-- The loop `while ( 1 )` of `RunEventLoop`, run for at most `fuel` iterations;
`none` when the fuel does not suffice. -/
def RunEventLoop_loop (H : Decls) (commandExecution : Bool) : Nat → World → Option (Outcome Int)
  | 0, _ => none
  | fuel + 1, w =>
    let w1 := if commandExecution then w.emit Effect.ExecuteCommandBuffer else w
    match GetEvent H w1 with
    | .fatal m w2 => some (.fatal m w2)
    | .crash w2 => some (.crash w2)
    | .ok ev w2 =>
      if ev.evType ≠ SE_NONE then
        RunEventLoop_loop H commandExecution fuel (handlePrimary H w2 ev)
      else
        some (.ok 0 w2)

/-- The function `idEventLoop::RunEventLoop`, its loop bounded by `fuel`. -/
def RunEventLoop (H : Decls) (fuel : Nat) (w : World) (commandExecution : Bool) :
    Option (Outcome Int) :=
  let w1 :=
    if w.dx ≠ 0 ∨ w.dy ≠ 0 then ProcessEvent w (CreateMouseEvent H w.dx w.dy) else w
  RunEventLoop_loop H commandExecution fuel w1

/-! ## `idEventLoop::Init` -/

/-- Modelled from the spec: the file system, as far as `Init` uses it: what
`OpenFileWrite` and `OpenFileRead` return for a name (`none` is the null
handle). -/
structure FileSystem where
  OpenFileWrite : String → Option idFile
  OpenFileRead : String → Option idFile

/-- The function `idEventLoop::Init`.  `w.com_journal` is the configured mode,
the value `com_journal.GetInteger()` gives once `common->StartupVariable` has
run. -/
def Init (fs : FileSystem) (w : World) : World :=
  let w1 :=
    if w.com_journal = 1 then
      { w with trace := w.trace ++ [Effect.Printf "Journaling events\n"]
               com_journalFile := fs.OpenFileWrite "journal.dat"
               com_journalDataFile := fs.OpenFileWrite "journaldata.dat" }
    else if w.com_journal = 2 then
      { w with trace := w.trace ++ [Effect.Printf "Replaying journaled events\n"]
               com_journalFile := fs.OpenFileRead "journal.dat"
               com_journalDataFile := fs.OpenFileRead "journaldata.dat" }
    else w
  if w1.com_journalFile = none ∨ w1.com_journalDataFile = none then
    { w1 with com_journal := 0
              com_journalFile := none
              com_journalDataFile := none
              trace := w1.trace ++ [Effect.Printf "Couldn't open journal files\n"] }
  else w1

/-! ## Traces -/

/-- The events passed to `ProcessEvent`, in order. -/
def dispatched : List Effect → List sysEvent_t
  | [] => []
  | Effect.ProcessEvent ev _ :: t => ev :: dispatched t
  | _ :: t => dispatched t

/-- The pointers passed to `Mem_Free`, in order. -/
def freed : List Effect → List Nat
  | [] => []
  | Effect.Mem_Free p :: t => p :: freed t
  | _ :: t => freed t

/-- The number of events the ring buffer holds. -/
def occupancy (w : World) : Int :=
  (w.com_pushedEventsHead : Int) - w.com_pushedEventsTail

/-- The events the ring buffer holds, oldest first. -/
def ringContents (H : Decls) (w : World) : List sysEvent_t :=
  (List.range (w.com_pushedEventsHead - w.com_pushedEventsTail)).map
    (fun i => w.com_pushedEvents ((w.com_pushedEventsTail + i) &&& (H.MAX_PUSHED_EVENTS - 1)))

/-- The states reachable from an empty ring buffer with both counters at zero
by `PushEvent` and `GetEvent` calls (a `GetEvent` that ends in `FatalError` or
undefined behaviour included: the state it ends in is reachable). -/
inductive Reachable (H : Decls) : World → Prop where
  | empty (w : World) (hh : w.com_pushedEventsHead = 0) (ht : w.com_pushedEventsTail = 0) :
      Reachable H w
  | push (w : World) (event : sysEvent_t) (h : Reachable H w) : Reachable H (PushEvent H w event)
  | get (w : World) (h : Reachable H w) : Reachable H (GetEvent H w).world

/-- The events of `es` pushed one after the other with `PushEvent`. -/
def pushAll (H : Decls) (w : World) (es : List sysEvent_t) : World :=
  es.foldl (PushEvent H) w

/-- The events `n` consecutive `GetEvent` calls return and the state after the
last one; `none` when one of the calls does not return. -/
def getEvents (H : Decls) : Nat → World → Option (List sysEvent_t × World)
  | 0, w => some ([], w)
  | n + 1, w =>
    match GetEvent H w with
    | .ok ev w1 => (getEvents H n w1).map (fun r => (ev :: r.1, r.2))
    | .fatal _ _ => none
    | .crash _ => none

/-- The texts passed to `cmdSystem->BufferCommandText`, in order. -/
def cmdTexts : List Effect → List CmdText
  | [] => []
  | Effect.BufferCommandText t :: r => t :: cmdTexts r
  | _ :: r => cmdTexts r

/-- The events passed to `session->ProcessEvent`, in order. -/
def sessionCalls : List Effect → List sysEvent_t
  | [] => []
  | Effect.session_ProcessEvent ev :: r => ev :: sessionCalls r
  | _ :: r => sessionCalls r

/-- The events `n` consecutive `GetRealEvent` calls return and the state after
the last one; `none` when one of the calls does not return. -/
def getRealEvents (H : Decls) : Nat → World → Option (List sysEvent_t × World)
  | 0, w => some ([], w)
  | n + 1, w =>
    match GetRealEvent H w with
    | .ok ev w1 => (getRealEvents H n w1).map (fun r => (ev :: r.1, r.2))
    | .fatal _ _ => none
    | .crash _ => none

/-- The payload bytes of an event: the `evPtrLength` bytes at `evPtr`, none when
`evPtrLength` is zero. -/
def payloadBytes (w : World) (e : sysEvent_t) : List byte :=
  if e.evPtrLength ≠ 0 then (readBlock w e.evPtr e.evPtrLength).getD [] else []

/-- The bytes the events of `es` take on the journal stream: for each event its
record, followed by its payload bytes. -/
def journalBytes (H : Decls) (w : World) : List sysEvent_t → List byte
  | [] => []
  | e :: es => H.layout.encode e ++ payloadBytes w e ++ journalBytes H w es

/-- What a consumer can see of an event: kind, values, payload length, and the
payload block. -/
structure EventView where
  evType : sysEventType_t
  evValue : Int
  evValue2 : Int
  evPtrLength : Nat
  payload : Option (List byte)
deriving DecidableEq

/-- The view of an event in a state. -/
def view (w : World) (e : sysEvent_t) : EventView :=
  { evType := e.evType
    evValue := e.evValue
    evValue2 := e.evValue2
    evPtrLength := e.evPtrLength
    payload := payloadAt w e.evPtr }

/-- The payload of an event is well formed: null with length zero, or a block
of exactly `evPtrLength > 0` bytes. -/
def wellFormedPayload (w : World) (e : sysEvent_t) : Prop :=
  (e.evPtr = 0 ∧ e.evPtrLength = 0) ∨
  (e.evPtr ≠ 0 ∧ 0 < e.evPtrLength ∧
    ∃ bs, w.blocks e.evPtr = some bs ∧ bs.length = e.evPtrLength)

/-- The stream after the bytes `bs` have been written in full. -/
def idFile.appended (f : idFile) (bs : List byte) : idFile :=
  { data := f.data ++ bs, pos := f.pos, room := f.room - bs.length }

/-- The dispatch order of a pass: each primary event, followed by the secondary
events of the batch the platform reports after it. -/
def interleave : List sysEvent_t → List (List sysEvent_t) → List sysEvent_t
  | [], _ => []
  | e :: es, bs => e :: (bs.headD [] ++ interleave es bs.tail)

/-- The state in which an iteration of the loop of `RunEventLoop` calls
`GetEvent`: after `cmdSystem->ExecuteCommandBuffer()` when commands are
executed. -/
def beforeGetEvent (commandExecution : Bool) (w : World) : World :=
  if commandExecution then w.emit Effect.ExecuteCommandBuffer else w

/-- With the journal off, the primary events a pass fetches and dispatches: the
contents of the ring buffer, then the platform's pending events, up to the first
event of kind none. -/
def livePrimaries (H : Decls) (w : World) : List sysEvent_t :=
  (ringContents H w ++ w.sysEvents).takeWhile (fun e => decide (e.evType ≠ SE_NONE))

/-- The state after `GetEvent` has taken an event from the ring buffer. -/
def World.ringTaken (w : World) : World :=
  { w with com_pushedEventsTail := w.com_pushedEventsTail + 1
           trace := w.trace ++ [Effect.GetEvent] }

/-- The state after `GetEvent`, the ring buffer being empty and the journal off,
has taken an event from the platform. -/
def World.sysTaken (w : World) : World :=
  { w with sysEvents := w.sysEvents.tail
           trace := w.trace ++ [Effect.GetEvent,
             Effect.Sys_GetEvent (w.sysEvents.headD noneEvent)] }

/-- The value a function returns: none when it ends in `FatalError` or in
undefined behaviour. -/
def Outcome.result {α : Type} : Outcome α → Option α
  | .ok a _ => some a
  | .fatal _ _ => none
  | .crash _ => none

/-- What is observed of a pass: whether it returned and with which status, and
the events it passed to `ProcessEvent`, in order. -/
def observe (r : Option (Outcome Int)) : Option (Option Int × List sysEvent_t) :=
  r.map (fun o => (o.result, dispatched o.world.trace))

/-- The state `w` with other events pending on the platform. -/
def World.withSysEvents (w : World) (s : List sysEvent_t) : World :=
  { w with sysEvents := s }

/-- An outcome with its state transformed. -/
def Outcome.mapWorld {α : Type} (f : World → World) : Outcome α → Outcome α
  | .ok a w => .ok a (f w)
  | .fatal m w => .fatal m (f w)
  | .crash w => .crash (f w)

/-- The views of the events passed to `ProcessEvent`, in order, each with the
payload block it had at the call. -/
def views : List Effect → List EventView
  | [] => []
  | Effect.ProcessEvent ev payload :: t =>
    { evType := ev.evType, evValue := ev.evValue, evValue2 := ev.evValue2
      evPtrLength := ev.evPtrLength, payload := payload } :: views t
  | _ :: t => views t

/-- What `RunEventLoop` does after the dispatch of a primary event: axis update,
drain of the secondary events, `Sys_EndSysEvents`. -/
def finishPrimary (H : Decls) (w : World) (ev : sysEvent_t) : World :=
  (drainSysEvents (Sys_PollSysEvents (updateAxis H w ev)).2 0
    (Sys_PollSysEvents (updateAxis H w ev)).1).emit Effect.Sys_EndSysEvents

/-- The address `p` is that of the payload of one of the events `S0`. -/
def platformPtr (S0 : List sysEvent_t) (p : Nat) : Prop :=
  ∃ e ∈ S0, e.evPtrLength ≠ 0 ∧ e.evPtr = p

/-- The part of the state a pass depends on, apart from the journal streams and
the payload memory; of the trace, the views of the dispatched events. -/
structure Control where
  com_journal : Int
  com_pushedEvents : Nat → sysEvent_t
  com_pushedEventsHead : Nat
  com_pushedEventsTail : Nat
  dx : Int
  dy : Int
  sysEvents : List sysEvent_t
  sysBatches : List (List sysEvent_t)
  seen : List EventView

/-- The control part of a state. -/
def control (w : World) : Control :=
  { com_journal := w.com_journal
    com_pushedEvents := w.com_pushedEvents
    com_pushedEventsHead := w.com_pushedEventsHead
    com_pushedEventsTail := w.com_pushedEventsTail
    dx := w.dx
    dy := w.dy
    sysEvents := w.sysEvents
    sysBatches := w.sysBatches
    seen := views w.trace }

/-- A playback state `wp` follows a recording state `wr`: same ring buffer, axis
state and secondary batches; the same views dispatched so far (after `Vr`, `Vp`
respectively); payload memory that agrees except at the payloads of the
platform's events `S0`, has nothing above the last address the playback
allocator handed out, and in the recording state has only lost blocks with
respect to `B0`; no event of the ring buffer or of a secondary batch shares its
payload with an event of `S0`. -/
structure Replays (H : Decls) (S0 : List sysEvent_t) (B0 : Nat → Option (List byte))
    (Vr Vp : List EventView) (wr wp : World) : Prop where
  modeR : wr.com_journal = 1
  modeP : wp.com_journal = 2
  slots : wp.com_pushedEvents = wr.com_pushedEvents
  head : wp.com_pushedEventsHead = wr.com_pushedEventsHead
  tail : wp.com_pushedEventsTail = wr.com_pushedEventsTail
  dx : wp.dx = wr.dx
  dy : wp.dy = wr.dy
  batches : wp.sysBatches = wr.sysBatches
  sync : ∃ X, views wr.trace = Vr ++ X ∧ views wp.trace = Vp ++ X
  agree : ∀ p, ¬ platformPtr S0 p → wp.blocks p = wr.blocks p
  fresh : ∀ p, wp.lastAlloc < p → wr.blocks p = none ∧ wp.blocks p = none
  shrink : ∀ p bs, wr.blocks p = some bs → B0 p = some bs
  pending : ∀ e ∈ wr.sysEvents, e ∈ S0
  ringPtr : ∀ ev ∈ ringContents H wr, ¬ platformPtr S0 ev.evPtr
  batchPtr : ∀ b ∈ wr.sysBatches, ∀ ev ∈ b, ¬ platformPtr S0 ev.evPtr

/-- The state after `GetEvent`, the ring buffer being empty, has taken an event
from the platform in record mode and written it to the stream `f`. -/
def World.recordTaken (H : Decls) (w : World) (f : idFile) : World :=
  { w with
    sysEvents := w.sysEvents.tail
    trace := w.trace ++ [Effect.GetEvent, Effect.Sys_GetEvent (w.sysEvents.headD noneEvent)]
    com_journalFile := some (f.appended
      (H.layout.encode (w.sysEvents.headD noneEvent) ++
        payloadBytes w (w.sysEvents.headD noneEvent))) }

/-- The function `idEventLoop::Shutdown`. -/
def Shutdown (w : World) : World :=
  let w1 :=
    match w.com_journalFile with
    | some f => { w with trace := w.trace ++ [Effect.CloseFile f], com_journalFile := none }
    | none => w
  match w1.com_journalDataFile with
  | some g => { w1 with trace := w1.trace ++ [Effect.CloseFile g], com_journalDataFile := none }
  | none => w1

/-- The streams passed to `fileSystem->CloseFile`, in order. -/
def closedFiles : List Effect → List idFile
  | [] => []
  | Effect.CloseFile f :: t => f :: closedFiles t
  | _ :: t => closedFiles t

/-- The state after `n` consecutive calls of `Shutdown`. -/
def shutdowns : Nat → World → World
  | 0, w => w
  | n + 1, w => shutdowns n (Shutdown w)

/-- The streams the open calls of `Init` return, the null results left out:
`journal.dat` first, then `journaldata.dat`. -/
def openedByInit (fs : FileSystem) (w : World) : List idFile :=
  if w.com_journal = 1 then
    (fs.OpenFileWrite "journal.dat").toList ++ (fs.OpenFileWrite "journaldata.dat").toList
  else if w.com_journal = 2 then
    (fs.OpenFileRead "journal.dat").toList ++ (fs.OpenFileRead "journaldata.dat").toList
  else []

/-- The states the event loop is in after `Init` (called in any state) and any
sequence of `GetRealEvent`, `GetEvent`, `PushEvent`, `ProcessEvent` and
`RunEventLoop` calls; the state a call ends in when it reaches `FatalError` or
undefined behaviour is included. -/
inductive Operating (H : Decls) (fs : FileSystem) : World → Prop where
  | init (w : World) : Operating H fs (Init fs w)
  | getRealEvent (w : World) (h : Operating H fs w) : Operating H fs (GetRealEvent H w).world
  | getEvent (w : World) (h : Operating H fs w) : Operating H fs (GetEvent H w).world
  | pushEvent (w : World) (event : sysEvent_t) (h : Operating H fs w) :
      Operating H fs (PushEvent H w event)
  | processEvent (w : World) (ev : sysEvent_t) (h : Operating H fs w) :
      Operating H fs (ProcessEvent w ev)
  | runEventLoop (w : World) (fuel : Nat) (commandExecution : Bool) (o : Outcome Int)
      (h : Operating H fs w) (hr : RunEventLoop H fuel w commandExecution = some o) :
      Operating H fs o.world

/-- The calls that mark the progress of a pass: a `GetEvent` call, a flush of
the command buffer, a `ProcessEvent` call, and the calls of the secondary
drain. -/
inductive Step where
  | fetch
  | flush
  | dispatch (ev : sysEvent_t)
  | poll (count : Nat)
  | secondary (i : Nat) (ev : sysEvent_t)
  | endSys
deriving DecidableEq

/-- The steps of a trace, in order; the calls a dispatch makes to the consumers
and to the allocator, the platform's `Sys_GetEvent` and `Printf` are left out. -/
def steps : List Effect → List Step
  | [] => []
  | Effect.GetEvent :: t => Step.fetch :: steps t
  | Effect.ExecuteCommandBuffer :: t => Step.flush :: steps t
  | Effect.ProcessEvent ev _ :: t => Step.dispatch ev :: steps t
  | Effect.Sys_PollSysEvents n :: t => Step.poll n :: steps t
  | Effect.Sys_ReturnSysEvent i ev :: t => Step.secondary i ev :: steps t
  | Effect.Sys_EndSysEvents :: t => Step.endSys :: steps t
  | _ :: t => steps t

/-- The steps of the drain of the secondary events `b`, the first of them with
index `i`: each is handed back by `Sys_ReturnSysEvent` and dispatched. -/
def secondarySteps : Nat → List sysEvent_t → List Step
  | _, [] => []
  | i, e :: rest => Step.secondary i e :: Step.dispatch e :: secondarySteps (i + 1) rest

/-- The trace an outcome of a pass ends with; empty when the pass ran out of
fuel. -/
def passTrace (r : Option (Outcome Int)) : List Effect :=
  match r with
  | some o => o.world.trace
  | none => []

/-- Whether a step is a `ProcessEvent` call. -/
def Step.isDispatch : Step → Bool
  | Step.dispatch _ => true
  | _ => false

/-- Whether a step is a `Sys_ReturnSysEvent` call. -/
def Step.isSecondary : Step → Bool
  | Step.secondary _ _ => true
  | _ => false

/-- One call of an interleaving of `PushEvent` and `GetEvent` calls. -/
inductive QueueOp where
  | push (event : sysEvent_t)
  | get

/-- The text of the overflow warning of `PushEvent`. -/
def overflowWarning : Effect := Effect.Printf "WARNING: Com_PushEvent overflow\n"

/-- Whether a `PushEvent` call in the state `w` overflows: the occupancy at
entry is at least `MAX_PUSHED_EVENTS`. -/
def overflows (H : Decls) (w : World) : Bool :=
  decide (occupancy w ≥ H.MAX_PUSHED_EVENTS)

/-- Whether the call `PushEvent( &event )` in the state `w` emits the overflow
warning: the warning is among the calls it adds to the trace. -/
def warns (H : Decls) (w : World) (event : sysEvent_t) : Bool :=
  decide (overflowWarning ∈ (PushEvent H w event).trace.drop w.trace.length)

/-- For each `PushEvent` call of an interleaving run from the state `w`, in
order: whether it overflowed and whether it emitted the warning.  The run ends
with its last call, or at a `GetEvent` call that does not return. -/
def pushLog (H : Decls) : World → List QueueOp → List (Bool × Bool)
  | _, [] => []
  | w, QueueOp.push event :: ops =>
    (overflows H w, warns H w event) :: pushLog H (PushEvent H w event) ops
  | w, QueueOp.get :: ops =>
    match GetEvent H w with
    | .ok _ w1 => pushLog H w1 ops
    | .fatal _ _ => []
    | .crash _ => []

/-- The payload pointers of a list of events that are not null, in order. -/
def payloads (es : List sysEvent_t) : List Nat :=
  (es.map (fun e => e.evPtr)).filter (fun p => decide (p ≠ 0))

/-- The bookkeeping of an interleaving of `PushEvent` calls and
`GetEvent`-then-`ProcessEvent` dispatches: the state, and so far the events
pushed, the events `GetEvent` obtained from `GetRealEvent`, and the events
evicted (at each overflowing push, the oldest event of the ring buffer). -/
structure PayloadLog where
  world : World
  pushed : List sysEvent_t
  fetched : List sysEvent_t
  evicted : List sysEvent_t

/-- An interleaving run from a state: `QueueOp.push` is a `PushEvent` call,
`QueueOp.get` a `GetEvent` call followed by `ProcessEvent` on the event it
returned.  The run ends with its last call, or at a `GetEvent` call that does
not return. -/
def payloadRun (H : Decls) : PayloadLog → List QueueOp → PayloadLog
  | L, [] => L
  | L, QueueOp.push event :: ops =>
    payloadRun H
      { world := PushEvent H L.world event
        pushed := L.pushed ++ [event]
        fetched := L.fetched
        evicted :=
          if overflows H L.world = true then
            L.evicted ++ (ringContents H L.world).head?.toList
          else L.evicted } ops
  | L, QueueOp.get :: ops =>
    match GetEvent H L.world with
    | .ok ev w1 =>
      payloadRun H
        { world := ProcessEvent w1 ev
          pushed := L.pushed
          fetched :=
            if L.world.com_pushedEventsHead > L.world.com_pushedEventsTail then L.fetched
            else L.fetched ++ [ev]
          evicted := L.evicted } ops
    | .fatal _ w1 =>
      { world := w1, pushed := L.pushed, fetched := L.fetched, evicted := L.evicted }
    | .crash w1 =>
      { world := w1, pushed := L.pushed, fetched := L.fetched, evicted := L.evicted }

/-- The log of a run that starts in the state `w`. -/
def PayloadLog.start (w : World) : PayloadLog :=
  { world := w, pushed := [], fetched := [], evicted := [] }

/-- What holds of the log along a run: the occupancy is between 0 and the
capacity; every event pushed or fetched is evicted, dispatched or still in the
ring buffer, once; and the pointers released are the payloads of the events
evicted or dispatched, each once. -/
structure PayloadInv (H : Decls) (L : PayloadLog) : Prop where
  le : L.world.com_pushedEventsTail ≤ L.world.com_pushedEventsHead
  occ : L.world.com_pushedEventsHead - L.world.com_pushedEventsTail ≤ H.MAX_PUSHED_EVENTS
  account : List.Perm (L.evicted ++ dispatched L.world.trace ++ ringContents H L.world)
    (L.pushed ++ L.fetched)
  released : List.Perm (freed L.world.trace)
    (payloads (L.evicted ++ dispatched L.world.trace))

/-- Modelled from the spec: what is assumed of the value `r` that `InvSqrt`
returns for `x`: it is positive and `r * r * x` is within `(1 ± 2 ^ (-10)) ^ 2`
of 1, that is, `r` is the reciprocal square root of `x` with a relative error of
at most `2 ^ (-10)`. -/
def InvSqrtAccurate (r x : ℚ) : Prop :=
  0 < r ∧ (1 - 1 / 2 ^ 10) * (1 - 1 / 2 ^ 10) ≤ r * r * x ∧
    r * r * x ≤ (1 + 1 / 2 ^ 10) * (1 + 1 / 2 ^ 10)

/-- The events the playback branch of `GetRealEvent` makes of the bytes `bs`
that the journal stream holds from its cursor on, one event per call, until a
read comes short: the record decoded, its payload pointer replaced, when the
record announces payload bytes, by the address the allocator hands out next
(`lastAlloc + 1`, then `lastAlloc + 2`, and so on).  The first argument bounds
the number of events. -/
def journalEvents (H : Decls) : Nat → List byte → Nat → List sysEvent_t
  | 0, _, _ => []
  | k + 1, bs, lastAlloc =>
    if (bs.take H.layout.size).length ≠ H.layout.size then []
    else if (H.layout.decode (bs.take H.layout.size)).evPtrLength ≠ 0 then
      if ((bs.drop H.layout.size).take
          (H.layout.decode (bs.take H.layout.size)).evPtrLength).length ≠
          (H.layout.decode (bs.take H.layout.size)).evPtrLength then []
      else
        { H.layout.decode (bs.take H.layout.size) with evPtr := lastAlloc + 1 } ::
          journalEvents H k
            ((bs.drop H.layout.size).drop (H.layout.decode (bs.take H.layout.size)).evPtrLength)
            (lastAlloc + 1)
    else
      H.layout.decode (bs.take H.layout.size) :: journalEvents H k (bs.drop H.layout.size) lastAlloc

/-- The real source of a state: the events it yields to successive
`GetRealEvent` calls.  In playback mode, the events of the journal stream
from its cursor on; otherwise the platform's pending events, and an event of
kind none once they are used up. -/
def realSource (H : Decls) (w : World) : List sysEvent_t :=
  if w.com_journal = 2 then
    match w.com_journalFile with
    | none => []
    | some f =>
      journalEvents H ((f.data.drop f.pos).length + 1) (f.data.drop f.pos) w.lastAlloc
  else w.sysEvents ++ [noneEvent]

/-- The events a pass can fetch: those of the ring buffer, then those of the
real source, up to the first event of kind none. -/
def available (H : Decls) (w : World) : List sysEvent_t :=
  (ringContents H w ++ realSource H w).takeWhile (fun e => decide (e.evType ≠ SE_NONE))

/-- The number of bytes the events `es` take on the journal stream: for each
its record and its payload bytes. -/
def journalRoom (H : Decls) (es : List sysEvent_t) : Nat :=
  (es.map (fun e => H.layout.size + e.evPtrLength)).sum

/-- Record mode can journal the events `es` the platform is about to yield: the
journal stream is open and has room for them; the payload of each is well
formed; no two of them share a payload, and none shares its payload with an
event of the ring buffer or of a secondary batch (which are dispatched, and
their payloads freed, before the event is fetched). -/
def recordReady (H : Decls) (w : World) (es : List sysEvent_t) : Prop :=
  (∃ f, w.com_journalFile = some f ∧ journalRoom H es ≤ f.room) ∧
  (∀ e ∈ es, wellFormedPayload w e) ∧
  (payloads es).Nodup ∧
  ∀ p ∈ payloads es,
    (∀ e ∈ ringContents H w, e.evPtr ≠ p) ∧ ∀ b ∈ w.sysBatches, ∀ e ∈ b, e.evPtr ≠ p

/-! ## Concrete values for the examples -/

/-- The `n` low base-256 digits of `v`, least significant first. -/
def leBytes : Nat → Nat → List byte
  | 0, _ => []
  | n + 1, v => UInt8.ofNat (v % 256) :: leBytes n (v / 256)

/-- The number a list of base-256 digits stands for, least significant first. -/
def leValue : List byte → Nat
  | [] => 0
  | b :: bs => b.toNat + 256 * leValue bs

/-- A numbering of the kinds, for `sampleLayout`. -/
def kindCode : sysEventType_t → Nat
  | SE_NONE => 0
  | SE_KEY => 1
  | SE_MOUSE => 3
  | SE_JOYSTICK_AXIS => 4
  | SE_CONSOLE => 5
  | SE_OTHER c => c

/-- The kind a number stands for, for `sampleLayout`. -/
def kindOfCode : Nat → sysEventType_t
  | 0 => SE_NONE
  | 1 => SE_KEY
  | 3 => SE_MOUSE
  | 4 => SE_JOYSTICK_AXIS
  | 5 => SE_CONSOLE
  | c => SE_OTHER c

/-- The 32-bit two's complement code of an integer. -/
def int32Code (i : Int) : Nat := (i % 4294967296).toNat

/-- The integer a 32-bit two's complement code stands for. -/
def int32OfCode (n : Nat) : Int := if n < 2147483648 then (n : Int) else (n : Int) - 4294967296

/-- A record layout for the examples: 24 bytes, little-endian, four 32-bit fields
and a 64-bit pointer. -/
def sampleLayout : RecordLayout :=
  { size := 24
    encode := fun e =>
      leBytes 4 (kindCode e.evType) ++ leBytes 4 (int32Code e.evValue) ++
        leBytes 4 (int32Code e.evValue2) ++ leBytes 4 e.evPtrLength ++ leBytes 8 e.evPtr
    decode := fun bs =>
      { evType := kindOfCode (leValue (bs.take 4))
        evValue := int32OfCode (leValue ((bs.drop 4).take 4))
        evValue2 := int32OfCode (leValue ((bs.drop 8).take 4))
        evPtrLength := leValue ((bs.drop 12).take 4)
        evPtr := leValue ((bs.drop 16).take 8) }
    encode_length := by
      intro e
      simp [leBytes] }

/-- A reciprocal square root for the examples: the `float` nearest to
`2 ^ 24 / Nat.sqrt ⌊x * 2 ^ 48⌋`. -/
def sampleInvSqrt (x : ℚ) : ℚ :=
  toFloat (2 ^ 24 / (Nat.sqrt ⌊x * 2 ^ 48⌋₊ : ℚ))

/-- Declarations for the examples: a ring buffer of 64 events, axis ids 2 and 3,
`sampleLayout`, and `sampleInvSqrt`. -/
def sampleDecls : Decls :=
  { MAX_PUSHED_EVENTS := 64
    RX_AXIS := 2
    RY_AXIS := 3
    layout := sampleLayout
    InvSqrt := sampleInvSqrt }

/-- A key-down event for key `n`, without payload. -/
def keyEvent (n : Int) : sysEvent_t :=
  { evType := SE_KEY, evValue := n, evValue2 := 1, evPtrLength := 0, evPtr := 0 }

/-- A console event whose payload of `len` bytes is at `p`. -/
def consoleEvent (p : Nat) (len : Nat) : sysEvent_t :=
  { evType := SE_CONSOLE, evValue := 0, evValue2 := 0, evPtrLength := len, evPtr := p }

/-- The state after static initialisation with journal mode `journal`, no payload
block, nothing pending on the platform. -/
def freshWorld (journal : Int) : World :=
  World.initial journal (fun _ => none) 0 [] []

/-- A file system on which every open succeeds, with an empty stream. -/
def openingFileSystem : FileSystem :=
  { OpenFileWrite := fun _ => some { data := [], pos := 0, room := 4096 }
    OpenFileRead := fun _ => some { data := [], pos := 0, room := 0 } }

/-- What a dispatch leaves alone: every component of the state but the payload
memory, the trace, the axis state and the platform's secondary batches. -/
def DispatchFrame (w w' : World) : Prop :=
  w'.com_journal = w.com_journal ∧
  w'.com_journalFile = w.com_journalFile ∧
  w'.com_journalDataFile = w.com_journalDataFile ∧
  w'.com_pushedEvents = w.com_pushedEvents ∧
  w'.com_pushedEventsHead = w.com_pushedEventsHead ∧
  w'.com_pushedEventsTail = w.com_pushedEventsTail ∧
  w'.printedWarning = w.printedWarning ∧
  w'.lastAlloc = w.lastAlloc ∧
  w'.sysEvents = w.sysEvents

/-- A playback state whose journal stream holds the record of a console event
with three payload bytes, and only one of those bytes. -/
def truncatedJournalWorld : World :=
  { freshWorld 2 with
    com_journalFile :=
      some { data := sampleLayout.encode (consoleEvent 7 3) ++ [104], pos := 0, room := 0 }
    com_journalDataFile := some { data := [], pos := 0, room := 0 } }

/-- A recording state: both streams open and empty; pending on the platform a
console event, its three payload bytes at address 7, and a key event. -/
def recordingWorld : World :=
  { freshWorld 1 with
    com_journalFile := some { data := [], pos := 0, room := 4096 }
    com_journalDataFile := some { data := [], pos := 0, room := 4096 }
    blocks := fun p => if p = 7 then some [104, 105, 10] else none
    lastAlloc := 7
    sysEvents := [consoleEvent 7 3, keyEvent 65] }

/-- A recording state: streams open and empty, one key event pending on the
platform, which reports after it a batch of one secondary key event. -/
def batchRecordingWorld : World :=
  { freshWorld 1 with
    com_journalFile := some { data := [], pos := 0, room := 4096 }
    com_journalDataFile := some { data := [], pos := 0, room := 4096 }
    sysEvents := [keyEvent 1]
    sysBatches := [[keyEvent 9]] }

/-- A playback state whose journal stream holds what the pass of
`batchRecordingWorld` writes (the record of the key event, then the record of
the event of kind none that ended the pass), the platform reporting the
secondary batches `batches`. -/
def journalPlaybackWorld (batches : List (List sysEvent_t)) : World :=
  { freshWorld 2 with
    com_journalFile :=
      some { data := sampleLayout.encode (keyEvent 1) ++ sampleLayout.encode zeroEvent
             pos := 0, room := 0 }
    com_journalDataFile := some { data := [], pos := 0, room := 0 }
    sysBatches := batches }

/-- The state at the end of the recording pass from `recordingWorld`. -/
def recordedWorld : World :=
  match RunEventLoop sampleDecls 5 recordingWorld false with
  | some o => o.world
  | none => recordingWorld

/-- A playback state for the journal the pass from `recordingWorld` writes: the
records of the console event, with its three payload bytes, of the key event and
of the event of kind none that ended the pass. -/
def replayingWorld : World :=
  { recordingWorld with
    com_journal := 2
    com_journalFile :=
      some { data := sampleLayout.encode (consoleEvent 7 3) ++ [104, 105, 10] ++
               sampleLayout.encode (keyEvent 65) ++ sampleLayout.encode zeroEvent
             pos := 0, room := 0 }
    sysEvents := [] }

/-- The key events for the keys `1, ..., n`. -/
def keyEvents (n : Nat) : List sysEvent_t :=
  (List.range n).map (fun (i : Nat) => keyEvent (Int.ofNat (i + 1)))

/-- A state, journal off, in which the platform has one key event pending and
reports, after it, a batch of one secondary event of kind none. -/
def secondaryNoneWorld : World :=
  { freshWorld 0 with sysEvents := [keyEvent 1], sysBatches := [[zeroEvent]] }

/-- A file system on which `journal.dat` cannot be opened and every other file
opens with an empty stream. -/
def partialFileSystem : FileSystem :=
  { OpenFileWrite := fun name =>
      if name = "journal.dat" then none else some { data := [], pos := 0, room := 4096 }
    OpenFileRead := fun name =>
      if name = "journal.dat" then none else some { data := [], pos := 0, room := 0 } }

/-- A state, journal off, in which the platform has pending a console event
with three payload bytes at address 7 and reports, after it, a batch of one
secondary key event. -/
def payloadBatchWorld : World :=
  { freshWorld 0 with
    blocks := fun p => if p = 7 then some [104, 105, 10] else none
    lastAlloc := 7
    sysEvents := [consoleEvent 7 3]
    sysBatches := [[keyEvent 9]] }

/-- A joystick-axis event: axis id `axis`, reading `value`. -/
def axisEvent (axis value : Int) : sysEvent_t :=
  { evType := SE_JOYSTICK_AXIS, evValue := axis, evValue2 := value, evPtrLength := 0, evPtr := 0 }

/-- A state, journal off, with axis state `(100, 0)` and two axis events for the
axis `RX_AXIS` of `sampleDecls` pending on the platform. -/
def axisWorld : World :=
  { freshWorld 0 with dx := 100, sysEvents := [axisEvent 2 200, axisEvent 2 300] }

/-- Declarations for the examples with a ring buffer of two events. -/
def smallDecls : Decls :=
  { sampleDecls with MAX_PUSHED_EVENTS := 2 }

/-- An interleaving: four pushes (with two slots, the last two overflow), one
`GetEvent`, and two more pushes (the second overflows). -/
def overflowingOps : List QueueOp :=
  (keyEvents 4).map QueueOp.push ++
    [QueueOp.get, QueueOp.push (keyEvent 5), QueueOp.push (keyEvent 6)]

/-- A state, journal off, with payload blocks of three bytes at the addresses
7, 8 and 9 and nothing pending on the platform. -/
def payloadWorld : World :=
  { freshWorld 0 with
    blocks := fun p => if p = 7 ∨ p = 8 ∨ p = 9 then some [104, 105, 10] else none
    lastAlloc := 9 }

/-- An interleaving: three pushes of console events with the payloads at 7, 8
and 9 (with two slots the third push evicts the first event), then three
dispatches (the two events left, then an event of kind none from the
platform). -/
def payloadOps : List QueueOp :=
  [QueueOp.push (consoleEvent 7 3), QueueOp.push (consoleEvent 8 3),
    QueueOp.push (consoleEvent 9 3), QueueOp.get, QueueOp.get, QueueOp.get]

/-- A state, journal off, with the axis state `(2184, -2184)`, at the edge of
the dead zone, and nothing pending on the platform. -/
def deadZoneWorld : World :=
  { freshWorld 0 with dx := 2184, dy := -2184 }

/-- A recording state like `recordingWorld` whose journal stream has no room
left (a full medium). -/
def fullJournalWorld : World :=
  { recordingWorld with com_journalFile := some { data := [], pos := 0, room := 0 } }

/-! ## Ring buffer: occupancy -/

theorem GetRealEvent_playback_counters (H : Decls) (w : World) :
    (GetRealEvent_playback H w).world.com_pushedEventsHead = w.com_pushedEventsHead ∧
    (GetRealEvent_playback H w).world.com_pushedEventsTail = w.com_pushedEventsTail := by
  unfold GetRealEvent_playback
  split
  · simp [Outcome.world]
  · dsimp only
    split_ifs <;> simp [Outcome.world, Mem_ClearedAlloc]

theorem GetRealEvent_record_counters (H : Decls) (w : World) (ev : sysEvent_t) :
    (GetRealEvent_record H w ev).world.com_pushedEventsHead = w.com_pushedEventsHead ∧
    (GetRealEvent_record H w ev).world.com_pushedEventsTail = w.com_pushedEventsTail := by
  unfold GetRealEvent_record
  split
  · simp [Outcome.world]
  · dsimp only
    split_ifs
    · simp [Outcome.world]
    · split
      · simp [Outcome.world]
      · split_ifs <;> simp [Outcome.world]
    · simp [Outcome.world]

theorem Sys_GetEvent_counters (w : World) :
    (Sys_GetEvent w).2.com_pushedEventsHead = w.com_pushedEventsHead ∧
    (Sys_GetEvent w).2.com_pushedEventsTail = w.com_pushedEventsTail := by
  unfold Sys_GetEvent
  cases w.sysEvents <;> simp [World.emit]

theorem GetRealEvent_counters (H : Decls) (w : World) :
    (GetRealEvent H w).world.com_pushedEventsHead = w.com_pushedEventsHead ∧
    (GetRealEvent H w).world.com_pushedEventsTail = w.com_pushedEventsTail := by
  unfold GetRealEvent
  dsimp only
  split_ifs
  · exact GetRealEvent_playback_counters H w
  · have h := GetRealEvent_record_counters H (Sys_GetEvent w).2 (Sys_GetEvent w).1
    have h0 := Sys_GetEvent_counters w
    exact ⟨h.1.trans h0.1, h.2.trans h0.2⟩
  · exact Sys_GetEvent_counters w

theorem PushEvent_head (H : Decls) (w : World) (e : sysEvent_t) :
    (PushEvent H w e).com_pushedEventsHead = w.com_pushedEventsHead + 1 := by
  unfold PushEvent
  dsimp only
  split_ifs <;> simp [Mem_Free]

theorem PushEvent_tail (H : Decls) (w : World) (e : sysEvent_t) :
    (PushEvent H w e).com_pushedEventsTail =
      if occupancy w ≥ H.MAX_PUSHED_EVENTS then w.com_pushedEventsTail + 1
      else w.com_pushedEventsTail := by
  unfold PushEvent occupancy
  dsimp only
  split_ifs <;> simp [Mem_Free]

theorem GetEvent_counters (H : Decls) (w : World) :
    (GetEvent H w).world.com_pushedEventsHead = w.com_pushedEventsHead ∧
    (GetEvent H w).world.com_pushedEventsTail =
      if w.com_pushedEventsHead > w.com_pushedEventsTail then w.com_pushedEventsTail + 1
      else w.com_pushedEventsTail := by
  unfold GetEvent
  dsimp only [World.emit]
  split_ifs with h
  · simp [Outcome.world]
  · exact GetRealEvent_counters H _

/-- C1. Ring-buffer occupancy invariant: in every state reachable from the empty
buffer (both counters zero) by `PushEvent` and `GetEvent` calls, the occupancy
`com_pushedEventsHead - com_pushedEventsTail`, taken over the integers, lies
between `0` and `MAX_PUSHED_EVENTS`. -/
theorem C1_occupancy_invariant (H : Decls) (w : World) (h : Reachable H w) :
    0 ≤ occupancy w ∧ occupancy w ≤ H.MAX_PUSHED_EVENTS := by
  induction h with
  | empty w hh ht => simp [occupancy, hh, ht]
  | push w e _ ih =>
    have hh := PushEvent_head H w e
    have ht := PushEvent_tail H w e
    unfold occupancy at *
    rw [hh, ht]
    split_ifs with hfull
    · push_cast
      omega
    · push_cast
      omega
  | get w _ ih =>
    have hc := GetEvent_counters H w
    unfold occupancy at *
    rw [hc.1, hc.2]
    split_ifs with hne
    · push_cast
      omega
    · omega

/-! ## Traces: projections and append -/

theorem freed_append (t u : List Effect) : freed (t ++ u) = freed t ++ freed u := by
  induction t with
  | nil => rfl
  | cons a t ih => cases a <;> simp [freed, ih]

theorem dispatched_append (t u : List Effect) :
    dispatched (t ++ u) = dispatched t ++ dispatched u := by
  induction t with
  | nil => rfl
  | cons a t ih => cases a <;> simp [dispatched, ih]

/-! ## Ring buffer: contents -/

theorem mod_ne_of_lt_of_sub_lt {a b c : Nat} (hab : a < b) (hc : b - a < c) : a % c ≠ b % c := by
  intro h
  have h1 : (b - a) % c = 0 := Nat.sub_mod_eq_zero_of_mod_eq h.symm
  rw [Nat.mod_eq_of_lt hc] at h1
  omega

theorem range_succ_map_eq_append {α : Type} (n : Nat) (f g : Nat → α) (e : α)
    (hfg : ∀ i, i < n → g i = f i) (hn : g n = e) :
    (List.range (n + 1)).map g = (List.range n).map f ++ [e] := by
  rw [List.range_succ, List.map_append, List.map_singleton, hn]
  congr 1
  apply List.map_congr_left
  intro i hi
  exact hfg i (List.mem_range.mp hi)

theorem range_succ_map_tail {α : Type} (n : Nat) (f : Nat → α) :
    ((List.range (n + 1)).map f).tail = (List.range n).map (fun i => f (i + 1)) := by
  rw [List.range_succ_eq_map]
  simp [List.map_map, Function.comp_def]

theorem ringContents_length (H : Decls) (w : World) :
    (ringContents H w).length = w.com_pushedEventsHead - w.com_pushedEventsTail := by
  simp [ringContents]

theorem PushEvent_slots (H : Decls) (w : World) (e : sysEvent_t) :
    (PushEvent H w e).com_pushedEvents =
      Function.update w.com_pushedEvents
        (w.com_pushedEventsHead &&& (H.MAX_PUSHED_EVENTS - 1)) e := by
  unfold PushEvent
  dsimp only
  split_ifs <;> simp [Mem_Free]

/-- The ring buffer as a queue: `PushEvent` appends the event, after dropping the
oldest one when the buffer is full. -/
theorem ringContents_PushEvent (H : Decls) (k : Nat) (w : World) (e : sysEvent_t)
    (hpow : H.MAX_PUSHED_EVENTS = 2 ^ k)
    (hle : w.com_pushedEventsTail ≤ w.com_pushedEventsHead)
    (hocc : w.com_pushedEventsHead - w.com_pushedEventsTail ≤ H.MAX_PUSHED_EVENTS) :
    ringContents H (PushEvent H w e) =
      (if w.com_pushedEventsHead - w.com_pushedEventsTail = H.MAX_PUSHED_EVENTS
        then (ringContents H w).tail else ringContents H w) ++ [e] := by
  have hpos : 0 < H.MAX_PUSHED_EVENTS := by rw [hpow]; positivity
  have hmask : ∀ x, x &&& (H.MAX_PUSHED_EVENTS - 1) = x % H.MAX_PUSHED_EVENTS := by
    intro x
    rw [hpow]
    exact Nat.and_pow_two_sub_one_eq_mod x k
  unfold ringContents
  rw [PushEvent_head, PushEvent_tail]
  simp only [hmask]
  rw [PushEvent_slots, hmask]
  unfold occupancy
  obtain ⟨n, hn⟩ : ∃ n, w.com_pushedEventsHead = w.com_pushedEventsTail + n :=
    ⟨w.com_pushedEventsHead - w.com_pushedEventsTail, by omega⟩
  rw [hn] at hocc ⊢
  have hn2 : n ≤ H.MAX_PUSHED_EVENTS := by omega
  by_cases hfull : n = H.MAX_PUSHED_EVENTS
  · have h1 : ((w.com_pushedEventsTail + n : Nat) : Int) - (w.com_pushedEventsTail : Int)
        ≥ (H.MAX_PUSHED_EVENTS : Int) := by push_cast; omega
    rw [if_pos h1, if_pos (by omega)]
    obtain ⟨m, hm⟩ : ∃ m, n = m + 1 := ⟨n - 1, by omega⟩
    have e1 : w.com_pushedEventsTail + n + 1 - (w.com_pushedEventsTail + 1) = m + 1 := by omega
    have e2 : w.com_pushedEventsTail + n - w.com_pushedEventsTail = m + 1 := by omega
    rw [e1, e2, range_succ_map_tail]
    apply range_succ_map_eq_append
    · intro i hi
      rw [Function.update_noteq]
      · congr 2
        omega
      · apply mod_ne_of_lt_of_sub_lt <;> omega
    · have e3 : w.com_pushedEventsTail + 1 + m = w.com_pushedEventsTail + n := by omega
      rw [e3, Function.update_same]
  · have h1 : ¬ (((w.com_pushedEventsTail + n : Nat) : Int) - (w.com_pushedEventsTail : Int)
        ≥ (H.MAX_PUSHED_EVENTS : Int)) := by push_cast; omega
    rw [if_neg h1, if_neg (by omega)]
    have e1 : w.com_pushedEventsTail + n + 1 - w.com_pushedEventsTail = n + 1 := by omega
    have e2 : w.com_pushedEventsTail + n - w.com_pushedEventsTail = n := by omega
    rw [e1, e2]
    apply range_succ_map_eq_append
    · intro i hi
      rw [Function.update_noteq]
      apply mod_ne_of_lt_of_sub_lt <;> omega
    · rw [Function.update_same]

theorem GetEvent_ring (H : Decls) (w : World)
    (h : w.com_pushedEventsTail < w.com_pushedEventsHead) :
    GetEvent H w =
      .ok (w.com_pushedEvents (w.com_pushedEventsTail &&& (H.MAX_PUSHED_EVENTS - 1)))
        { w with com_pushedEventsTail := w.com_pushedEventsTail + 1
                 trace := w.trace ++ [Effect.GetEvent] } := by
  unfold GetEvent
  simp [World.emit, h]

theorem GetEvent_empty (H : Decls) (w : World)
    (h : ¬ w.com_pushedEventsTail < w.com_pushedEventsHead) :
    GetEvent H w = GetRealEvent H (w.emit Effect.GetEvent) := by
  unfold GetEvent
  simp only [World.emit] at h ⊢
  rw [if_neg (by simpa using h)]

theorem ringContents_eq_cons (H : Decls) (w : World)
    (h : w.com_pushedEventsTail < w.com_pushedEventsHead) :
    ringContents H w =
      w.com_pushedEvents (w.com_pushedEventsTail &&& (H.MAX_PUSHED_EVENTS - 1)) ::
        ringContents H { w with com_pushedEventsTail := w.com_pushedEventsTail + 1
                                trace := w.trace ++ [Effect.GetEvent] } := by
  unfold ringContents
  obtain ⟨n, hn⟩ : ∃ n, w.com_pushedEventsHead = w.com_pushedEventsTail + (n + 1) :=
    ⟨w.com_pushedEventsHead - w.com_pushedEventsTail - 1, by omega⟩
  have e1 : w.com_pushedEventsHead - w.com_pushedEventsTail = n + 1 := by omega
  have e2 : w.com_pushedEventsHead - (w.com_pushedEventsTail + 1) = n := by omega
  simp only [e1, e2]
  rw [List.range_succ_eq_map]
  simp only [List.map_cons, List.map_map, Nat.add_zero, List.cons.injEq, true_and]
  apply List.map_congr_left
  intro i _
  simp only [Function.comp_apply, Nat.succ_eq_add_one]
  congr 2
  omega

/-- The ring buffer as a queue: as many `GetEvent` calls as the buffer holds
events return its contents, oldest first, from the buffer alone. -/
theorem getEvents_ring (H : Decls) (n : Nat) (w : World)
    (h : w.com_pushedEventsTail + n = w.com_pushedEventsHead) :
    getEvents H n w =
      some (ringContents H w,
        { w with com_pushedEventsTail := w.com_pushedEventsHead
                 trace := w.trace ++ List.replicate n Effect.GetEvent }) := by
  induction n generalizing w with
  | zero =>
    cases w
    simp only [Nat.add_zero] at h
    subst h
    simp [getEvents, ringContents]
  | succ n ih =>
    have hlt : w.com_pushedEventsTail < w.com_pushedEventsHead := by omega
    rw [getEvents, GetEvent_ring H w hlt]
    dsimp only
    rw [ih _ (by simp only; omega), ringContents_eq_cons H w hlt]
    simp [List.replicate_succ]

theorem PushEvent_trace (H : Decls) (w : World) (e : sysEvent_t) :
    (PushEvent H w e).trace =
      w.trace ++
        (if occupancy w ≥ H.MAX_PUSHED_EVENTS then
          (if w.printedWarning = false
            then [Effect.Printf "WARNING: Com_PushEvent overflow\n"] else []) ++
          (if (w.com_pushedEvents
                (w.com_pushedEventsHead &&& (H.MAX_PUSHED_EVENTS - 1))).evPtr ≠ 0
            then [Effect.Mem_Free (w.com_pushedEvents
                (w.com_pushedEventsHead &&& (H.MAX_PUSHED_EVENTS - 1))).evPtr] else [])
        else []) := by
  unfold PushEvent occupancy
  dsimp only
  split_ifs <;> simp [Mem_Free]

theorem PushEvent_printedWarning (H : Decls) (w : World) (e : sysEvent_t) :
    (PushEvent H w e).printedWarning =
      decide (occupancy w ≥ H.MAX_PUSHED_EVENTS) := by
  unfold PushEvent occupancy
  dsimp only
  split_ifs <;> simp_all [Mem_Free]

theorem PushEvent_frame (H : Decls) (w : World) (e : sysEvent_t) :
    (PushEvent H w e).sysEvents = w.sysEvents ∧
    (PushEvent H w e).sysBatches = w.sysBatches ∧
    (PushEvent H w e).com_journal = w.com_journal ∧
    (PushEvent H w e).com_journalFile = w.com_journalFile ∧
    (PushEvent H w e).com_journalDataFile = w.com_journalDataFile ∧
    (PushEvent H w e).dx = w.dx ∧
    (PushEvent H w e).dy = w.dy ∧
    (PushEvent H w e).lastAlloc = w.lastAlloc := by
  unfold PushEvent
  dsimp only
  split_ifs <;> simp [Mem_Free]

theorem pushAll_frame (H : Decls) (es : List sysEvent_t) (w : World) :
    (pushAll H w es).sysEvents = w.sysEvents ∧
    (pushAll H w es).sysBatches = w.sysBatches ∧
    (pushAll H w es).com_journal = w.com_journal ∧
    (pushAll H w es).com_journalFile = w.com_journalFile ∧
    (pushAll H w es).com_journalDataFile = w.com_journalDataFile ∧
    (pushAll H w es).dx = w.dx ∧
    (pushAll H w es).dy = w.dy ∧
    (pushAll H w es).lastAlloc = w.lastAlloc := by
  induction es generalizing w with
  | nil => simp [pushAll]
  | cons e es ih =>
    have h1 := ih (PushEvent H w e)
    have h2 := PushEvent_frame H w e
    simp only [pushAll, List.foldl_cons] at h1 ⊢
    refine ⟨h1.1.trans h2.1, h1.2.1.trans h2.2.1, h1.2.2.1.trans h2.2.2.1,
      h1.2.2.2.1.trans h2.2.2.2.1, h1.2.2.2.2.1.trans h2.2.2.2.2.1,
      h1.2.2.2.2.2.1.trans h2.2.2.2.2.2.1, h1.2.2.2.2.2.2.1.trans h2.2.2.2.2.2.2.1,
      h1.2.2.2.2.2.2.2.trans h2.2.2.2.2.2.2.2⟩

theorem pushAll_append (H : Decls) (w : World) (es : List sysEvent_t) (e : sysEvent_t) :
    pushAll H w (es ++ [e]) = PushEvent H (pushAll H w es) e := by
  simp [pushAll, List.foldl_append]

/-- Pushing events that all fit: the contents grow by the events, nothing is
released or printed. -/
theorem pushAll_room (H : Decls) (k : Nat) (es : List sysEvent_t) (w : World)
    (hpow : H.MAX_PUSHED_EVENTS = 2 ^ k)
    (hle : w.com_pushedEventsTail ≤ w.com_pushedEventsHead)
    (hroom : w.com_pushedEventsHead - w.com_pushedEventsTail + es.length
      ≤ H.MAX_PUSHED_EVENTS) :
    (pushAll H w es).com_pushedEventsHead = w.com_pushedEventsHead + es.length ∧
    (pushAll H w es).com_pushedEventsTail = w.com_pushedEventsTail ∧
    ringContents H (pushAll H w es) = ringContents H w ++ es ∧
    (pushAll H w es).trace = w.trace ∧
    (es ≠ [] → (pushAll H w es).printedWarning = false) := by
  induction es generalizing w with
  | nil => simp [pushAll]
  | cons e es ih =>
    simp only [List.length_cons] at hroom
    have hnf : ¬ (occupancy w ≥ H.MAX_PUSHED_EVENTS) := by
      unfold occupancy
      omega
    have hh := PushEvent_head H w e
    have ht := PushEvent_tail H w e
    rw [if_neg hnf] at ht
    have hc := ringContents_PushEvent H k w e hpow hle (by omega)
    rw [if_neg (by omega)] at hc
    have htr := PushEvent_trace H w e
    rw [if_neg hnf, List.append_nil] at htr
    have hpw := PushEvent_printedWarning H w e
    rw [decide_eq_false hnf] at hpw
    have h1 := ih (PushEvent H w e) (by omega) (by rw [hh, ht]; omega)
    simp only [pushAll, List.foldl_cons, List.length_cons] at h1 ⊢
    refine ⟨by rw [h1.1, hh]; omega, by rw [h1.2.1, ht], ?_, by rw [h1.2.2.2.1, htr], ?_⟩
    · rw [h1.2.2.1, hc]
      simp
    · intro _
      by_cases hes : es = []
      · subst hes
        simpa using hpw
      · exact h1.2.2.2.2 hes

theorem full_slot_eq_head (H : Decls) (k : Nat) (w : World)
    (hpow : H.MAX_PUSHED_EVENTS = 2 ^ k)
    (hfull : w.com_pushedEventsHead = w.com_pushedEventsTail + H.MAX_PUSHED_EVENTS) :
    (ringContents H w).head? =
      some (w.com_pushedEvents (w.com_pushedEventsHead &&& (H.MAX_PUSHED_EVENTS - 1))) := by
  have hpos : 0 < H.MAX_PUSHED_EVENTS := by rw [hpow]; positivity
  have hlt : w.com_pushedEventsTail < w.com_pushedEventsHead := by omega
  rw [ringContents_eq_cons H w hlt, List.head?_cons]
  congr 2
  rw [hpow, Nat.and_pow_two_sub_one_eq_mod, Nat.and_pow_two_sub_one_eq_mod, ← hpow, hfull]
  simp

/-- C2. Overflow eviction: `C + 1` events `e0, es` (with `C = MAX_PUSHED_EVENTS`
a power of two) pushed into an empty ring buffer leave it holding exactly the
`C` events `es`; the only payload released is that of `e0`, once, when it is
not null; the next `C` calls of `GetEvent` return `es` in order, taken from the
buffer alone (the platform queue and the journal stream are untouched, the trace
grows by the `GetEvent` calls only), and leave the buffer empty, so `e0` is never
returned. -/
theorem C2_overflow_eviction (H : Decls) (k : Nat) (w : World) (e0 : sysEvent_t)
    (es : List sysEvent_t)
    (hpow : H.MAX_PUSHED_EVENTS = 2 ^ k)
    (hempty : w.com_pushedEventsHead = w.com_pushedEventsTail)
    (hlen : es.length = H.MAX_PUSHED_EVENTS) :
    occupancy (pushAll H w (e0 :: es)) = H.MAX_PUSHED_EVENTS ∧
    ringContents H (pushAll H w (e0 :: es)) = es ∧
    freed (pushAll H w (e0 :: es)).trace =
      freed w.trace ++ (if e0.evPtr ≠ 0 then [e0.evPtr] else []) ∧
    ∃ w2, getEvents H H.MAX_PUSHED_EVENTS (pushAll H w (e0 :: es)) = some (es, w2) ∧
      w2.sysEvents = w.sysEvents ∧
      w2.com_journalFile = w.com_journalFile ∧
      w2.trace = (pushAll H w (e0 :: es)).trace ++
        List.replicate H.MAX_PUSHED_EVENTS Effect.GetEvent ∧
      occupancy w2 = 0 := by
  have hpos : 0 < H.MAX_PUSHED_EVENTS := by rw [hpow]; positivity
  obtain ⟨ini, lst, hes⟩ : ∃ ini lst, es = ini ++ [lst] := by
    have hne : es ≠ [] := by
      intro h
      rw [h] at hlen
      simp at hlen
      omega
    exact ⟨es.dropLast, es.getLast hne, (List.dropLast_append_getLast hne).symm⟩
  have hini : ini.length + 1 = H.MAX_PUSHED_EVENTS := by
    rw [← hlen, hes]
    simp
  have hsplit : e0 :: es = (e0 :: ini) ++ [lst] := by rw [hes]; rfl
  have hr := pushAll_room H k (e0 :: ini) w hpow (by omega)
    (by simp only [List.length_cons]; omega)
  obtain ⟨hh, ht, hc, htr, hpw⟩ := hr
  have hc0 : ringContents H w = [] := by
    simp [ringContents, hempty]
  rw [hc0, List.nil_append] at hc
  have hfull : (pushAll H w (e0 :: ini)).com_pushedEventsHead =
      (pushAll H w (e0 :: ini)).com_pushedEventsTail + H.MAX_PUSHED_EVENTS := by
    rw [hh, ht]
    simp only [List.length_cons]
    omega
  have hslot := full_slot_eq_head H k _ hpow hfull
  rw [hc, List.head?_cons, Option.some.injEq] at hslot
  have hocc : occupancy (pushAll H w (e0 :: ini)) ≥ H.MAX_PUSHED_EVENTS := by
    unfold occupancy
    rw [hfull]
    push_cast
    omega
  have hh2 := PushEvent_head H (pushAll H w (e0 :: ini)) lst
  have ht2 := PushEvent_tail H (pushAll H w (e0 :: ini)) lst
  rw [if_pos hocc] at ht2
  have hc2 := ringContents_PushEvent H k (pushAll H w (e0 :: ini)) lst hpow (by omega)
    (by omega)
  rw [if_pos (by omega), hc, List.tail_cons] at hc2
  have htr2 := PushEvent_trace H (pushAll H w (e0 :: ini)) lst
  rw [if_pos hocc, ← hslot, hpw (by simp), htr] at htr2
  have hfr := PushEvent_frame H (pushAll H w (e0 :: ini)) lst
  have hfr0 := pushAll_frame H (e0 :: ini) w
  rw [hsplit, pushAll_append]
  refine ⟨?_, ?_, ?_, ?_⟩
  · unfold occupancy
    rw [hh2, ht2, hfull]
    push_cast
    omega
  · rw [hc2, hes]
  · rw [htr2]
    by_cases hp : e0.evPtr = 0
    · simp [hp, freed_append, freed]
    · simp [hp, freed_append, freed]
  · have hg := getEvents_ring H H.MAX_PUSHED_EVENTS
      (PushEvent H (pushAll H w (e0 :: ini)) lst) (by rw [hh2, ht2, hfull]; omega)
    refine ⟨_, hg.trans (by rw [hc2, hes]), ?_, ?_, rfl, ?_⟩
    · exact hfr.1.trans hfr0.1
    · exact hfr.2.2.2.1.trans hfr0.2.2.2.1
    · simp [occupancy]

/-- C1 at a concrete state: one key event pushed into the empty ring buffer. -/
theorem C1_occupancy_invariant_witness :
    0 ≤ occupancy (PushEvent sampleDecls (freshWorld 0) (keyEvent 1)) ∧
    occupancy (PushEvent sampleDecls (freshWorld 0) (keyEvent 1)) ≤
      sampleDecls.MAX_PUSHED_EVENTS :=
  C1_occupancy_invariant sampleDecls _
    (Reachable.push _ _ (Reachable.empty (freshWorld 0) rfl rfl))

/-- C2 at a concrete input: a console event with payload at address 7, then 64
key events, pushed into the empty ring buffer of 64 slots. -/
theorem C2_overflow_eviction_witness :
    occupancy (pushAll sampleDecls (freshWorld 0)
      (consoleEvent 7 3 :: List.replicate 64 (keyEvent 1))) = 64 ∧
    freed (pushAll sampleDecls (freshWorld 0)
      (consoleEvent 7 3 :: List.replicate 64 (keyEvent 1))).trace = [7] := by
  have h := C2_overflow_eviction sampleDecls 6 (freshWorld 0) (consoleEvent 7 3)
    (List.replicate 64 (keyEvent 1)) (by decide) rfl (by simp [sampleDecls])
  exact ⟨h.1, h.2.2.1⟩

/-! ## Routing -/

theorem cmdTexts_append (t u : List Effect) : cmdTexts (t ++ u) = cmdTexts t ++ cmdTexts u := by
  induction t with
  | nil => rfl
  | cons a t ih => cases a <;> simp [cmdTexts, ih]

theorem sessionCalls_append (t u : List Effect) :
    sessionCalls (t ++ u) = sessionCalls t ++ sessionCalls u := by
  induction t with
  | nil => rfl
  | cons a t ih => cases a <;> simp [sessionCalls, ih]

/-- The calls `ProcessEvent` makes, in order. -/
theorem ProcessEvent_trace (w : World) (ev : sysEvent_t) :
    (ProcessEvent w ev).trace =
      w.trace ++ [Effect.ProcessEvent ev (payloadAt w ev.evPtr)] ++
        (if ev.evType = SE_KEY
          then [Effect.PreliminaryKeyEvent ev.evValue (decide (ev.evValue2 ≠ 0))] else []) ++
        (if ev.evType = SE_CONSOLE
          then [Effect.BufferCommandText (CmdText.payload ev.evPtr),
                Effect.BufferCommandText (CmdText.literal "\n")]
          else [Effect.session_ProcessEvent ev]) ++
        (if ev.evPtr ≠ 0 then [Effect.Mem_Free ev.evPtr] else []) := by
  unfold ProcessEvent
  dsimp only
  split_ifs <;> simp [Mem_Free, World.emit]

/-- C6. Routing is total and exclusive: for every event (so for every event of
kind other than none) `ProcessEvent` appends calls `added` to the trace such
that, when the kind is `SE_CONSOLE`, the command buffer receives the payload
text and then the line terminator and the session receives nothing, and, for
every other kind, the session receives exactly the event, once, and the command
buffer receives nothing. -/
theorem C6_routing_total_exclusive (w : World) (ev : sysEvent_t) :
    ∃ added, (ProcessEvent w ev).trace = w.trace ++ added ∧
      (ev.evType = SE_CONSOLE →
        cmdTexts added = [CmdText.payload ev.evPtr, CmdText.literal "\n"] ∧
        sessionCalls added = []) ∧
      (ev.evType ≠ SE_CONSOLE →
        cmdTexts added = [] ∧ sessionCalls added = [ev]) := by
  refine ⟨_, by rw [ProcessEvent_trace, List.append_assoc, List.append_assoc,
    List.append_assoc], ?_, ?_⟩
  · intro hc
    have hk : ev.evType ≠ SE_KEY := by rw [hc]; decide
    simp only [hc, hk, if_true, if_false, cmdTexts_append, sessionCalls_append]
    constructor <;> split_ifs <;> simp [cmdTexts, sessionCalls]
  · intro hc
    simp only [hc, if_false, cmdTexts_append, sessionCalls_append]
    constructor <;> split_ifs <;> simp [cmdTexts, sessionCalls]

/-! ## What a dispatch leaves alone -/

theorem DispatchFrame.refl (w : World) : DispatchFrame w w := by
  simp [DispatchFrame]

theorem DispatchFrame.trans {a b c : World} (h1 : DispatchFrame a b) (h2 : DispatchFrame b c) :
    DispatchFrame a c := by
  unfold DispatchFrame at *
  obtain ⟨a1, a2, a3, a4, a5, a6, a7, a8, a9⟩ := h1
  obtain ⟨b1, b2, b3, b4, b5, b6, b7, b8, b9⟩ := h2
  exact ⟨b1.trans a1, b2.trans a2, b3.trans a3, b4.trans a4, b5.trans a5, b6.trans a6,
    b7.trans a7, b8.trans a8, b9.trans a9⟩

theorem ProcessEvent_frame (w : World) (ev : sysEvent_t) : DispatchFrame w (ProcessEvent w ev) := by
  unfold ProcessEvent DispatchFrame
  dsimp only
  split_ifs <;> simp [Mem_Free, World.emit]

theorem ProcessEvent_axis (w : World) (ev : sysEvent_t) :
    (ProcessEvent w ev).dx = w.dx ∧ (ProcessEvent w ev).dy = w.dy ∧
    (ProcessEvent w ev).sysBatches = w.sysBatches := by
  unfold ProcessEvent
  dsimp only
  split_ifs <;> simp [Mem_Free, World.emit]

theorem drainSysEvents_frame (b : List sysEvent_t) (w : World) (i : Nat) :
    DispatchFrame w (drainSysEvents w i b) := by
  induction b generalizing w i with
  | nil => exact DispatchFrame.refl w
  | cons e b ih =>
    rw [drainSysEvents]
    refine DispatchFrame.trans ?_ (ih _ _)
    refine DispatchFrame.trans ?_ (ProcessEvent_frame _ e)
    simp [DispatchFrame, World.emit]

theorem drainSysEvents_axis (b : List sysEvent_t) (w : World) (i : Nat) :
    (drainSysEvents w i b).dx = w.dx ∧ (drainSysEvents w i b).dy = w.dy ∧
    (drainSysEvents w i b).sysBatches = w.sysBatches := by
  induction b generalizing w i with
  | nil => simp [drainSysEvents]
  | cons e b ih =>
    rw [drainSysEvents]
    have h1 := ih (ProcessEvent (w.emit (Effect.Sys_ReturnSysEvent i e)) e) (i + 1)
    have h2 := ProcessEvent_axis (w.emit (Effect.Sys_ReturnSysEvent i e)) e
    exact ⟨h1.1.trans h2.1, h1.2.1.trans h2.2.1, h1.2.2.trans h2.2.2⟩

theorem updateAxis_frame (H : Decls) (w : World) (ev : sysEvent_t) :
    DispatchFrame w (updateAxis H w ev) := by
  unfold updateAxis DispatchFrame
  split_ifs <;> simp

theorem Sys_PollSysEvents_frame (w : World) : DispatchFrame w (Sys_PollSysEvents w).2 := by
  unfold Sys_PollSysEvents DispatchFrame
  cases w.sysBatches <;> simp [World.emit]

theorem handlePrimary_frame (H : Decls) (w : World) (ev : sysEvent_t) :
    DispatchFrame w (handlePrimary H w ev) := by
  unfold handlePrimary
  dsimp only
  refine DispatchFrame.trans (ProcessEvent_frame w ev) ?_
  refine DispatchFrame.trans (updateAxis_frame H _ ev) ?_
  refine DispatchFrame.trans (Sys_PollSysEvents_frame _) ?_
  refine DispatchFrame.trans (drainSysEvents_frame
    (Sys_PollSysEvents (updateAxis H (ProcessEvent w ev) ev)).1
    (Sys_PollSysEvents (updateAxis H (ProcessEvent w ev) ev)).2 0) ?_
  simp [DispatchFrame, World.emit]

/-! ## The journal mode -/

theorem GetRealEvent_playback_journal (H : Decls) (w : World) :
    (GetRealEvent_playback H w).world.com_journal = w.com_journal := by
  unfold GetRealEvent_playback
  split
  · simp [Outcome.world]
  · dsimp only
    split_ifs <;> simp [Outcome.world, Mem_ClearedAlloc]

theorem GetRealEvent_record_journal (H : Decls) (w : World) (ev : sysEvent_t) :
    (GetRealEvent_record H w ev).world.com_journal = w.com_journal := by
  unfold GetRealEvent_record
  split
  · simp [Outcome.world]
  · dsimp only
    split_ifs
    · simp [Outcome.world]
    · split
      · simp [Outcome.world]
      · split_ifs <;> simp [Outcome.world]
    · simp [Outcome.world]

theorem Sys_GetEvent_journal (w : World) : (Sys_GetEvent w).2.com_journal = w.com_journal := by
  unfold Sys_GetEvent
  cases w.sysEvents <;> simp [World.emit]

theorem GetRealEvent_journal (H : Decls) (w : World) :
    (GetRealEvent H w).world.com_journal = w.com_journal := by
  unfold GetRealEvent
  dsimp only
  split_ifs
  · exact GetRealEvent_playback_journal H w
  · exact (GetRealEvent_record_journal H _ _).trans (Sys_GetEvent_journal w)
  · exact Sys_GetEvent_journal w

theorem GetEvent_journal (H : Decls) (w : World) :
    (GetEvent H w).world.com_journal = w.com_journal := by
  unfold GetEvent
  dsimp only [World.emit]
  split_ifs
  · simp [Outcome.world]
  · exact GetRealEvent_journal H _

theorem RunEventLoop_loop_journal (H : Decls) (ce : Bool) (fuel : Nat) (w : World)
    (o : Outcome Int) (h : RunEventLoop_loop H ce fuel w = some o) :
    o.world.com_journal = w.com_journal := by
  induction fuel generalizing w with
  | zero => simp [RunEventLoop_loop] at h
  | succ n ih =>
    rw [RunEventLoop_loop] at h
    have hg := GetEvent_journal H (if ce = true then w.emit Effect.ExecuteCommandBuffer else w)
    have hw : (if ce = true then w.emit Effect.ExecuteCommandBuffer else w).com_journal
        = w.com_journal := by
      split_ifs <;> simp [World.emit]
    rw [hw] at hg
    cases hge : GetEvent H (if ce = true then w.emit Effect.ExecuteCommandBuffer else w) with
    | fatal m w2 =>
      rw [hge] at h hg
      simp only [Option.some.injEq] at h
      subst h
      exact hg
    | crash w2 =>
      rw [hge] at h hg
      simp only [Option.some.injEq] at h
      subst h
      exact hg
    | ok ev w2 =>
      rw [hge] at h hg
      simp only [Outcome.world] at hg
      dsimp only at h
      split_ifs at h with hne
      · exact (ih _ h).trans ((handlePrimary_frame H w2 ev).1.trans hg)
      · simp only [Option.some.injEq] at h
        subst h
        exact hg

theorem RunEventLoop_journal (H : Decls) (ce : Bool) (fuel : Nat) (w : World)
    (o : Outcome Int) (h : RunEventLoop H fuel w ce = some o) :
    o.world.com_journal = w.com_journal := by
  unfold RunEventLoop at h
  dsimp only at h
  refine (RunEventLoop_loop_journal H ce fuel _ o h).trans ?_
  split_ifs
  · exact (ProcessEvent_frame w _).1
  · rfl

/-- C10. Journal mode after `Init`: for a configured mode `c` in `{0, 1, 2}` and
whatever the opens return, `Init` on the freshly constructed object (the handle
`com_journalFile` null) leaves the mode at `c` with both handles open when `c`
is 1 or 2 and both streams opened, and leaves mode 0 with both handles null in
every other case; afterwards `GetRealEvent`, `PushEvent`, `GetEvent`, `ProcessEvent`
and `RunEventLoop` never change the mode, in whatever state they are called
and however they end. -/
theorem C10_journal_mode_after_Init (H : Decls) (fs : FileSystem) (w : World) (c : Int)
    (hc : c = 0 ∨ c = 1 ∨ c = 2) (hw : w.com_journal = c)
    (h1 : w.com_journalFile = none) :
    (((c = 1 ∧ fs.OpenFileWrite "journal.dat" ≠ none ∧
          fs.OpenFileWrite "journaldata.dat" ≠ none) ∨
        (c = 2 ∧ fs.OpenFileRead "journal.dat" ≠ none ∧
          fs.OpenFileRead "journaldata.dat" ≠ none)) →
      (Init fs w).com_journal = c ∧ (Init fs w).com_journalFile ≠ none ∧
        (Init fs w).com_journalDataFile ≠ none) ∧
    (¬ ((c = 1 ∧ fs.OpenFileWrite "journal.dat" ≠ none ∧
          fs.OpenFileWrite "journaldata.dat" ≠ none) ∨
        (c = 2 ∧ fs.OpenFileRead "journal.dat" ≠ none ∧
          fs.OpenFileRead "journaldata.dat" ≠ none)) →
      (Init fs w).com_journal = 0 ∧ (Init fs w).com_journalFile = none ∧
        (Init fs w).com_journalDataFile = none) ∧
    (∀ (v : World) (e : sysEvent_t),
      (GetRealEvent H v).world.com_journal = v.com_journal ∧
      (PushEvent H v e).com_journal = v.com_journal ∧
      (GetEvent H v).world.com_journal = v.com_journal ∧
      (ProcessEvent v e).com_journal = v.com_journal ∧
      ∀ (fuel : Nat) (ce : Bool) (o : Outcome Int),
        RunEventLoop H fuel v ce = some o → o.world.com_journal = v.com_journal) := by
  refine ⟨?_, ?_, ?_⟩
  · rintro (⟨rfl, ha, hb⟩ | ⟨rfl, ha, hb⟩)
    · unfold Init
      simp [hw, ha, hb]
    · unfold Init
      simp [hw, ha, hb]
  · intro hn
    unfold Init
    rcases hc with rfl | rfl | rfl
    · simp [hw, h1]
    · simp only [hw, if_true]
      simp only [true_and, ne_eq, OfNat.one_ne_ofNat, false_and, or_false, not_and,
        not_not] at hn
      by_cases ha : fs.OpenFileWrite "journal.dat" = none
      · simp [ha]
      · simp [ha, hn ha]
    · simp only [hw]
      simp only [OfNat.ofNat_ne_one, false_and, true_and, ne_eq, false_or, not_and,
        not_not] at hn
      by_cases ha : fs.OpenFileRead "journal.dat" = none
      · simp [ha]
      · simp [ha, hn ha]
  · intro v e
    exact ⟨GetRealEvent_journal H v, (PushEvent_frame H v e).2.2.1, GetEvent_journal H v,
      (ProcessEvent_frame v e).1, fun fuel ce o h => RunEventLoop_journal H ce fuel v o h⟩

/-- C10 at a concrete input: mode 1 configured, every open succeeds. -/
theorem C10_journal_mode_after_Init_witness :
    (Init openingFileSystem (freshWorld 1)).com_journal = 1 ∧
    (Init openingFileSystem (freshWorld 1)).com_journalFile ≠ none ∧
    (Init openingFileSystem (freshWorld 1)).com_journalDataFile ≠ none :=
  (C10_journal_mode_after_Init sampleDecls openingFileSystem (freshWorld 1) 1
    (by decide) rfl rfl).1 (Or.inl ⟨rfl, by decide, by decide⟩)

/-! ## Journal: truncation -/

theorem idFile.Read_length_le (f : idFile) (len : Nat) : (f.Read len).1.length ≤ len := by
  simp [idFile.Read, List.length_take]

theorem GetRealEvent_playback_fatal_iff (H : Decls) (w : World) (f : idFile)
    (hfile : w.com_journalFile = some f) :
    (∃ msg w', GetRealEvent_playback H w = .fatal msg w') ↔
      ((f.Read H.layout.size).1.length < H.layout.size ∨
        ((H.layout.decode (f.Read H.layout.size).1).evPtrLength ≠ 0 ∧
          ((f.Read H.layout.size).2.Read
              (H.layout.decode (f.Read H.layout.size).1).evPtrLength).1.length <
            (H.layout.decode (f.Read H.layout.size).1).evPtrLength)) := by
  have hl1 := idFile.Read_length_le f H.layout.size
  have hl2 := idFile.Read_length_le (f.Read H.layout.size).2
    (H.layout.decode (f.Read H.layout.size).1).evPtrLength
  unfold GetRealEvent_playback
  rw [hfile]
  dsimp only
  split_ifs with h1 h2 h3
  · constructor
    · intro _
      left
      omega
    · intro _
      exact ⟨_, _, rfl⟩
  · constructor
    · intro _
      right
      exact ⟨h2, by omega⟩
    · intro _
      exact ⟨_, _, rfl⟩
  · constructor
    · rintro ⟨m, w', h⟩
      cases h
    · rintro (h | ⟨_, h⟩)
      · omega
      · omega
  · constructor
    · rintro ⟨m, w', h⟩
      cases h
    · rintro (h | ⟨h, _⟩)
      · omega
      · exact absurd h h2

theorem GetRealEvent_playback_dispatched (H : Decls) (w : World) :
    dispatched (GetRealEvent_playback H w).world.trace = dispatched w.trace := by
  unfold GetRealEvent_playback
  split
  · simp [Outcome.world]
  · dsimp only
    split_ifs <;> simp [Outcome.world, Mem_ClearedAlloc, dispatched_append, dispatched]

theorem GetRealEvent_record_dispatched (H : Decls) (w : World) (ev : sysEvent_t) :
    dispatched (GetRealEvent_record H w ev).world.trace = dispatched w.trace := by
  unfold GetRealEvent_record
  split
  · simp [Outcome.world]
  · dsimp only
    split_ifs
    · simp [Outcome.world]
    · split
      · simp [Outcome.world]
      · split_ifs <;> simp [Outcome.world]
    · simp [Outcome.world]

theorem Sys_GetEvent_dispatched (w : World) :
    dispatched (Sys_GetEvent w).2.trace = dispatched w.trace := by
  unfold Sys_GetEvent
  cases w.sysEvents <;> simp [World.emit, dispatched_append, dispatched]

theorem GetRealEvent_dispatched (H : Decls) (w : World) :
    dispatched (GetRealEvent H w).world.trace = dispatched w.trace := by
  unfold GetRealEvent
  dsimp only
  split_ifs
  · exact GetRealEvent_playback_dispatched H w
  · exact (GetRealEvent_record_dispatched H _ _).trans (Sys_GetEvent_dispatched w)
  · exact Sys_GetEvent_dispatched w

theorem GetEvent_dispatched (H : Decls) (w : World) :
    dispatched (GetEvent H w).world.trace = dispatched w.trace := by
  unfold GetEvent
  dsimp only
  split_ifs
  · simp [Outcome.world, World.emit, dispatched_append, dispatched]
  · refine (GetRealEvent_dispatched H _).trans ?_
    simp [World.emit, dispatched_append, dispatched]

/-- C5. Fatal journal truncation: in playback mode, with the journal stream open,
`GetRealEvent` ends in `FatalError` if and only if the read of the event record
returns fewer than `sizeof(sysEvent_t)` bytes or the record has a payload length
other than zero and the read of the payload returns fewer bytes than that; and
whenever the `GetEvent` call of an iteration of `RunEventLoop` ends in
`FatalError`, the pass ends there with that error and has made no call of
`ProcessEvent` since the iteration began, so no event read short reaches a
consumer. -/
theorem C5_fatal_journal_truncation (H : Decls) (w : World) (f : idFile)
    (hmode : w.com_journal = 2) (hfile : w.com_journalFile = some f) :
    ((∃ msg w', GetRealEvent H w = .fatal msg w') ↔
      ((f.Read H.layout.size).1.length < H.layout.size ∨
        ((H.layout.decode (f.Read H.layout.size).1).evPtrLength ≠ 0 ∧
          ((f.Read H.layout.size).2.Read
              (H.layout.decode (f.Read H.layout.size).1).evPtrLength).1.length <
            (H.layout.decode (f.Read H.layout.size).1).evPtrLength))) ∧
    (∀ (v : World) (ce : Bool) (fuel : Nat) (msg : String) (v' : World),
      GetEvent H (if ce = true then v.emit Effect.ExecuteCommandBuffer else v) = .fatal msg v' →
      RunEventLoop_loop H ce (fuel + 1) v = some (.fatal msg v') ∧
      dispatched v'.trace = dispatched v.trace) := by
  constructor
  · have h := GetRealEvent_playback_fatal_iff H w f hfile
    unfold GetRealEvent
    rw [if_pos hmode]
    exact h
  · intro v ce fuel msg v' hg
    constructor
    · rw [RunEventLoop_loop, hg]
    · have hd := GetEvent_dispatched H (if ce = true then v.emit Effect.ExecuteCommandBuffer else v)
      rw [hg] at hd
      simp only [Outcome.world] at hd
      rw [hd]
      split_ifs <;> simp [World.emit, dispatched_append, dispatched]

/-- C5 at a concrete input: a journal cut after the first of three payload
bytes. -/
theorem C5_fatal_journal_truncation_witness :
    ∃ msg w', GetRealEvent sampleDecls truncatedJournalWorld = .fatal msg w' :=
  (C5_fatal_journal_truncation sampleDecls truncatedJournalWorld
    { data := sampleLayout.encode (consoleEvent 7 3) ++ [104], pos := 0, room := 0 }
    rfl rfl).1.mpr (Or.inr ⟨by decide, by decide⟩)

/-! ## Journal: recording -/

theorem idFile.Write_of_le (f : idFile) (bs : List byte) (h : bs.length ≤ f.room) :
    f.Write bs = (bs.length, { data := f.data ++ bs, pos := f.pos, room := f.room - bs.length }) := by
  simp [idFile.Write, Nat.min_eq_left h, List.take_of_length_le (le_refl _)]

theorem idFile.Write_fst (f : idFile) (bs : List byte) :
    (f.Write bs).1 = min bs.length f.room := rfl

theorem readBlock_length (w : World) (p : Nat) (len : Nat) (ps : List byte)
    (h : readBlock w p len = some ps) : ps.length = len := by
  unfold readBlock at h
  split at h
  · cases h
  · split_ifs at h with hl
    cases h
    simp [List.length_take, hl]

theorem payloadBytes_length (w : World) (e : sysEvent_t)
    (h : e.evPtrLength ≠ 0 → (readBlock w e.evPtr e.evPtrLength).isSome) :
    (payloadBytes w e).length = e.evPtrLength := by
  unfold payloadBytes
  split_ifs with h0
  · obtain ⟨ps, hps⟩ := Option.isSome_iff_exists.mp (h h0)
    rw [hps]
    exact readBlock_length w _ _ ps hps
  · simp only [not_not] at h0
    simp [h0]

theorem payloadBytes_blocks (w w' : World) (e : sysEvent_t) (h : w'.blocks = w.blocks) :
    payloadBytes w' e = payloadBytes w e := by
  simp [payloadBytes, readBlock, h]

theorem journalBytes_blocks (H : Decls) (w w' : World) (es : List sysEvent_t)
    (h : w'.blocks = w.blocks) : journalBytes H w' es = journalBytes H w es := by
  induction es with
  | nil => rfl
  | cons e es ih => simp [journalBytes, ih, payloadBytes_blocks w w' e h]

/-- What a successful `GetRealEvent_record` has done: the record and the payload
bytes are appended to the event stream, nothing else changes. -/
theorem GetRealEvent_record_ok (H : Decls) (w : World) (f : idFile) (ev e' : sysEvent_t)
    (w' : World) (hf : w.com_journalFile = some f)
    (h : GetRealEvent_record H w ev = .ok e' w') :
    e' = ev ∧
    w' = { w with
      com_journalFile := some (f.appended (H.layout.encode ev ++ payloadBytes w ev)) } ∧
    (H.layout.encode ev ++ payloadBytes w ev).length ≤ f.room := by
  have hlen := H.layout.encode_length ev
  unfold GetRealEvent_record at h
  rw [hf] at h
  dsimp only at h
  rw [idFile.Write_fst, hlen] at h
  split_ifs at h with h1 h2
  · have hroom : (H.layout.encode ev).length ≤ f.room := by
      rw [hlen]
      rw [not_not] at h1
      omega
    rw [idFile.Write_of_le f _ hroom] at h
    dsimp only at h
    split at h
    · cases h
    · rename_i ps hps
      have hpl : ps.length = ev.evPtrLength := readBlock_length _ _ _ ps hps
      have hpb : payloadBytes w ev = ps := by
        unfold payloadBytes
        rw [if_pos h2]
        have : readBlock w ev.evPtr ev.evPtrLength = some ps := by
          simpa [readBlock] using hps
        rw [this]
        rfl
      rw [idFile.Write_fst] at h
      dsimp only at h
      split_ifs at h with h3
      rw [not_not, hpl] at h3
      have hroom2 : ps.length ≤ f.room - (H.layout.encode ev).length := by
        rw [hpl]
        omega
      rw [idFile.Write_of_le _ _ hroom2] at h
      cases h
      refine ⟨rfl, ?_, ?_⟩
      · simp [hpb, idFile.appended, List.append_assoc, Nat.sub_sub]
      · rw [hpb, List.length_append]
        omega
  · have hroom : (H.layout.encode ev).length ≤ f.room := by
      rw [hlen]
      rw [not_not] at h1
      omega
    rw [idFile.Write_of_le f _ hroom] at h
    cases h
    have hpb : payloadBytes w ev = [] := by
      unfold payloadBytes
      rw [if_neg h2]
    refine ⟨rfl, ?_, ?_⟩
    · simp [hpb, idFile.appended]
    · simpa [hpb] using hroom

/-- When the medium has room and the payload is there, `GetRealEvent_record`
succeeds. -/
theorem GetRealEvent_record_succeeds (H : Decls) (w : World) (f : idFile) (ev : sysEvent_t)
    (hf : w.com_journalFile = some f)
    (hpay : ev.evPtrLength ≠ 0 → (readBlock w ev.evPtr ev.evPtrLength).isSome)
    (hroom : (H.layout.encode ev ++ payloadBytes w ev).length ≤ f.room) :
    GetRealEvent_record H w ev = .ok ev
      { w with
        com_journalFile := some (f.appended (H.layout.encode ev ++ payloadBytes w ev)) } := by
  have hlen := H.layout.encode_length ev
  have hpl := payloadBytes_length w ev hpay
  rw [List.length_append, hlen, hpl] at hroom
  have hroom1 : (H.layout.encode ev).length ≤ f.room := by omega
  unfold GetRealEvent_record
  rw [hf]
  dsimp only
  rw [idFile.Write_of_le f _ hroom1]
  dsimp only
  rw [if_neg (by simp [hlen])]
  by_cases h2 : ev.evPtrLength = 0
  · rw [if_neg (by simp [h2])]
    have hpb : payloadBytes w ev = [] := by
      unfold payloadBytes
      rw [if_neg (by simp [h2])]
    simp [hpb, idFile.appended]
  · rw [if_pos h2]
    obtain ⟨ps, hps⟩ := Option.isSome_iff_exists.mp (hpay h2)
    have hps' : ∀ g, readBlock { w with com_journalFile := g } ev.evPtr ev.evPtrLength
        = some ps := by
      intro g
      simpa [readBlock] using hps
    rw [hps']
    dsimp only
    have hpb : payloadBytes w ev = ps := by
      unfold payloadBytes
      rw [if_pos h2, hps]
      rfl
    have hpsl : ps.length = ev.evPtrLength := readBlock_length _ _ _ ps hps
    have hroom2 : ps.length ≤ f.room - (H.layout.encode ev).length := by omega
    rw [idFile.Write_of_le _ _ hroom2]
    dsimp only
    rw [if_neg (by simp [hpsl])]
    simp [hpb, idFile.appended, List.append_assoc, Nat.sub_sub]

theorem Sys_GetEvent_eq (w : World) :
    Sys_GetEvent w =
      (w.sysEvents.headD noneEvent,
        { w with sysEvents := w.sysEvents.tail
                 trace := w.trace ++ [Effect.Sys_GetEvent (w.sysEvents.headD noneEvent)] }) := by
  unfold Sys_GetEvent
  cases h : w.sysEvents <;> simp [World.emit, h]

theorem idFile.appended_appended (f : idFile) (a b : List byte) :
    (f.appended a).appended b = f.appended (a ++ b) := by
  simp [idFile.appended, List.append_assoc, Nat.sub_sub]

/-- What a successful `GetRealEvent` has done in record mode. -/
theorem GetRealEvent_mode1_ok (H : Decls) (w : World) (f : idFile) (ev : sysEvent_t)
    (w' : World) (hmode : w.com_journal = 1) (hf : w.com_journalFile = some f)
    (h : GetRealEvent H w = .ok ev w') :
    ev = w.sysEvents.headD noneEvent ∧
    w'.com_journal = 1 ∧
    w'.com_journalFile = some (f.appended (H.layout.encode ev ++ payloadBytes w ev)) ∧
    w'.com_journalDataFile = w.com_journalDataFile ∧
    w'.blocks = w.blocks ∧
    w'.sysEvents = w.sysEvents.tail ∧
    (H.layout.encode ev ++ payloadBytes w ev).length ≤ f.room := by
  unfold GetRealEvent at h
  rw [if_neg (by rw [hmode]; decide)] at h
  dsimp only at h
  rw [Sys_GetEvent_eq] at h
  dsimp only at h
  rw [if_pos hmode] at h
  obtain ⟨h1, h2, h3⟩ := GetRealEvent_record_ok H
    { w with sysEvents := w.sysEvents.tail
             trace := w.trace ++ [Effect.Sys_GetEvent (w.sysEvents.headD noneEvent)] }
    f _ ev w' hf h
  subst h1
  have hpb : ∀ (t : List Effect) (q : List sysEvent_t),
      payloadBytes { w with sysEvents := q, trace := t } (w.sysEvents.headD noneEvent)
        = payloadBytes w (w.sysEvents.headD noneEvent) := by
    intro t q
    exact payloadBytes_blocks w _ _ rfl
  rw [hpb] at h2 h3
  rw [h2]
  exact ⟨rfl, hmode, rfl, rfl, rfl, rfl, h3⟩

theorem getRealEvents_mode1 (H : Decls) (n : Nat) (w : World) (f : idFile)
    (es : List sysEvent_t) (w' : World)
    (hmode : w.com_journal = 1) (hf : w.com_journalFile = some f)
    (h : getRealEvents H n w = some (es, w')) :
    es.length = n ∧
    w'.com_journalFile = some (f.appended (journalBytes H w es)) ∧
    w'.com_journalDataFile = w.com_journalDataFile ∧
    w'.blocks = w.blocks := by
  induction n generalizing w f es with
  | zero =>
    simp only [getRealEvents, Option.some.injEq, Prod.mk.injEq] at h
    obtain ⟨rfl, rfl⟩ := h
    simp [journalBytes, idFile.appended, hf]
  | succ n ih =>
    rw [getRealEvents] at h
    cases hg : GetRealEvent H w with
    | fatal m v => rw [hg] at h; cases h
    | crash v => rw [hg] at h; cases h
    | ok ev v =>
      rw [hg] at h
      dsimp only at h
      cases hr : getRealEvents H n v with
      | none => rw [hr] at h; cases h
      | some r =>
        rw [hr] at h
        simp only [Option.map_some', Option.some.injEq, Prod.mk.injEq] at h
        obtain ⟨rfl, rfl⟩ := h
        obtain ⟨_, g1, g2, g3, g4, _, _⟩ := GetRealEvent_mode1_ok H w f ev v hmode hf hg
        obtain ⟨i1, i2, i3, i4⟩ := ih v _ r.1 g1 g2 (by rw [hr])
        refine ⟨by simp [i1], ?_, i3.trans g3, i4.trans g4⟩
        rw [i2, idFile.appended_appended, journalBytes_blocks H w v r.1 g4]
        simp [journalBytes, List.append_assoc]

/-- C9 (as amended). Persisted layout: after `n` successful `GetRealEvent` calls in
record mode returning the events `es`, the event stream `com_journalFile` holds
what it held before followed, for each event of `es` in order, by its
fixed-size record and then its payload bytes (`evPtrLength` of them); the
payload stream `com_journalDataFile` is as it was: nothing is written to it. -/
theorem C9_persisted_layout (H : Decls) (n : Nat) (w : World) (f : idFile)
    (es : List sysEvent_t) (w' : World)
    (hmode : w.com_journal = 1) (hf : w.com_journalFile = some f)
    (h : getRealEvents H n w = some (es, w')) :
    es.length = n ∧
    w'.com_journalFile.map idFile.data = some (f.data ++ journalBytes H w es) ∧
    (∀ e ∈ es, (H.layout.encode e).length = H.layout.size) ∧
    w'.com_journalDataFile = w.com_journalDataFile := by
  obtain ⟨h1, h2, h3, _⟩ := getRealEvents_mode1 H n w f es w' hmode hf h
  refine ⟨h1, ?_, fun e _ => H.layout.encode_length e, h3⟩
  rw [h2]
  rfl

/-- C9, as stated, fails: one console event with three payload bytes is
recorded; the event stream then holds the record followed by the three bytes,
not the record alone, and the payload stream holds nothing, not the three
bytes. -/
theorem C9_persisted_layout_counterexample :
    (getRealEvents sampleDecls 1 recordingWorld).map
        (fun r => (r.1, r.2.com_journalFile.map idFile.data,
          r.2.com_journalDataFile.map idFile.data)) =
      some ([consoleEvent 7 3],
        some (sampleLayout.encode (consoleEvent 7 3) ++ [104, 105, 10]),
        some []) ∧
    sampleLayout.encode (consoleEvent 7 3) ++ [104, 105, 10] ≠
      sampleLayout.encode (consoleEvent 7 3) ∧
    ([] : List byte) ≠ [104, 105, 10] := by
  refine ⟨by decide, by decide, by decide⟩

/-- C9 (as amended) at a concrete input: one console event with three payload
bytes recorded. -/
theorem C9_persisted_layout_witness :
    (GetRealEvent sampleDecls recordingWorld).world.com_journalFile.map idFile.data =
      some ([] ++ journalBytes sampleDecls recordingWorld [consoleEvent 7 3]) ∧
    (GetRealEvent sampleDecls recordingWorld).world.com_journalDataFile =
      recordingWorld.com_journalDataFile :=
  have h := C9_persisted_layout sampleDecls 1 recordingWorld
    { data := [], pos := 0, room := 4096 } [consoleEvent 7 3]
    (GetRealEvent sampleDecls recordingWorld).world rfl rfl rfl
  ⟨h.2.1, h.2.2.2⟩

/-! ## Journal: playback -/

theorem idFile.Read_of_data (f : idFile) (pre bs post : List byte)
    (hdata : f.data = pre ++ (bs ++ post)) (hpos : f.pos = pre.length) :
    f.Read bs.length = (bs, { f with pos := f.pos + bs.length }) := by
  unfold idFile.Read
  simp [hdata, hpos]

/-- One `GetRealEvent` call in playback mode, on a stream that holds at the
cursor the record of `e` followed by the payload bytes `ps`. -/
theorem GetRealEvent_mode2_step (H : Decls) (w : World) (f : idFile) (e : sysEvent_t)
    (pre ps post : List byte)
    (hmode : w.com_journal = 2) (hf : w.com_journalFile = some f)
    (hdata : f.data = pre ++ (H.layout.encode e ++ ps ++ post)) (hpos : f.pos = pre.length)
    (hdec : H.layout.decode (H.layout.encode e) = e) (hps : ps.length = e.evPtrLength) :
    ∃ e' w', GetRealEvent H w = .ok e' w' ∧
      w'.com_journal = 2 ∧
      w'.com_journalFile = some { f with pos := f.pos + (H.layout.encode e ++ ps).length } ∧
      e'.evType = e.evType ∧ e'.evValue = e.evValue ∧ e'.evValue2 = e.evValue2 ∧
      e'.evPtrLength = e.evPtrLength ∧
      (e.evPtrLength = 0 → e'.evPtr = e.evPtr ∧ w'.blocks = w.blocks ∧
        w'.lastAlloc = w.lastAlloc) ∧
      (e.evPtrLength ≠ 0 → e'.evPtr = w.lastAlloc + 1 ∧ w'.lastAlloc = w.lastAlloc + 1 ∧
        w'.blocks = Function.update w.blocks (w.lastAlloc + 1) (some ps)) := by
  have hlen := H.layout.encode_length e
  have hr1 : f.Read H.layout.size =
      (H.layout.encode e, { f with pos := f.pos + (H.layout.encode e).length }) := by
    rw [← hlen]
    exact idFile.Read_of_data f pre (H.layout.encode e) (ps ++ post)
      (by rw [hdata, List.append_assoc]) hpos
  unfold GetRealEvent
  rw [if_pos hmode]
  unfold GetRealEvent_playback
  rw [hf]
  dsimp only
  rw [hr1]
  dsimp only
  rw [if_neg (by simp [hlen]), hdec]
  by_cases h0 : e.evPtrLength = 0
  · rw [if_neg (by simp [h0])]
    have hps0 : ps = [] := List.eq_nil_of_length_eq_zero (hps.trans h0)
    refine ⟨_, _, rfl, hmode, ?_, rfl, rfl, rfl, rfl, ?_, ?_⟩
    · simp [hps0]
    · intro _
      exact ⟨rfl, rfl, rfl⟩
    · intro h
      exact absurd h0 h
  · rw [if_pos h0]
    have hr2 : ({ f with pos := f.pos + (H.layout.encode e).length } : idFile).Read e.evPtrLength =
        (ps, { f with pos := f.pos + (H.layout.encode e).length + ps.length }) := by
      rw [← hps]
      exact idFile.Read_of_data _ (pre ++ H.layout.encode e) ps post
        (by simp [hdata, List.append_assoc]) (by simp [hpos])
    rw [hr2]
    dsimp only
    rw [if_neg (by simp [hps])]
    refine ⟨_, _, rfl, ?_, ?_, rfl, rfl, rfl, rfl, ?_, ?_⟩
    · simpa [Mem_ClearedAlloc] using hmode
    · simp [Mem_ClearedAlloc, List.length_append, Nat.add_assoc]
    · intro h
      exact absurd h h0
    · intro _
      refine ⟨by simp [Mem_ClearedAlloc], by simp [Mem_ClearedAlloc], ?_⟩
      simp [Mem_ClearedAlloc, hps]

theorem wellFormedPayload_blocks (w w' : World) (e : sysEvent_t) (h : w'.blocks = w.blocks)
    (hwf : wellFormedPayload w e) : wellFormedPayload w' e := by
  unfold wellFormedPayload at *
  rw [h]
  exact hwf

theorem wellFormedPayload_readBlock (w : World) (e : sysEvent_t) (hwf : wellFormedPayload w e) :
    e.evPtrLength ≠ 0 → (readBlock w e.evPtr e.evPtrLength).isSome := by
  intro h0
  rcases hwf with ⟨_, h⟩ | ⟨_, _, bs, hb, hl⟩
  · exact absurd h h0
  · simp [readBlock, hb, hl]

theorem wellFormedPayload_payloadAt (w : World) (e : sysEvent_t) (hwf : wellFormedPayload w e) :
    (payloadBytes w e).length = e.evPtrLength ∧
    (e.evPtrLength = 0 → e.evPtr = 0) ∧
    payloadAt w e.evPtr = if e.evPtrLength = 0 then none else some (payloadBytes w e) := by
  rcases hwf with ⟨hp, hl⟩ | ⟨hp, hl, bs, hb, hbl⟩
  · simp [payloadBytes, payloadAt, hp, hl]
  · have h0 : e.evPtrLength ≠ 0 := by omega
    refine ⟨?_, fun h => absurd h h0, ?_⟩
    · simp [payloadBytes, readBlock, h0, hb, hbl]
    · simp [payloadBytes, payloadAt, readBlock, h0, hp, hb, hbl]

theorem payloadBytes_afterSys (w : World) (q : List sysEvent_t) (t : List Effect)
    (g : Option idFile) (e : sysEvent_t) :
    payloadBytes { w with sysEvents := q, trace := t, com_journalFile := g } e =
      payloadBytes w e :=
  payloadBytes_blocks w _ e rfl

theorem journalBytes_afterSys (H : Decls) (w : World) (q : List sysEvent_t) (t : List Effect)
    (g : Option idFile) (es : List sysEvent_t) :
    journalBytes H { w with sysEvents := q, trace := t, com_journalFile := g } es =
      journalBytes H w es :=
  journalBytes_blocks H w _ es rfl

/-- In record mode, with room on the medium and well-formed payloads, as many
`GetRealEvent` calls as the platform has events pending return those events. -/
theorem getRealEvents_mode1_succeeds (H : Decls) (evs : List sysEvent_t) (w : World)
    (f : idFile) (hmode : w.com_journal = 1) (hf : w.com_journalFile = some f)
    (hsys : w.sysEvents = evs) (hwf : ∀ e ∈ evs, wellFormedPayload w e)
    (hroom : (journalBytes H w evs).length ≤ f.room) :
    ∃ w', getRealEvents H evs.length w = some (evs, w') := by
  induction evs generalizing w f with
  | nil => exact ⟨w, rfl⟩
  | cons e es ih =>
    have hwe := hwf e (List.mem_cons_self e es)
    have hpl := (wellFormedPayload_payloadAt w e hwe).1
    have hel := H.layout.encode_length e
    simp only [journalBytes, List.length_append] at hroom
    have hs := GetRealEvent_record_succeeds H
      { w with sysEvents := es, trace := w.trace ++ [Effect.Sys_GetEvent e]
               com_journalFile := w.com_journalFile } f e hf
      (wellFormedPayload_readBlock _ e (wellFormedPayload_blocks w _ e rfl hwe))
      (by
        rw [payloadBytes_afterSys, List.length_append]
        omega)
    rw [payloadBytes_afterSys] at hs
    have hg : GetRealEvent H w = .ok e
        { w with sysEvents := es
                 trace := w.trace ++ [Effect.Sys_GetEvent e]
                 com_journalFile := some (f.appended (H.layout.encode e ++ payloadBytes w e)) } := by
      unfold GetRealEvent
      rw [if_neg (by rw [hmode]; decide)]
      dsimp only
      rw [Sys_GetEvent_eq, hsys]
      dsimp only [List.headD_cons, List.tail_cons]
      rw [if_pos hmode]
      exact hs
    rw [List.length_cons, getRealEvents, hg]
    dsimp only
    obtain ⟨w', hw'⟩ := ih
      { w with sysEvents := es
               trace := w.trace ++ [Effect.Sys_GetEvent e]
               com_journalFile := some (f.appended (H.layout.encode e ++ payloadBytes w e)) }
      (f.appended (H.layout.encode e ++ payloadBytes w e)) hmode rfl rfl
      (fun x hx => wellFormedPayload_blocks w _ x rfl (hwf x (List.mem_cons_of_mem e hx)))
      (by
        rw [journalBytes_afterSys]
        simp only [idFile.appended, List.length_append]
        omega)
    exact ⟨w', by rw [hw']; rfl⟩

/-- In playback mode, on a stream that holds at the cursor the bytes recorded
for `evs`, as many `GetRealEvent` calls as there are events return events with
the same views. -/
theorem getRealEvents_mode2 (H : Decls) (wr : World) (evs : List sysEvent_t) (wp : World)
    (f : idFile) (pre post : List byte)
    (hmode : wp.com_journal = 2) (hf : wp.com_journalFile = some f)
    (hdata : f.data = pre ++ (journalBytes H wr evs ++ post)) (hpos : f.pos = pre.length)
    (hdec : ∀ e ∈ evs, H.layout.decode (H.layout.encode e) = e)
    (hwf : ∀ e ∈ evs, wellFormedPayload wr e) :
    ∃ replayed wp', getRealEvents H evs.length wp = some (replayed, wp') ∧
      wp.lastAlloc ≤ wp'.lastAlloc ∧
      (∀ p, p ≤ wp.lastAlloc → wp'.blocks p = wp.blocks p) ∧
      (∀ e' ∈ replayed, e'.evPtr ≤ wp'.lastAlloc) ∧
      replayed.map (view wp') = evs.map (view wr) := by
  induction evs generalizing wp f pre with
  | nil =>
    refine ⟨[], wp, rfl, le_refl _, fun _ _ => rfl, ?_, rfl⟩
    intro e' he'
    cases he'
  | cons e es ih =>
    have hwe := hwf e (List.mem_cons_self e es)
    obtain ⟨hpl, hp0, hpa⟩ := wellFormedPayload_payloadAt wr e hwe
    obtain ⟨e', w1, hg, hm1, hf1, t1, t2, t3, t4, hz, hnz⟩ :=
      GetRealEvent_mode2_step H wp f e pre (payloadBytes wr e) (journalBytes H wr es ++ post)
        hmode hf (by rw [hdata]; simp [journalBytes, List.append_assoc]) hpos
        (hdec e (List.mem_cons_self e es)) hpl
    obtain ⟨rep, wp', hr, hla, hbl, hptr, hview⟩ :=
      ih w1 { f with pos := f.pos + (H.layout.encode e ++ payloadBytes wr e).length }
        (pre ++ (H.layout.encode e ++ payloadBytes wr e)) hm1 hf1
        (by simp [hdata, journalBytes, List.append_assoc])
        (by simp [hpos])
        (fun x hx => hdec x (List.mem_cons_of_mem e hx))
        (fun x hx => hwf x (List.mem_cons_of_mem e hx))
    have hstep : wp.lastAlloc ≤ w1.lastAlloc ∧
        (∀ p, p ≤ wp.lastAlloc → w1.blocks p = wp.blocks p) ∧
        e'.evPtr ≤ w1.lastAlloc ∧
        payloadAt w1 e'.evPtr = payloadAt wr e.evPtr := by
      by_cases h0 : e.evPtrLength = 0
      · obtain ⟨a1, a2, a3⟩ := hz h0
        have hp := hp0 h0
        refine ⟨by omega, fun p _ => by rw [a2], by omega, ?_⟩
        simp [payloadAt, a1, hp]
      · obtain ⟨a1, a2, a3⟩ := hnz h0
        refine ⟨by omega, ?_, by omega, ?_⟩
        · intro p hp
          rw [a3, Function.update_noteq (by omega)]
        · rw [hpa, if_neg h0, a1]
          simp [payloadAt, a3]
    obtain ⟨s1, s2, s3, s4⟩ := hstep
    refine ⟨e' :: rep, wp', ?_, by omega, ?_, ?_, ?_⟩
    · rw [List.length_cons, getRealEvents, hg]
      dsimp only
      rw [hr]
      rfl
    · intro p hp
      rw [hbl p (by omega), s2 p hp]
    · intro x hx
      rcases List.mem_cons.mp hx with rfl | hx
      · omega
      · exact hptr x hx
    · rw [List.map_cons, List.map_cons, hview]
      congr 1
      have hpay : payloadAt wp' e'.evPtr = payloadAt w1 e'.evPtr := by
        unfold payloadAt
        split_ifs
        · rfl
        · exact hbl _ s3
      simp [view, t1, t2, t3, t4, hpay, s4]

/-- C4. Journal round trip: let the platform have the events `evs` pending, each
with a null payload of length zero or a payload block of exactly
`evPtrLength > 0` bytes, each representable in an event record, and let the
medium have room for them.  Then `GetRealEvent`, called once per event in record
mode on an empty journal stream, returns `evs`; and on every playback state
whose journal stream holds the bytes so written, `GetRealEvent`, called as
often, returns events whose kind, values, payload length and payload bytes are,
one by one and in order, those of `evs`. -/
theorem C4_journal_round_trip (H : Decls) (wr : World) (evs : List sysEvent_t) (room : Nat)
    (hmode : wr.com_journal = 1)
    (hfile : wr.com_journalFile = some { data := [], pos := 0, room := room })
    (hsys : wr.sysEvents = evs)
    (hwf : ∀ e ∈ evs, wellFormedPayload wr e)
    (hdec : ∀ e ∈ evs, H.layout.decode (H.layout.encode e) = e)
    (hroom : (journalBytes H wr evs).length ≤ room) :
    ∃ wr' f', getRealEvents H evs.length wr = some (evs, wr') ∧
      wr'.com_journalFile = some f' ∧
      ∀ (wp : World) (room2 : Nat), wp.com_journal = 2 →
        wp.com_journalFile = some { data := f'.data, pos := 0, room := room2 } →
        ∃ replayed wp', getRealEvents H evs.length wp = some (replayed, wp') ∧
          replayed.map (view wp') = evs.map (view wr) := by
  obtain ⟨wr', hrec⟩ := getRealEvents_mode1_succeeds H evs wr _ hmode hfile hsys hwf hroom
  obtain ⟨_, hf', _, _⟩ := getRealEvents_mode1 H evs.length wr _ evs wr' hmode hfile hrec
  refine ⟨wr', _, hrec, hf', ?_⟩
  intro wp room2 hm2 hf2
  obtain ⟨rep, wp', h1, _, _, _, h5⟩ :=
    getRealEvents_mode2 H wr evs wp _ [] [] hm2 hf2 (by simp [idFile.appended]) rfl hdec hwf
  exact ⟨rep, wp', h1, h5⟩

/-- C4 at a concrete input: a console event with three payload bytes and a key
event without payload. -/
theorem C4_journal_round_trip_witness :
    ∃ wr', getRealEvents sampleDecls 2 recordingWorld =
      some ([consoleEvent 7 3, keyEvent 65], wr') := by
  obtain ⟨wr', _, h, _⟩ := C4_journal_round_trip sampleDecls recordingWorld
    [consoleEvent 7 3, keyEvent 65] 4096 rfl rfl rfl
    (by
      intro e he
      simp only [List.mem_cons, List.mem_singleton, List.not_mem_nil, or_false] at he
      rcases he with rfl | rfl
      · exact Or.inr ⟨by decide, by decide, [104, 105, 10], rfl, rfl⟩
      · exact Or.inl ⟨rfl, rfl⟩)
    (by decide) (by decide)
  exact ⟨wr', h⟩

/-! ## The loop of `RunEventLoop` -/

theorem RunEventLoop_loop_succ (H : Decls) (ce : Bool) (fuel : Nat) (w : World) :
    RunEventLoop_loop H ce (fuel + 1) w =
      match GetEvent H (beforeGetEvent ce w) with
      | .fatal m w2 => some (.fatal m w2)
      | .crash w2 => some (.crash w2)
      | .ok ev w2 =>
        if ev.evType ≠ SE_NONE then RunEventLoop_loop H ce fuel (handlePrimary H w2 ev)
        else some (.ok 0 w2) := by
  rw [RunEventLoop_loop]
  rfl

theorem RunEventLoop_loop_stop (H : Decls) (ce : Bool) (fuel : Nat) (w w2 : World)
    (ev : sysEvent_t) (hg : GetEvent H (beforeGetEvent ce w) = .ok ev w2)
    (hnone : ev.evType = SE_NONE) :
    RunEventLoop_loop H ce (fuel + 1) w = some (.ok 0 w2) := by
  rw [RunEventLoop_loop_succ, hg]
  simp [hnone]

theorem RunEventLoop_loop_continue (H : Decls) (ce : Bool) (fuel : Nat) (w w2 : World)
    (ev : sysEvent_t) (hg : GetEvent H (beforeGetEvent ce w) = .ok ev w2)
    (hnone : ev.evType ≠ SE_NONE) :
    RunEventLoop_loop H ce (fuel + 1) w =
      RunEventLoop_loop H ce fuel (handlePrimary H w2 ev) := by
  rw [RunEventLoop_loop_succ, hg]
  simp [hnone]

theorem beforeGetEvent_frame (ce : Bool) (w : World) :
    DispatchFrame w (beforeGetEvent ce w) ∧
    (beforeGetEvent ce w).dx = w.dx ∧ (beforeGetEvent ce w).dy = w.dy ∧
    (beforeGetEvent ce w).sysBatches = w.sysBatches ∧
    (beforeGetEvent ce w).blocks = w.blocks ∧
    dispatched (beforeGetEvent ce w).trace = dispatched w.trace := by
  unfold beforeGetEvent DispatchFrame
  cases ce <;> simp [World.emit, dispatched_append, dispatched]

theorem ringContents_congr (H : Decls) (w w' : World)
    (h1 : w'.com_pushedEvents = w.com_pushedEvents)
    (h2 : w'.com_pushedEventsHead = w.com_pushedEventsHead)
    (h3 : w'.com_pushedEventsTail = w.com_pushedEventsTail) :
    ringContents H w' = ringContents H w := by
  simp [ringContents, h1, h2, h3]

theorem ringContents_frame (H : Decls) (w w' : World) (h : DispatchFrame w w') :
    ringContents H w' = ringContents H w :=
  ringContents_congr H w w' h.2.2.2.1 h.2.2.2.2.1 h.2.2.2.2.2.1

theorem ringContents_empty (H : Decls) (w : World)
    (h : ¬ w.com_pushedEventsTail < w.com_pushedEventsHead) : ringContents H w = [] := by
  have h0 : w.com_pushedEventsHead - w.com_pushedEventsTail = 0 := by omega
  simp [ringContents, h0]

theorem drainSysEvents_dispatched (b : List sysEvent_t) (w : World) (i : Nat) :
    dispatched (drainSysEvents w i b).trace = dispatched w.trace ++ b := by
  induction b generalizing w i with
  | nil => simp [drainSysEvents]
  | cons e b ih =>
    rw [drainSysEvents, ih, ProcessEvent_trace]
    simp only [World.emit, dispatched_append, dispatched]
    split_ifs <;> simp [dispatched]

theorem ProcessEvent_dispatched (w : World) (ev : sysEvent_t) :
    dispatched (ProcessEvent w ev).trace = dispatched w.trace ++ [ev] := by
  rw [ProcessEvent_trace]
  simp only [dispatched_append, dispatched]
  split_ifs <;> simp [dispatched]

theorem updateAxis_trace (H : Decls) (w : World) (ev : sysEvent_t) :
    (updateAxis H w ev).trace = w.trace ∧ (updateAxis H w ev).sysBatches = w.sysBatches ∧
    (updateAxis H w ev).blocks = w.blocks := by
  unfold updateAxis
  split_ifs <;> simp

theorem Sys_PollSysEvents_eq (w : World) :
    Sys_PollSysEvents w =
      (w.sysBatches.headD [],
        { w with sysBatches := w.sysBatches.tail
                 trace := w.trace ++ [Effect.Sys_PollSysEvents (w.sysBatches.headD []).length] }) := by
  unfold Sys_PollSysEvents
  cases h : w.sysBatches <;> simp [World.emit, h]

/-- The events a primary event makes the pass dispatch: the event, then the
batch of secondary events; the batch is consumed. -/
theorem handlePrimary_dispatched (H : Decls) (w : World) (ev : sysEvent_t) :
    dispatched (handlePrimary H w ev).trace =
      dispatched w.trace ++ ev :: w.sysBatches.headD [] ∧
    (handlePrimary H w ev).sysBatches = w.sysBatches.tail := by
  unfold handlePrimary
  dsimp only
  rw [Sys_PollSysEvents_eq]
  dsimp only
  obtain ⟨u1, u2, _⟩ := updateAxis_trace H (ProcessEvent w ev) ev
  obtain ⟨_, _, p3⟩ := ProcessEvent_axis w ev
  constructor
  · simp only [World.emit, dispatched_append, drainSysEvents_dispatched, u1, u2, p3,
      ProcessEvent_dispatched, dispatched]
    simp
  · simp only [World.emit]
    rw [(drainSysEvents_axis _ _ _).2.2]
    simp only [u2, p3]

theorem GetRealEvent_live (H : Decls) (w : World)
    (h1 : w.com_journal ≠ 1) (h2 : w.com_journal ≠ 2) :
    GetRealEvent H w =
      .ok (w.sysEvents.headD noneEvent)
        { w with sysEvents := w.sysEvents.tail
                 trace := w.trace ++ [Effect.Sys_GetEvent (w.sysEvents.headD noneEvent)] } := by
  unfold GetRealEvent
  rw [if_neg h2]
  dsimp only
  rw [Sys_GetEvent_eq]
  dsimp only
  rw [if_neg h1]

theorem livePrimaries_congr (H : Decls) (w w' : World)
    (h : DispatchFrame w w') : livePrimaries H w' = livePrimaries H w := by
  unfold livePrimaries
  rw [ringContents_frame H w w' h, h.2.2.2.2.2.2.2.2]

theorem GetEvent_ringTaken (H : Decls) (w : World)
    (h : w.com_pushedEventsTail < w.com_pushedEventsHead) :
    GetEvent H w =
        .ok (w.com_pushedEvents (w.com_pushedEventsTail &&& (H.MAX_PUSHED_EVENTS - 1)))
          w.ringTaken ∧
    ringContents H w =
      w.com_pushedEvents (w.com_pushedEventsTail &&& (H.MAX_PUSHED_EVENTS - 1)) ::
        ringContents H w.ringTaken :=
  ⟨GetEvent_ring H w h, ringContents_eq_cons H w h⟩

theorem GetEvent_sysTaken (H : Decls) (w : World)
    (h : ¬ w.com_pushedEventsTail < w.com_pushedEventsHead)
    (h1 : w.com_journal ≠ 1) (h2 : w.com_journal ≠ 2) :
    GetEvent H w = .ok (w.sysEvents.headD noneEvent) w.sysTaken := by
  rw [GetEvent_empty H w h, GetRealEvent_live H (w.emit Effect.GetEvent) h1 h2]
  simp [World.emit, World.sysTaken]

/-- With the journal off, a pass whose fuel exceeds the number of primary events
terminates with status 0, having dispatched the primary events in order, each
followed by its batch of secondary events. -/
theorem RunEventLoop_loop_live (H : Decls) (ce : Bool) (fuel : Nat) (w : World)
    (h1 : w.com_journal ≠ 1) (h2 : w.com_journal ≠ 2)
    (hfuel : (livePrimaries H w).length < fuel) :
    ∃ w', RunEventLoop_loop H ce fuel w = some (.ok 0 w') ∧
      dispatched w'.trace =
        dispatched w.trace ++ interleave (livePrimaries H w) w.sysBatches := by
  induction fuel generalizing w with
  | zero => omega
  | succ fuel ih =>
    obtain ⟨fr, _, _, fb, _, fd⟩ := beforeGetEvent_frame ce w
    have hlp := livePrimaries_congr H w _ fr
    rw [← fr.1] at h1 h2
    rw [← hlp] at hfuel
    rw [← hlp, ← fd, ← fb]
    clear hlp fd fb fr
    have hstop := RunEventLoop_loop_stop H ce fuel w
    have hcont := RunEventLoop_loop_continue H ce fuel w
    generalize beforeGetEvent ce w = v at *
    by_cases hring : v.com_pushedEventsTail < v.com_pushedEventsHead
    · -- the event comes from the ring buffer
      obtain ⟨hg, hc⟩ := GetEvent_ringTaken H v hring
      generalize v.com_pushedEvents (v.com_pushedEventsTail &&& (H.MAX_PUSHED_EVENTS - 1))
        = ev at hg hc
      have hlv : livePrimaries H v =
          (ev :: (ringContents H v.ringTaken ++ v.ringTaken.sysEvents)).takeWhile
            (fun e => decide (e.evType ≠ SE_NONE)) := by
        simp [livePrimaries, hc, World.ringTaken]
      by_cases hnone : ev.evType = SE_NONE
      · refine ⟨_, hstop _ _ hg hnone, ?_⟩
        rw [hlv]
        simp [List.takeWhile, hnone, interleave, World.ringTaken, dispatched_append, dispatched]
      · rw [hcont _ _ hg hnone]
        obtain ⟨hd, hb⟩ := handlePrimary_dispatched H v.ringTaken ev
        have hf := handlePrimary_frame H v.ringTaken ev
        have hp : livePrimaries H v = ev :: livePrimaries H (handlePrimary H v.ringTaken ev) := by
          rw [livePrimaries_congr H _ _ hf, hlv, List.takeWhile_cons]
          simp [hnone, livePrimaries]
        rw [hp] at hfuel ⊢
        obtain ⟨w', hw', hdw'⟩ := ih (handlePrimary H v.ringTaken ev)
          (by rw [hf.1]; exact h1) (by rw [hf.1]; exact h2)
          (by simp only [List.length_cons] at hfuel; omega)
        refine ⟨w', hw', ?_⟩
        rw [hdw', hd, hb]
        simp [interleave, World.ringTaken, dispatched_append, dispatched]
    · -- the ring buffer is empty: the event comes from the platform
      have hg := GetEvent_sysTaken H v hring h1 h2
      have hc := ringContents_empty H v hring
      have hlv : livePrimaries H v =
          v.sysEvents.takeWhile (fun e => decide (e.evType ≠ SE_NONE)) := by
        simp [livePrimaries, hc]
      by_cases hnone : (v.sysEvents.headD noneEvent).evType = SE_NONE
      · refine ⟨_, hstop _ _ hg hnone, ?_⟩
        have hp : livePrimaries H v = [] := by
          rw [hlv]
          cases hq : v.sysEvents with
          | nil => rfl
          | cons q qs =>
            rw [hq] at hnone
            simp only [List.headD_cons] at hnone
            simp [List.takeWhile, hnone]
        simp [hp, interleave, World.sysTaken, dispatched_append, dispatched]
      · rw [hcont _ _ hg hnone]
        obtain ⟨q, qs, hq⟩ : ∃ q qs, v.sysEvents = q :: qs := by
          cases hq : v.sysEvents with
          | nil =>
            rw [hq] at hnone
            exact absurd rfl hnone
          | cons q qs => exact ⟨q, qs, rfl⟩
        rw [hq] at hnone
        simp only [List.headD_cons] at hnone
        obtain ⟨hd, hb⟩ := handlePrimary_dispatched H v.sysTaken (v.sysEvents.headD noneEvent)
        have hf := handlePrimary_frame H v.sysTaken (v.sysEvents.headD noneEvent)
        have hc2 : ringContents H v.sysTaken = [] := by
          rw [ringContents_congr H v v.sysTaken rfl rfl rfl, hc]
        have hp : livePrimaries H v = q ::
            livePrimaries H (handlePrimary H v.sysTaken (v.sysEvents.headD noneEvent)) := by
          rw [livePrimaries_congr H _ _ hf, hlv, hq, List.takeWhile_cons]
          have hs : v.sysTaken.sysEvents = qs := by simp [World.sysTaken, hq]
          simp only [livePrimaries, hc2, hs, List.nil_append]
          simp [hnone]
        rw [hp] at hfuel ⊢
        obtain ⟨w', hw', hdw'⟩ := ih (handlePrimary H v.sysTaken (v.sysEvents.headD noneEvent))
          (by rw [hf.1]; exact h1) (by rw [hf.1]; exact h2)
          (by simp only [List.length_cons] at hfuel; omega)
        refine ⟨w', hw', ?_⟩
        rw [hdw', hd, hb]
        simp [interleave, World.sysTaken, dispatched_append, dispatched, hq]

/-! ## Order of dispatch -/

theorem takeWhile_append_of_all {α : Type} (p : α → Bool) (l r : List α)
    (h : ∀ x ∈ l, p x = true) : (l ++ r).takeWhile p = l ++ r.takeWhile p := by
  induction l with
  | nil => rfl
  | cons a l ih =>
    have ha := h a (List.mem_cons_self a l)
    simp only [List.cons_append, List.takeWhile_cons, ha, if_true, List.cons.injEq, true_and]
    exact ih (fun x hx => h x (List.mem_cons_of_mem a hx))

theorem takeWhile_stop (rest : List sysEvent_t)
    (hrest : ∀ e, rest.head? = some e → e.evType = SE_NONE) :
    rest.takeWhile (fun e => decide (e.evType ≠ SE_NONE)) = [] := by
  cases rest with
  | nil => rfl
  | cons e r =>
    have h := hrest e rfl
    simp [List.takeWhile, h]

theorem interleave_no_secondary (es : List sysEvent_t) (bs : List (List sysEvent_t))
    (h : ∀ b ∈ bs, b = []) : interleave es bs = es := by
  induction es generalizing bs with
  | nil => rfl
  | cons e es ih =>
    rw [interleave]
    cases bs with
    | nil => simp [ih [] (by simp)]
    | cons b bs =>
      have hb := h b (List.mem_cons_self b bs)
      simp [hb, ih bs (fun x hx => h x (List.mem_cons_of_mem b hx))]

theorem interleave_mem (es : List sysEvent_t) (bs : List (List sysEvent_t)) (x : sysEvent_t)
    (h : x ∈ interleave es bs) : x ∈ es ∨ ∃ b ∈ bs, x ∈ b := by
  induction es generalizing bs with
  | nil => simp [interleave] at h
  | cons e es ih =>
    rw [interleave] at h
    rcases List.mem_cons.mp h with rfl | h
    · exact Or.inl (List.mem_cons_self _ _)
    · rcases List.mem_append.mp h with h | h
      · right
        cases bs with
        | nil => simp at h
        | cons b bs => exact ⟨b, List.mem_cons_self b bs, by simpa using h⟩
      · rcases ih bs.tail h with h | ⟨b, hb, hx⟩
        · exact Or.inl (List.mem_cons_of_mem e h)
        · exact Or.inr ⟨b, List.mem_of_mem_tail hb, hx⟩

theorem livePrimaries_eq (H : Decls) (w : World) (real rest : List sysEvent_t)
    (hring : ∀ e ∈ ringContents H w, e.evType ≠ SE_NONE)
    (hreal : ∀ e ∈ real, e.evType ≠ SE_NONE)
    (hsys : w.sysEvents = real ++ rest)
    (hrest : ∀ e, rest.head? = some e → e.evType = SE_NONE) :
    livePrimaries H w = ringContents H w ++ real := by
  unfold livePrimaries
  rw [hsys, ← List.append_assoc, takeWhile_append_of_all, takeWhile_stop rest hrest,
    List.append_nil]
  intro x hx
  rcases List.mem_append.mp hx with h | h
  · simpa using hring x h
  · simpa using hreal x h

/-- The contents of the ring buffer after one event more than it can hold has
been pushed into the empty buffer: the first event is gone. -/
theorem pushAll_overflow_contents (H : Decls) (k : Nat) (w : World) (e0 : sysEvent_t)
    (es : List sysEvent_t)
    (hpow : H.MAX_PUSHED_EVENTS = 2 ^ k)
    (hempty : w.com_pushedEventsHead = w.com_pushedEventsTail)
    (hlen : es.length = H.MAX_PUSHED_EVENTS) :
    ringContents H (pushAll H w (e0 :: es)) = es ∧
    (pushAll H w (e0 :: es)).trace =
      w.trace ++ (Effect.Printf "WARNING: Com_PushEvent overflow\n" ::
        (if e0.evPtr ≠ 0 then [Effect.Mem_Free e0.evPtr] else [])) := by
  have hpos : 0 < H.MAX_PUSHED_EVENTS := by rw [hpow]; positivity
  obtain ⟨ini, lst, hes⟩ : ∃ ini lst, es = ini ++ [lst] := by
    have hne : es ≠ [] := by
      intro h
      rw [h] at hlen
      simp at hlen
      omega
    exact ⟨es.dropLast, es.getLast hne, (List.dropLast_append_getLast hne).symm⟩
  have hini : ini.length + 1 = H.MAX_PUSHED_EVENTS := by
    rw [← hlen, hes]
    simp
  have hsplit : e0 :: es = (e0 :: ini) ++ [lst] := by rw [hes]; rfl
  obtain ⟨hh, ht, hc, htr, hpw⟩ := pushAll_room H k (e0 :: ini) w hpow (by omega)
    (by simp only [List.length_cons]; omega)
  have hc0 : ringContents H w = [] := by
    simp [ringContents, hempty]
  rw [hc0, List.nil_append] at hc
  have hfull : (pushAll H w (e0 :: ini)).com_pushedEventsHead =
      (pushAll H w (e0 :: ini)).com_pushedEventsTail + H.MAX_PUSHED_EVENTS := by
    rw [hh, ht]
    simp only [List.length_cons]
    omega
  have hslot := full_slot_eq_head H k _ hpow hfull
  rw [hc, List.head?_cons, Option.some.injEq] at hslot
  have hocc : occupancy (pushAll H w (e0 :: ini)) ≥ H.MAX_PUSHED_EVENTS := by
    unfold occupancy
    rw [hfull]
    push_cast
    omega
  have hc2 := ringContents_PushEvent H k (pushAll H w (e0 :: ini)) lst hpow (by omega)
    (by omega)
  rw [if_pos (by omega), hc, List.tail_cons] at hc2
  have htr2 := PushEvent_trace H (pushAll H w (e0 :: ini)) lst
  rw [if_pos hocc, ← hslot, hpw (by simp), htr] at htr2
  rw [hsplit, pushAll_append]
  refine ⟨by rw [hc2, hes], ?_⟩
  rw [htr2]
  simp

/-- C3 (as amended). Ordering: when at most `MAX_PUSHED_EVENTS` events of kind
other than none are pushed into an empty ring buffer and the platform then
supplies the events `real`, of kind other than none, followed by an event of
kind none or by nothing (journal off, axis state zero, no secondary events),
one `RunEventLoop` invocation with enough fuel returns 0 and has passed to
`ProcessEvent` exactly the pushed events in push order followed by the events
`real` in arrival order. -/
theorem C3_ordering (H : Decls) (k : Nat) (w0 : World) (pushed real rest : List sysEvent_t)
    (ce : Bool) (fuel : Nat)
    (hpow : H.MAX_PUSHED_EVENTS = 2 ^ k)
    (hempty : w0.com_pushedEventsHead = w0.com_pushedEventsTail)
    (hN : pushed.length ≤ H.MAX_PUSHED_EVENTS)
    (hpushed : ∀ e ∈ pushed, e.evType ≠ SE_NONE)
    (hreal : ∀ e ∈ real, e.evType ≠ SE_NONE)
    (hsys : w0.sysEvents = real ++ rest)
    (hrest : ∀ e, rest.head? = some e → e.evType = SE_NONE)
    (hj : w0.com_journal = 0) (hdx : w0.dx = 0) (hdy : w0.dy = 0)
    (hsec : ∀ b ∈ w0.sysBatches, b = [])
    (hfuel : pushed.length + real.length < fuel) :
    ∃ w', RunEventLoop H fuel (pushAll H w0 pushed) ce = some (.ok 0 w') ∧
      dispatched w'.trace = dispatched w0.trace ++ (pushed ++ real) := by
  obtain ⟨_, _, hc, htr, _⟩ := pushAll_room H k pushed w0 hpow (by omega) (by omega)
  have hc0 : ringContents H w0 = [] := by simp [ringContents, hempty]
  rw [hc0, List.nil_append] at hc
  obtain ⟨fq, fb, fj, _, _, fdx, fdy, _⟩ := pushAll_frame H pushed w0
  have hlp := livePrimaries_eq H (pushAll H w0 pushed) real rest (by rw [hc]; exact hpushed)
    hreal (by rw [fq, hsys]) hrest
  rw [hc] at hlp
  obtain ⟨w', hw', hd⟩ := RunEventLoop_loop_live H ce fuel (pushAll H w0 pushed)
    (by rw [fj, hj]; decide) (by rw [fj, hj]; decide)
    (by rw [hlp, List.length_append]; exact hfuel)
  refine ⟨w', ?_, ?_⟩
  · unfold RunEventLoop
    dsimp only
    rw [if_neg (by rw [fdx, fdy, hdx, hdy]; simp)]
    exact hw'
  · rw [hd, hlp, fb, interleave_no_secondary _ _ hsec, htr]

/-- C3 (as amended) at a concrete input: two key events pushed, nothing pending
on the platform. -/
theorem C3_ordering_witness :
    ∃ w', RunEventLoop sampleDecls 4 (pushAll sampleDecls (freshWorld 0) [keyEvent 1, keyEvent 2])
        true = some (.ok 0 w') ∧
      dispatched w'.trace = dispatched (freshWorld 0).trace ++ ([keyEvent 1, keyEvent 2] ++ []) :=
  C3_ordering sampleDecls 6 (freshWorld 0) [keyEvent 1, keyEvent 2] [] [] true 4
    (by decide) rfl (by decide) (by decide) (by decide) rfl (by decide) rfl rfl rfl
    (by decide) (by decide)

/-- C3, as stated, fails: 65 key events pushed into the empty ring buffer of 64
slots, nothing pending on the platform; the pass dispatches the last 64 of them,
not the 65 pushed. -/
theorem C3_ordering_counterexample :
    ∃ w', RunEventLoop sampleDecls 100
        (pushAll sampleDecls (freshWorld 0)
          (keyEvent 0 :: keyEvents 64)) false
        = some (.ok 0 w') ∧
      dispatched w'.trace = keyEvents 64 ∧
      dispatched w'.trace ≠
        keyEvent 0 :: keyEvents 64 := by
  obtain ⟨hc, htr⟩ := pushAll_overflow_contents sampleDecls 6 (freshWorld 0) (keyEvent 0)
    (keyEvents 64) (by decide) rfl (by simp [sampleDecls, keyEvents])
  obtain ⟨fq, fb, fj, _, _, fdx, fdy, _⟩ := pushAll_frame sampleDecls
    (keyEvent 0 :: keyEvents 64) (freshWorld 0)
  have hlp := livePrimaries_eq sampleDecls
    (pushAll sampleDecls (freshWorld 0)
      (keyEvent 0 :: keyEvents 64)) [] []
    (by
      rw [hc]
      intro e he
      obtain ⟨i, _, rfl⟩ := List.mem_map.mp he
      simp [keyEvent])
    (by simp) (by rw [fq]; rfl) (by simp)
  rw [hc, List.append_nil] at hlp
  obtain ⟨w', hw', hd⟩ := RunEventLoop_loop_live sampleDecls false 100
    (pushAll sampleDecls (freshWorld 0)
      (keyEvent 0 :: keyEvents 64))
    (by rw [fj]; decide) (by rw [fj]; decide) (by rw [hlp]; simp [keyEvents])
  have hd2 : dispatched w'.trace = keyEvents 64 := by
    rw [hd, hlp, fb, htr]
    simp [freshWorld, World.initial, interleave_no_secondary, dispatched]
  refine ⟨w', ?_, hd2, ?_⟩
  · unfold RunEventLoop
    dsimp only
    rw [if_neg (by rw [fdx, fdy]; simp [freshWorld, World.initial])]
    exact hw'
  · rw [hd2]
    intro h
    have := congrArg List.length h
    simp at this

/-! ## Playback: the platform's pending events are not consulted -/

theorem ProcessEvent_withSysEvents (w : World) (s : List sysEvent_t) (ev : sysEvent_t) :
    ProcessEvent (w.withSysEvents s) ev = (ProcessEvent w ev).withSysEvents s := by
  unfold ProcessEvent
  dsimp only
  split_ifs <;> rfl

theorem drainSysEvents_withSysEvents (b : List sysEvent_t) (w : World) (s : List sysEvent_t)
    (i : Nat) :
    drainSysEvents (w.withSysEvents s) i b = (drainSysEvents w i b).withSysEvents s := by
  induction b generalizing w i with
  | nil => rfl
  | cons e b ih =>
    rw [drainSysEvents, drainSysEvents, ← ih, ← ProcessEvent_withSysEvents]
    rfl

theorem updateAxis_withSysEvents (H : Decls) (w : World) (s : List sysEvent_t)
    (ev : sysEvent_t) :
    updateAxis H (w.withSysEvents s) ev = (updateAxis H w ev).withSysEvents s := by
  unfold updateAxis
  split_ifs <;> rfl

theorem Sys_PollSysEvents_withSysEvents (w : World) (s : List sysEvent_t) :
    Sys_PollSysEvents (w.withSysEvents s) =
      ((Sys_PollSysEvents w).1, (Sys_PollSysEvents w).2.withSysEvents s) := by
  rw [Sys_PollSysEvents_eq, Sys_PollSysEvents_eq]
  rfl

theorem handlePrimary_withSysEvents (H : Decls) (w : World) (s : List sysEvent_t)
    (ev : sysEvent_t) :
    handlePrimary H (w.withSysEvents s) ev = (handlePrimary H w ev).withSysEvents s := by
  unfold handlePrimary
  dsimp only
  rw [ProcessEvent_withSysEvents, updateAxis_withSysEvents, Sys_PollSysEvents_withSysEvents]
  dsimp only
  rw [drainSysEvents_withSysEvents]
  rfl

theorem GetRealEvent_playback_withSysEvents (H : Decls) (w : World) (s : List sysEvent_t) :
    GetRealEvent_playback H (w.withSysEvents s) =
      (GetRealEvent_playback H w).mapWorld (fun v => v.withSysEvents s) := by
  unfold GetRealEvent_playback
  have hf : (w.withSysEvents s).com_journalFile = w.com_journalFile := rfl
  rw [hf]
  split
  · rfl
  · dsimp only
    split_ifs <;> rfl

theorem GetEvent_withSysEvents (H : Decls) (w : World) (s : List sysEvent_t)
    (hmode : w.com_journal = 2) :
    GetEvent H (w.withSysEvents s) = (GetEvent H w).mapWorld (fun v => v.withSysEvents s) := by
  unfold GetEvent
  dsimp only
  have hh : ((w.withSysEvents s).emit Effect.GetEvent).com_pushedEventsHead =
      (w.emit Effect.GetEvent).com_pushedEventsHead := rfl
  have ht : ((w.withSysEvents s).emit Effect.GetEvent).com_pushedEventsTail =
      (w.emit Effect.GetEvent).com_pushedEventsTail := rfl
  rw [hh, ht]
  split_ifs
  · rfl
  · have he : (w.withSysEvents s).emit Effect.GetEvent =
        (w.emit Effect.GetEvent).withSysEvents s := rfl
    have hm : (w.emit Effect.GetEvent).com_journal = 2 := hmode
    rw [he]
    unfold GetRealEvent
    rw [if_pos hm, if_pos (by exact hm)]
    exact GetRealEvent_playback_withSysEvents H _ s

theorem RunEventLoop_loop_withSysEvents (H : Decls) (ce : Bool) (fuel : Nat) (w : World)
    (s : List sysEvent_t) (hmode : w.com_journal = 2) :
    RunEventLoop_loop H ce fuel (w.withSysEvents s) =
      (RunEventLoop_loop H ce fuel w).map (Outcome.mapWorld (fun v => v.withSysEvents s)) := by
  induction fuel generalizing w with
  | zero => rfl
  | succ fuel ih =>
    rw [RunEventLoop_loop_succ, RunEventLoop_loop_succ]
    have hb : beforeGetEvent ce (w.withSysEvents s) = (beforeGetEvent ce w).withSysEvents s := by
      unfold beforeGetEvent
      cases ce <;> rfl
    have hm : (beforeGetEvent ce w).com_journal = 2 := by
      rw [(beforeGetEvent_frame ce w).1.1]
      exact hmode
    rw [hb, GetEvent_withSysEvents H _ s hm]
    have hj := GetEvent_journal H (beforeGetEvent ce w)
    cases hg : GetEvent H (beforeGetEvent ce w) with
    | fatal m v => rfl
    | crash v => rfl
    | ok ev v =>
      rw [hg] at hj
      simp only [Outcome.world] at hj
      simp only [Outcome.mapWorld]
      split_ifs with hne
      · rw [handlePrimary_withSysEvents]
        exact ih _ (by rw [(handlePrimary_frame H v ev).1, hj, hm])
      · rfl

/-- In playback mode a pass does not depend on the events pending on the
platform: with other events pending it ends the same way, in the same state but
for those events. -/
theorem RunEventLoop_withSysEvents (H : Decls) (ce : Bool) (fuel : Nat) (w : World)
    (s : List sysEvent_t) (hmode : w.com_journal = 2) :
    RunEventLoop H fuel (w.withSysEvents s) ce =
      (RunEventLoop H fuel w ce).map (Outcome.mapWorld (fun v => v.withSysEvents s)) := by
  unfold RunEventLoop
  dsimp only
  have hdx : (w.withSysEvents s).dx = w.dx := rfl
  have hdy : (w.withSysEvents s).dy = w.dy := rfl
  rw [hdx, hdy]
  split_ifs
  · rw [ProcessEvent_withSysEvents]
    exact RunEventLoop_loop_withSysEvents H ce fuel _ s
      (by rw [(ProcessEvent_frame w _).1]; exact hmode)
  · exact RunEventLoop_loop_withSysEvents H ce fuel w s hmode

theorem observe_mapWorld_withSysEvents (r : Option (Outcome Int)) (s : List sysEvent_t) :
    observe (r.map (Outcome.mapWorld (fun v => v.withSysEvents s))) = observe r := by
  cases r with
  | none => rfl
  | some o => cases o <;> rfl

/-! ## Playback follows the recording pass -/

theorem views_append (t u : List Effect) : views (t ++ u) = views t ++ views u := by
  induction t with
  | nil => rfl
  | cons a t ih => cases a <;> simp [views, ih]

theorem handlePrimary_eq (H : Decls) (w : World) (ev : sysEvent_t) :
    handlePrimary H w ev = finishPrimary H (ProcessEvent w ev) ev := rfl

theorem Replays.congr {H : Decls} {S0 : List sysEvent_t} {B0 : Nat → Option (List byte)}
    {Vr Vp : List EventView} {wr wp wr' wp' : World} (h : Replays H S0 B0 Vr Vp wr wp)
    (hr : control wr' = control wr) (hrb : wr'.blocks = wr.blocks)
    (hp : control wp' = control wp) (hpb : wp'.blocks = wp.blocks)
    (hpl : wp'.lastAlloc = wp.lastAlloc) :
    Replays H S0 B0 Vr Vp wr' wp' := by
  simp only [control, Control.mk.injEq] at hr hp
  obtain ⟨r1, r2, r3, r4, r5, r6, r7, r8, r9⟩ := hr
  obtain ⟨p1, p2, p3, p4, p5, p6, p7, p8, p9⟩ := hp
  have hring : ringContents H wr' = ringContents H wr := ringContents_congr H wr wr' r2 r3 r4
  exact
    { modeR := r1.trans h.modeR
      modeP := p1.trans h.modeP
      slots := by rw [p2, r2]; exact h.slots
      head := by rw [p3, r3]; exact h.head
      tail := by rw [p4, r4]; exact h.tail
      dx := by rw [p5, r5]; exact h.dx
      dy := by rw [p6, r6]; exact h.dy
      batches := by rw [p8, r8]; exact h.batches
      sync := by rw [p9, r9]; exact h.sync
      agree := by rw [hpb, hrb]; exact h.agree
      fresh := by rw [hpb, hrb, hpl]; exact h.fresh
      shrink := by rw [hrb]; exact h.shrink
      pending := by rw [r7]; exact h.pending
      ringPtr := by rw [hring]; exact h.ringPtr
      batchPtr := by rw [r8]; exact h.batchPtr }

theorem ProcessEvent_blocks (w : World) (ev : sysEvent_t) :
    (ProcessEvent w ev).blocks =
      if ev.evPtr ≠ 0 then Function.update w.blocks ev.evPtr none else w.blocks := by
  unfold ProcessEvent
  dsimp only
  split_ifs <;> simp [Mem_Free, World.emit]

theorem ProcessEvent_views (w : World) (ev : sysEvent_t) :
    views (ProcessEvent w ev).trace = views w.trace ++ [view w ev] := by
  rw [ProcessEvent_trace]
  simp only [views_append, views]
  split_ifs <;> simp [views, view]

theorem ProcessEvent_control (w : World) (ev : sysEvent_t) :
    control (ProcessEvent w ev) = { control w with seen := views w.trace ++ [view w ev] } := by
  obtain ⟨f1, _, _, f4, f5, f6, _, _, f9⟩ := ProcessEvent_frame w ev
  obtain ⟨a1, a2, a3⟩ := ProcessEvent_axis w ev
  simp only [control, f1, f4, f5, f6, f9, a1, a2, a3, ProcessEvent_views]

theorem control_emit (w : World) (e : Effect) (he : views [e] = []) :
    control (w.emit e) = control w := by
  simp [control, World.emit, views_append, he]

theorem view_eq_of_agree {S0 : List sysEvent_t} (wr wp : World) (ev : sysEvent_t)
    (hagree : ∀ p, ¬ platformPtr S0 p → wp.blocks p = wr.blocks p)
    (hev : ¬ platformPtr S0 ev.evPtr) : view wp ev = view wr ev := by
  simp only [view, payloadAt, hagree ev.evPtr hev]

/-- The same event dispatched in both states. -/
theorem Replays.processEvent {H : Decls} {S0 : List sysEvent_t}
    {B0 : Nat → Option (List byte)} {Vr Vp : List EventView} {wr wp : World}
    (h : Replays H S0 B0 Vr Vp wr wp) (ev : sysEvent_t) (hev : ¬ platformPtr S0 ev.evPtr) :
    Replays H S0 B0 Vr Vp (ProcessEvent wr ev) (ProcessEvent wp ev) := by
  have fr := ProcessEvent_frame wr ev
  have fp := ProcessEvent_frame wp ev
  obtain ⟨ar1, ar2, ar3⟩ := ProcessEvent_axis wr ev
  obtain ⟨ap1, ap2, ap3⟩ := ProcessEvent_axis wp ev
  obtain ⟨X, hX1, hX2⟩ := h.sync
  have hview := view_eq_of_agree wr wp ev h.agree hev
  refine
    { modeR := fr.1.trans h.modeR
      modeP := fp.1.trans h.modeP
      slots := by rw [fp.2.2.2.1, fr.2.2.2.1]; exact h.slots
      head := by rw [fp.2.2.2.2.1, fr.2.2.2.2.1]; exact h.head
      tail := by rw [fp.2.2.2.2.2.1, fr.2.2.2.2.2.1]; exact h.tail
      dx := by rw [ap1, ar1]; exact h.dx
      dy := by rw [ap2, ar2]; exact h.dy
      batches := by rw [ap3, ar3]; exact h.batches
      sync := ⟨X ++ [view wr ev], ?_, ?_⟩
      agree := ?_
      fresh := ?_
      shrink := ?_
      pending := by rw [fr.2.2.2.2.2.2.2.2]; exact h.pending
      ringPtr := by rw [ringContents_frame H wr _ fr]; exact h.ringPtr
      batchPtr := by rw [ar3]; exact h.batchPtr }
  · rw [ProcessEvent_views, hX1, List.append_assoc]
  · rw [ProcessEvent_views, hX2, hview, List.append_assoc]
  · intro p hp
    rw [ProcessEvent_blocks, ProcessEvent_blocks]
    split_ifs
    · by_cases hpe : p = ev.evPtr
      · rw [hpe, Function.update_same, Function.update_same]
      · rw [Function.update_noteq hpe, Function.update_noteq hpe]
        exact h.agree p hp
    · exact h.agree p hp
  · intro p hp
    rw [fp.2.2.2.2.2.2.2.1] at hp
    obtain ⟨q1, q2⟩ := h.fresh p hp
    rw [ProcessEvent_blocks, ProcessEvent_blocks]
    split_ifs
    · by_cases hpe : p = ev.evPtr
      · rw [hpe, Function.update_same, Function.update_same]
        exact ⟨rfl, rfl⟩
      · rw [Function.update_noteq hpe, Function.update_noteq hpe]
        exact ⟨q1, q2⟩
    · exact ⟨q1, q2⟩
  · intro p bs hb
    rw [ProcessEvent_blocks] at hb
    split_ifs at hb
    · by_cases hpe : p = ev.evPtr
      · rw [hpe, Function.update_same] at hb
        cases hb
      · rw [Function.update_noteq hpe] at hb
        exact h.shrink p bs hb
    · exact h.shrink p bs hb

/-- A call that is no dispatch, recorded in both states. -/
theorem Replays.emit {H : Decls} {S0 : List sysEvent_t}
    {B0 : Nat → Option (List byte)} {Vr Vp : List EventView} {wr wp : World}
    (h : Replays H S0 B0 Vr Vp wr wp) (e1 e2 : Effect) (h1 : views [e1] = [])
    (h2 : views [e2] = []) :
    Replays H S0 B0 Vr Vp (wr.emit e1) (wp.emit e2) :=
  h.congr (control_emit wr e1 h1) rfl (control_emit wp e2 h2) rfl rfl

/-- The same secondary events drained in both states. -/
theorem Replays.drain {H : Decls} {S0 : List sysEvent_t}
    {B0 : Nat → Option (List byte)} {Vr Vp : List EventView} (b : List sysEvent_t)
    {wr wp : World} (h : Replays H S0 B0 Vr Vp wr wp) (i : Nat)
    (hb : ∀ ev ∈ b, ¬ platformPtr S0 ev.evPtr) :
    Replays H S0 B0 Vr Vp (drainSysEvents wr i b) (drainSysEvents wp i b) := by
  induction b generalizing wr wp i with
  | nil => exact h
  | cons e b ih =>
    rw [drainSysEvents, drainSysEvents]
    exact ih ((h.emit (Effect.Sys_ReturnSysEvent i e) (Effect.Sys_ReturnSysEvent i e) rfl
        rfl).processEvent e (hb e (List.mem_cons_self e b))) (i + 1)
      (fun x hx => hb x (List.mem_cons_of_mem e hx))

theorem Replays.setDx {H : Decls} {S0 : List sysEvent_t}
    {B0 : Nat → Option (List byte)} {Vr Vp : List EventView} {wr wp : World}
    (h : Replays H S0 B0 Vr Vp wr wp) (x : Int) :
    Replays H S0 B0 Vr Vp { wr with dx := x } { wp with dx := x } :=
  { modeR := h.modeR, modeP := h.modeP, slots := h.slots, head := h.head, tail := h.tail
    dx := rfl, dy := h.dy, batches := h.batches, sync := h.sync, agree := h.agree
    fresh := h.fresh, shrink := h.shrink, pending := h.pending, ringPtr := h.ringPtr
    batchPtr := h.batchPtr }

theorem Replays.setDy {H : Decls} {S0 : List sysEvent_t}
    {B0 : Nat → Option (List byte)} {Vr Vp : List EventView} {wr wp : World}
    (h : Replays H S0 B0 Vr Vp wr wp) (y : Int) :
    Replays H S0 B0 Vr Vp { wr with dy := y } { wp with dy := y } :=
  { modeR := h.modeR, modeP := h.modeP, slots := h.slots, head := h.head, tail := h.tail
    dx := h.dx, dy := rfl, batches := h.batches, sync := h.sync, agree := h.agree
    fresh := h.fresh, shrink := h.shrink, pending := h.pending, ringPtr := h.ringPtr
    batchPtr := h.batchPtr }

/-- The axis update after events with the same kind and values. -/
theorem Replays.updateAxis {H : Decls} {S0 : List sysEvent_t}
    {B0 : Nat → Option (List byte)} {Vr Vp : List EventView} {wr wp : World}
    (h : Replays H S0 B0 Vr Vp wr wp) (e e' : sysEvent_t)
    (ht : e'.evType = e.evType) (hv : e'.evValue = e.evValue)
    (hv2 : e'.evValue2 = e.evValue2) :
    Replays H S0 B0 Vr Vp (EventLoop.updateAxis H wr e) (EventLoop.updateAxis H wp e') := by
  unfold EventLoop.updateAxis
  rw [ht, hv, hv2]
  split_ifs
  · exact h.setDx _
  · exact h.setDy _
  · exact h
  · exact h

/-- The poll for secondary events: the same batch in both states. -/
theorem Replays.poll {H : Decls} {S0 : List sysEvent_t}
    {B0 : Nat → Option (List byte)} {Vr Vp : List EventView} {wr wp : World}
    (h : Replays H S0 B0 Vr Vp wr wp) :
    Replays H S0 B0 Vr Vp (Sys_PollSysEvents wr).2 (Sys_PollSysEvents wp).2 ∧
    (Sys_PollSysEvents wp).1 = (Sys_PollSysEvents wr).1 ∧
    ∀ ev ∈ (Sys_PollSysEvents wr).1, ¬ platformPtr S0 ev.evPtr := by
  rw [Sys_PollSysEvents_eq, Sys_PollSysEvents_eq]
  dsimp only
  obtain ⟨X, hX1, hX2⟩ := h.sync
  refine ⟨?_, by rw [h.batches], ?_⟩
  · exact
      { modeR := h.modeR, modeP := h.modeP, slots := h.slots, head := h.head, tail := h.tail
        dx := h.dx, dy := h.dy
        batches := by simp only [h.batches]
        sync := ⟨X, by simp [views_append, views, hX1], by simp [views_append, views, hX2]⟩
        agree := h.agree, fresh := h.fresh, shrink := h.shrink, pending := h.pending
        ringPtr := h.ringPtr
        batchPtr := fun b hb => h.batchPtr b (List.mem_of_mem_tail hb) }
  · intro ev hev
    cases hb : wr.sysBatches with
    | nil =>
      rw [hb] at hev
      simp at hev
    | cons b bs =>
      rw [hb] at hev
      exact h.batchPtr b (by rw [hb]; exact List.mem_cons_self b bs) ev (by simpa using hev)

/-- What follows the dispatch of a primary event, after events with the same
kind and values. -/
theorem Replays.finishPrimary {H : Decls} {S0 : List sysEvent_t}
    {B0 : Nat → Option (List byte)} {Vr Vp : List EventView} {wr wp : World}
    (h : Replays H S0 B0 Vr Vp wr wp) (e e' : sysEvent_t)
    (ht : e'.evType = e.evType) (hv : e'.evValue = e.evValue)
    (hv2 : e'.evValue2 = e.evValue2) :
    Replays H S0 B0 Vr Vp (EventLoop.finishPrimary H wr e) (EventLoop.finishPrimary H wp e') := by
  unfold EventLoop.finishPrimary
  obtain ⟨hp, hb, hptr⟩ := (h.updateAxis e e' ht hv hv2).poll
  rw [hb]
  exact (Replays.drain _ hp 0 hptr).emit _ _ rfl rfl

theorem finishPrimary_frame (H : Decls) (w : World) (ev : sysEvent_t) :
    DispatchFrame w (finishPrimary H w ev) := by
  unfold finishPrimary
  refine DispatchFrame.trans (updateAxis_frame H _ ev) ?_
  refine DispatchFrame.trans (Sys_PollSysEvents_frame _) ?_
  refine DispatchFrame.trans (drainSysEvents_frame
    (Sys_PollSysEvents (updateAxis H w ev)).1
    (Sys_PollSysEvents (updateAxis H w ev)).2 0) ?_
  simp [DispatchFrame, World.emit]

theorem GetRealEvent_record_readable (H : Decls) (w : World) (ev e' : sysEvent_t) (w' : World)
    (h : GetRealEvent_record H w ev = .ok e' w') :
    ev.evPtrLength ≠ 0 → (readBlock w ev.evPtr ev.evPtrLength).isSome := by
  intro h0
  unfold GetRealEvent_record at h
  split at h
  · cases h
  · dsimp only at h
    split_ifs at h
    split at h
    · cases h
    · rename_i ps hps
      have : readBlock w ev.evPtr ev.evPtrLength = some ps := by
        simpa [readBlock] using hps
      rw [this]
      rfl

/-- What a successful `GetEvent` has done in record mode when the ring buffer is
empty. -/
theorem GetEvent_recordTaken (H : Decls) (w : World) (f : idFile) (ev : sysEvent_t)
    (w2 : World) (hring : ¬ w.com_pushedEventsTail < w.com_pushedEventsHead)
    (hmode : w.com_journal = 1) (hf : w.com_journalFile = some f)
    (h : GetEvent H w = .ok ev w2) :
    ev = w.sysEvents.headD noneEvent ∧ w2 = w.recordTaken H f ∧
    (ev.evPtrLength ≠ 0 → (readBlock w ev.evPtr ev.evPtrLength).isSome) := by
  rw [GetEvent_empty H w hring] at h
  unfold GetRealEvent at h
  have hm : (w.emit Effect.GetEvent).com_journal = 1 := hmode
  rw [if_neg (by rw [hm]; decide)] at h
  dsimp only at h
  rw [Sys_GetEvent_eq] at h
  dsimp only at h
  rw [if_pos hm] at h
  have hrd := GetRealEvent_record_readable H _ _ ev w2 h
  obtain ⟨h1, h2, _⟩ := GetRealEvent_record_ok H
    { w.emit Effect.GetEvent with
      sysEvents := (w.emit Effect.GetEvent).sysEvents.tail
      trace := (w.emit Effect.GetEvent).trace ++
        [Effect.Sys_GetEvent ((w.emit Effect.GetEvent).sysEvents.headD noneEvent)] }
    f _ ev w2 hf h
  refine ⟨h1, ?_, ?_⟩
  · rw [h2]
    simp [World.recordTaken, World.emit, payloadBytes, readBlock]
  · intro h0
    rw [h1] at h0 ⊢
    have := hrd h0
    simpa [readBlock, World.emit] using this

theorem recordTaken_control (H : Decls) (w : World) (f : idFile) :
    control (w.recordTaken H f) = { control w with sysEvents := w.sysEvents.tail } ∧
    (w.recordTaken H f).blocks = w.blocks ∧
    (w.recordTaken H f).com_journalFile = some (f.appended
      (H.layout.encode (w.sysEvents.headD noneEvent) ++
        payloadBytes w (w.sysEvents.headD noneEvent))) := by
  simp [control, World.recordTaken, views_append, views]

theorem GetRealEvent_playback_control (H : Decls) (w : World) :
    control (GetRealEvent_playback H w).world = control w := by
  unfold GetRealEvent_playback
  split
  · rfl
  · dsimp only
    split_ifs <;> simp [control, Outcome.world, Mem_ClearedAlloc, views_append, views]

theorem ringTaken_control (w : World) :
    control w.ringTaken =
      { control w with com_pushedEventsTail := w.com_pushedEventsTail + 1 } := by
  simp [control, World.ringTaken, views_append, views]

/-- An event taken from the ring buffer in both states. -/
theorem Replays.ringTaken {H : Decls} {S0 : List sysEvent_t}
    {B0 : Nat → Option (List byte)} {Vr Vp : List EventView} {wr wp : World}
    (h : Replays H S0 B0 Vr Vp wr wp)
    (hring : wr.com_pushedEventsTail < wr.com_pushedEventsHead) :
    Replays H S0 B0 Vr Vp wr.ringTaken wp.ringTaken := by
  obtain ⟨X, hX1, hX2⟩ := h.sync
  have hc := ringContents_eq_cons H wr hring
  exact
    { modeR := h.modeR, modeP := h.modeP, slots := h.slots, head := h.head
      tail := by simp only [World.ringTaken, h.tail]
      dx := h.dx, dy := h.dy, batches := h.batches
      sync := ⟨X, by simp [World.ringTaken, views_append, views, hX1],
        by simp [World.ringTaken, views_append, views, hX2]⟩
      agree := h.agree, fresh := h.fresh, shrink := h.shrink, pending := h.pending
      ringPtr := fun ev hev => h.ringPtr ev (by
        rw [hc]
        exact List.mem_cons_of_mem _ hev)
      batchPtr := h.batchPtr }

/-- The dispatch of a platform event: in the recording state the event `e` just
recorded, in the playback state the event `e'` just read back, with its payload
in a block of its own. -/
theorem Replays.platformEvent {H : Decls} {S0 : List sysEvent_t} {w0 : World}
    {Vr Vp : List EventView} {wr wp : World}
    (h : Replays H S0 w0.blocks Vr Vp wr wp) (e e' : sysEvent_t) (wr2 wp2 : World)
    (heS0 : e ∈ S0) (hwf : wellFormedPayload w0 e)
    (hread : e.evPtrLength ≠ 0 → (readBlock wr e.evPtr e.evPtrLength).isSome)
    (hcr : control wr2 = { control wr with sysEvents := wr.sysEvents.tail })
    (hbr : wr2.blocks = wr.blocks)
    (hcp : control wp2 = control wp)
    (ht : e'.evType = e.evType) (hv : e'.evValue = e.evValue)
    (hv2 : e'.evValue2 = e.evValue2) (hl : e'.evPtrLength = e.evPtrLength)
    (hz : e.evPtrLength = 0 → e'.evPtr = e.evPtr ∧ wp2.blocks = wp.blocks ∧
      wp2.lastAlloc = wp.lastAlloc)
    (hnz : e.evPtrLength ≠ 0 → e'.evPtr = wp.lastAlloc + 1 ∧
      wp2.lastAlloc = wp.lastAlloc + 1 ∧
      wp2.blocks = Function.update wp.blocks (wp.lastAlloc + 1) (some (payloadBytes wr e))) :
    Replays H S0 w0.blocks Vr Vp (ProcessEvent wr2 e) (ProcessEvent wp2 e') := by
  simp only [control, Control.mk.injEq] at hcr hcp
  obtain ⟨r1, r2, r3, r4, r5, r6, r7, r8, r9⟩ := hcr
  obtain ⟨p1, p2, p3, p4, p5, p6, p7, p8, p9⟩ := hcp
  have fr := ProcessEvent_frame wr2 e
  have fp := ProcessEvent_frame wp2 e'
  obtain ⟨ar1, ar2, ar3⟩ := ProcessEvent_axis wr2 e
  obtain ⟨ap1, ap2, ap3⟩ := ProcessEvent_axis wp2 e'
  obtain ⟨X, hX1, hX2⟩ := h.sync
  have hring : ringContents H (ProcessEvent wr2 e) = ringContents H wr := by
    rw [ringContents_frame H wr2 _ fr]
    exact ringContents_congr H wr wr2 r2 r3 r4
  have hpend : ∀ x ∈ (ProcessEvent wr2 e).sysEvents, x ∈ S0 := by
    rw [fr.2.2.2.2.2.2.2.2, r7]
    intro x hx
    exact h.pending x (List.mem_of_mem_tail hx)
  by_cases h0 : e.evPtrLength = 0
  · -- no payload: nothing is released
    obtain ⟨z1, z2, z3⟩ := hz h0
    have hp0 : e.evPtr = 0 := by
      rcases hwf with ⟨hp, _⟩ | ⟨_, hl0, _⟩
      · exact hp
      · omega
    have hp0' : e'.evPtr = 0 := z1.trans hp0
    have hbr' : (ProcessEvent wr2 e).blocks = wr.blocks := by
      rw [ProcessEvent_blocks, if_neg (by simp [hp0]), hbr]
    have hbp' : (ProcessEvent wp2 e').blocks = wp.blocks := by
      rw [ProcessEvent_blocks, if_neg (by simp [hp0']), z2]
    have hview : view wp2 e' = view wr2 e := by
      simp [view, payloadAt, ht, hv, hv2, hl, hp0, hp0']
    exact
      { modeR := by rw [fr.1, r1]; exact h.modeR
        modeP := by rw [fp.1, p1]; exact h.modeP
        slots := by rw [fp.2.2.2.1, fr.2.2.2.1, p2, r2]; exact h.slots
        head := by rw [fp.2.2.2.2.1, fr.2.2.2.2.1, p3, r3]; exact h.head
        tail := by rw [fp.2.2.2.2.2.1, fr.2.2.2.2.2.1, p4, r4]; exact h.tail
        dx := by rw [ap1, ar1, p5, r5]; exact h.dx
        dy := by rw [ap2, ar2, p6, r6]; exact h.dy
        batches := by rw [ap3, ar3, p8, r8]; exact h.batches
        sync := ⟨X ++ [view wr2 e],
          by rw [ProcessEvent_views, r9, hX1, List.append_assoc],
          by rw [ProcessEvent_views, p9, hX2, hview, List.append_assoc]⟩
        agree := by rw [hbr', hbp']; exact h.agree
        fresh := by rw [hbr', hbp', fp.2.2.2.2.2.2.2.1, z3]; exact h.fresh
        shrink := by rw [hbr']; exact h.shrink
        pending := hpend
        ringPtr := by rw [hring]; exact h.ringPtr
        batchPtr := by rw [ar3, r8]; exact h.batchPtr }
  · -- a payload: released at its own address in each state
    obtain ⟨n1, n2, n3⟩ := hnz h0
    obtain ⟨hpne, bs0, hB0, hbs0⟩ : e.evPtr ≠ 0 ∧ ∃ bs, w0.blocks e.evPtr = some bs ∧
        bs.length = e.evPtrLength := by
      rcases hwf with ⟨_, hl0⟩ | ⟨hp, _, hb⟩
      · exact absurd hl0 h0
      · exact ⟨hp, hb⟩
    obtain ⟨ps, hps⟩ := Option.isSome_iff_exists.mp (hread h0)
    have hblk : wr.blocks e.evPtr = some bs0 ∧ payloadBytes wr e = bs0 := by
      unfold readBlock at hps
      cases hb : wr.blocks e.evPtr with
      | none => rw [hb] at hps; cases hps
      | some bs =>
        have hsh := h.shrink e.evPtr bs hb
        rw [hB0] at hsh
        cases hsh
        refine ⟨rfl, ?_⟩
        simp [payloadBytes, readBlock, h0, hb, hbs0]
    obtain ⟨hblk1, hblk2⟩ := hblk
    rw [hblk2] at n3
    have hplat : platformPtr S0 e.evPtr := ⟨e, heS0, h0, rfl⟩
    have hpne' : e'.evPtr ≠ 0 := by rw [n1]; omega
    have hbr' : (ProcessEvent wr2 e).blocks = Function.update wr.blocks e.evPtr none := by
      rw [ProcessEvent_blocks, if_pos hpne, hbr]
    have hbp' : (ProcessEvent wp2 e').blocks =
        Function.update wp.blocks (wp.lastAlloc + 1) none := by
      rw [ProcessEvent_blocks, if_pos hpne', n1, n3, Function.update_idem]
    have hview : view wp2 e' = view wr2 e := by
      simp [view, payloadAt, ht, hv, hv2, hl, hpne, hpne', hbr, hblk1, n1, n3]
    exact
      { modeR := by rw [fr.1, r1]; exact h.modeR
        modeP := by rw [fp.1, p1]; exact h.modeP
        slots := by rw [fp.2.2.2.1, fr.2.2.2.1, p2, r2]; exact h.slots
        head := by rw [fp.2.2.2.2.1, fr.2.2.2.2.1, p3, r3]; exact h.head
        tail := by rw [fp.2.2.2.2.2.1, fr.2.2.2.2.2.1, p4, r4]; exact h.tail
        dx := by rw [ap1, ar1, p5, r5]; exact h.dx
        dy := by rw [ap2, ar2, p6, r6]; exact h.dy
        batches := by rw [ap3, ar3, p8, r8]; exact h.batches
        sync := ⟨X ++ [view wr2 e],
          by rw [ProcessEvent_views, r9, hX1, List.append_assoc],
          by rw [ProcessEvent_views, p9, hX2, hview, List.append_assoc]⟩
        agree := by
          intro p hp
          have hpe : p ≠ e.evPtr := fun hpe => hp (hpe ▸ hplat)
          rw [hbr', hbp', Function.update_noteq hpe]
          by_cases hpa : p = wp.lastAlloc + 1
          · rw [hpa, Function.update_same]
            exact ((h.fresh (wp.lastAlloc + 1) (by omega)).1).symm
          · rw [Function.update_noteq hpa]
            exact h.agree p hp
        fresh := by
          intro p hp
          rw [fp.2.2.2.2.2.2.2.1, n2] at hp
          obtain ⟨q1, q2⟩ := h.fresh p (by omega)
          rw [hbr', hbp']
          constructor
          · by_cases hpe : p = e.evPtr
            · rw [hpe, Function.update_same]
            · rw [Function.update_noteq hpe]
              exact q1
          · rw [Function.update_noteq (by omega)]
            exact q2
        shrink := by
          intro p bs hb
          rw [hbr'] at hb
          by_cases hpe : p = e.evPtr
          · rw [hpe, Function.update_same] at hb
            cases hb
          · rw [Function.update_noteq hpe] at hb
            exact h.shrink p bs hb
        pending := hpend
        ringPtr := by rw [hring]; exact h.ringPtr
        batchPtr := by rw [ar3, r8]; exact h.batchPtr }

theorem Replays.beforeGetEvent {H : Decls} {S0 : List sysEvent_t}
    {B0 : Nat → Option (List byte)} {Vr Vp : List EventView} {wr wp : World}
    (h : Replays H S0 B0 Vr Vp wr wp) (ce : Bool) :
    Replays H S0 B0 Vr Vp (EventLoop.beforeGetEvent ce wr) (EventLoop.beforeGetEvent ce wp) := by
  unfold EventLoop.beforeGetEvent
  cases ce
  · exact h
  · exact h.emit _ _ rfl rfl

theorem platformPtr_zero (S0 : List sysEvent_t) (w0 : World)
    (hwf : ∀ e ∈ S0, wellFormedPayload w0 e) : ¬ platformPtr S0 0 := by
  rintro ⟨e, he, hl, hp⟩
  rcases hwf e he with ⟨_, h0⟩ | ⟨hne, _⟩
  · exact hl h0
  · exact hne hp

/-- The loop of a playback pass follows the loop of the recording pass that
wrote its journal: it returns as well, after the same views. -/
theorem RunEventLoop_loop_replays (H : Decls) (S0 : List sysEvent_t) (w0 : World)
    (Vr Vp : List EventView) (ce : Bool)
    (hwf : ∀ e ∈ S0, wellFormedPayload w0 e)
    (hdec : ∀ e ∈ S0, H.layout.decode (H.layout.encode e) = e)
    (hnone : noneEvent ∈ S0)
    (fuel : Nat) (wr wr' : World) (fr : idFile)
    (hmode : wr.com_journal = 1) (hfile : wr.com_journalFile = some fr)
    (hloop : RunEventLoop_loop H ce fuel wr = some (.ok 0 wr')) :
    ∃ suffix, wr'.com_journalFile.map idFile.data = some (fr.data ++ suffix) ∧
      ∀ (wp : World) (gp : idFile) (post : List byte),
        Replays H S0 w0.blocks Vr Vp wr wp → wp.com_journalFile = some gp →
        gp.data = fr.data ++ (suffix ++ post) → gp.pos = fr.data.length →
        ∃ wp', RunEventLoop_loop H ce fuel wp = some (.ok 0 wp') ∧
          ∃ X, views wr'.trace = Vr ++ X ∧ views wp'.trace = Vp ++ X := by
  induction fuel generalizing wr fr with
  | zero => simp [RunEventLoop_loop] at hloop
  | succ fuel ih =>
    rw [RunEventLoop_loop_succ] at hloop
    have hbf := (beforeGetEvent_frame ce wr).1
    have hmv : (beforeGetEvent ce wr).com_journal = 1 := hbf.1.trans hmode
    have hfv : (beforeGetEvent ce wr).com_journalFile = some fr := hbf.2.1.trans hfile
    have hsim : ∀ wp, Replays H S0 w0.blocks Vr Vp wr wp →
        Replays H S0 w0.blocks Vr Vp (beforeGetEvent ce wr) (beforeGetEvent ce wp) :=
      fun wp h => h.beforeGetEvent ce
    have hpf : ∀ wp : World, (beforeGetEvent ce wp).com_journalFile = wp.com_journalFile :=
      fun wp => (beforeGetEvent_frame ce wp).1.2.1
    have hstop := fun wp => RunEventLoop_loop_stop H ce fuel wp
    have hcont := fun wp => RunEventLoop_loop_continue H ce fuel wp
    clear hbf hmode hfile
    generalize beforeGetEvent ce wr = v at *
    cases hg : GetEvent H v with
    | fatal m w2 => rw [hg] at hloop; cases hloop
    | crash w2 => rw [hg] at hloop; cases hloop
    | ok ev w2 =>
      rw [hg] at hloop
      dsimp only at hloop
      by_cases hring : v.com_pushedEventsTail < v.com_pushedEventsHead
      · -- the event comes from the ring buffer, in both passes
        obtain ⟨hg', hc⟩ := GetEvent_ringTaken H v hring
        rw [hg] at hg'
        injection hg' with hev hw2
        subst hw2
        have hplay : ∀ wp, Replays H S0 w0.blocks Vr Vp wr wp →
            GetEvent H (beforeGetEvent ce wp) = .ok ev (beforeGetEvent ce wp).ringTaken ∧
            Replays H S0 w0.blocks Vr Vp v.ringTaken (beforeGetEvent ce wp).ringTaken := by
          intro wp h
          have hs := hsim wp h
          have hring' : (beforeGetEvent ce wp).com_pushedEventsTail <
              (beforeGetEvent ce wp).com_pushedEventsHead := by
            rw [hs.tail, hs.head]
            exact hring
          refine ⟨?_, hs.ringTaken hring⟩
          rw [(GetEvent_ringTaken H _ hring').1, hs.slots, hs.tail, hev]
        by_cases hne : ev.evType ≠ SE_NONE
        · rw [if_pos hne] at hloop
          have hf := handlePrimary_frame H v.ringTaken ev
          obtain ⟨suffix, hs1, hs2⟩ := ih (handlePrimary H v.ringTaken ev) fr
            (hf.1.trans hmv) (hf.2.1.trans hfv) hloop
          refine ⟨suffix, hs1, ?_⟩
          intro wp gp post h hgp hdata hpos
          obtain ⟨hgev, hrep⟩ := hplay wp h
          have hevptr : ¬ platformPtr S0 ev.evPtr := by
            apply (hsim wp h).ringPtr
            rw [hc, hev]
            exact List.mem_cons_self _ _
          have hrep2 : Replays H S0 w0.blocks Vr Vp (handlePrimary H v.ringTaken ev)
              (handlePrimary H (beforeGetEvent ce wp).ringTaken ev) := by
            rw [handlePrimary_eq, handlePrimary_eq]
            exact (hrep.processEvent ev hevptr).finishPrimary ev ev rfl rfl rfl
          have hfp := handlePrimary_frame H (beforeGetEvent ce wp).ringTaken ev
          obtain ⟨wp', hw', hX⟩ := hs2 _ gp post hrep2
            (hfp.2.1.trans ((hpf wp).trans hgp)) hdata hpos
          exact ⟨wp', by rw [hcont wp _ _ hgev hne]; exact hw', hX⟩
        · rw [if_neg hne] at hloop
          injection hloop with hloop
          injection hloop with _ hw
          subst hw
          refine ⟨[], by simpa [World.ringTaken] using congrArg (Option.map idFile.data) hfv, ?_⟩
          intro wp gp post h hgp hdata hpos
          obtain ⟨hgev, hrep⟩ := hplay wp h
          exact ⟨_, hstop wp _ _ hgev (by simpa using hne), hrep.sync⟩
      · -- the ring buffer is empty: the platform's event is recorded, then read back
        obtain ⟨hev, hw2, hrd⟩ := GetEvent_recordTaken H v fr ev w2 hring hmv hfv hg
        subst hw2
        obtain ⟨hcr, hbr, hfr⟩ := recordTaken_control H v fr
        rw [← hev] at hfr
        have hpl : (payloadBytes v ev).length = ev.evPtrLength := payloadBytes_length v ev hrd
        have hplay : ∀ (wp : World) (gp : idFile) (rest : List byte),
            Replays H S0 w0.blocks Vr Vp wr wp → wp.com_journalFile = some gp →
            gp.data = fr.data ++ (H.layout.encode ev ++ payloadBytes v ev ++ rest) →
            gp.pos = fr.data.length →
            ∃ e' w1, GetEvent H (beforeGetEvent ce wp) = .ok e' w1 ∧
              e'.evType = ev.evType ∧
              (∃ X, views (v.recordTaken H fr).trace = Vr ++ X ∧ views w1.trace = Vp ++ X) ∧
              w1.com_journalFile = some
                { gp with pos := gp.pos + (H.layout.encode ev ++ payloadBytes v ev).length } ∧
              Replays H S0 w0.blocks Vr Vp (handlePrimary H (v.recordTaken H fr) ev)
                (handlePrimary H w1 e') := by
          intro wp gp rest h hgp hdata hpos
          have hs := hsim wp h
          have hring' : ¬ (beforeGetEvent ce wp).com_pushedEventsTail <
              (beforeGetEvent ce wp).com_pushedEventsHead := by
            rw [hs.tail, hs.head]
            exact hring
          have hevS0 : ev ∈ S0 := by
            rw [hev]
            cases hq : v.sysEvents with
            | nil => exact hnone
            | cons q qs => exact hs.pending q (by rw [hq]; exact List.mem_cons_self q qs)
          obtain ⟨e', w1, hg1, hm1, hf1, t1, t2, t3, t4, hz, hnz⟩ :=
            GetRealEvent_mode2_step H ((beforeGetEvent ce wp).emit Effect.GetEvent) gp ev
              fr.data (payloadBytes v ev) rest hs.modeP ((hpf wp).trans hgp) hdata hpos
              (hdec ev hevS0) hpl
          have hcp : control w1 = control (beforeGetEvent ce wp) := by
            have hc1 := GetRealEvent_playback_control H ((beforeGetEvent ce wp).emit Effect.GetEvent)
            have hcase : GetRealEvent_playback H ((beforeGetEvent ce wp).emit Effect.GetEvent)
                = .ok e' w1 := by
              have := hg1
              unfold GetRealEvent at this
              rw [if_pos (by exact hs.modeP)] at this
              exact this
            rw [hcase] at hc1
            exact hc1.trans (control_emit _ _ rfl)
          have hrep2 := Replays.platformEvent hs ev e' (v.recordTaken H fr) w1 hevS0
            (hwf ev hevS0) hrd hcr hbr hcp t1 t2 t3 t4 hz hnz
          obtain ⟨X, hX1, hX2⟩ := hs.sync
          refine ⟨e', w1, by rw [GetEvent_empty H _ hring']; exact hg1, t1, ⟨X, ?_, ?_⟩, hf1, ?_⟩
          · rw [← hX1]
            exact congrArg Control.seen hcr
          · rw [← hX2]
            exact congrArg Control.seen hcp
          · rw [handlePrimary_eq, handlePrimary_eq]
            exact hrep2.finishPrimary ev e' t1 t2 t3
        by_cases hne : ev.evType ≠ SE_NONE
        · rw [if_pos hne] at hloop
          have hf := handlePrimary_frame H (v.recordTaken H fr) ev
          obtain ⟨suffix, hs1, hs2⟩ := ih (handlePrimary H (v.recordTaken H fr) ev)
            (fr.appended (H.layout.encode ev ++ payloadBytes v ev))
            (hf.1.trans hmv) (hf.2.1.trans hfr) hloop
          refine ⟨H.layout.encode ev ++ payloadBytes v ev ++ suffix, ?_, ?_⟩
          · rw [hs1]
            simp [idFile.appended, List.append_assoc]
          · intro wp gp post h hgp hdata hpos
            obtain ⟨e', w1, hg1, ht1, _, hf1, hrep2⟩ := hplay wp gp (suffix ++ post) h hgp
              (by rw [hdata]; simp [List.append_assoc]) hpos
            have hfp := handlePrimary_frame H w1 e'
            obtain ⟨wp', hw', hX⟩ := hs2 _ _ post hrep2 (hfp.2.1.trans hf1)
              (by simp [idFile.appended, hdata, List.append_assoc])
              (by simp [idFile.appended, hpos])
            exact ⟨wp', by rw [hcont wp _ _ hg1 (by rw [ht1]; exact hne)]; exact hw', hX⟩
        · rw [if_neg hne] at hloop
          injection hloop with hloop
          injection hloop with _ hw
          subst hw
          refine ⟨H.layout.encode ev ++ payloadBytes v ev, ?_, ?_⟩
          · rw [hfr]
            rfl
          · intro wp gp post h hgp hdata hpos
            obtain ⟨e', w1, hg1, ht1, hX, _, _⟩ := hplay wp gp post h hgp hdata hpos
            exact ⟨w1, hstop wp _ _ hg1 (by rw [ht1]; simpa using hne), hX⟩

theorem platformPtr_cons_none (S : List sysEvent_t) (p : Nat) :
    platformPtr (noneEvent :: S) p ↔ platformPtr S p := by
  unfold platformPtr
  constructor
  · rintro ⟨e, he, hl, hp⟩
    rcases List.mem_cons.mp he with rfl | he
    · exact absurd rfl hl
    · exact ⟨e, he, hl, hp⟩
  · rintro ⟨e, he, hl, hp⟩
    exact ⟨e, List.mem_cons_of_mem _ he, hl, hp⟩

/-- C8 (as amended). Playback determinism.  First, in playback mode a pass does not
depend on what `Sys_GetEvent` would report: from two states that differ only in
the events pending on the platform it ends the same way, with the same trace
(the secondary events, which `Sys_PollSysEvents` and `Sys_ReturnSysEvent` report,
being the same).  Second, let a pass in record mode, started on an empty journal
stream, have returned, the platform's events being representable in a record and
having well-formed payloads that no event of the ring buffer or of a secondary
batch shares; then a playback pass on the journal written, started from the same
ring buffer, axis state, payload memory and secondary batches, returns 0 as well
and has passed to `ProcessEvent` events with the same kind, values, payload
length and payload bytes, in the same order, as the recording pass. -/
theorem C8_playback_determinism (H : Decls) (wr wr' wp : World) (fr' : idFile)
    (room room2 : Nat) (ce : Bool) (fuel : Nat)
    (hmodeR : wr.com_journal = 1)
    (hfileR : wr.com_journalFile = some { data := [], pos := 0, room := room })
    (hrec : RunEventLoop H fuel wr ce = some (.ok 0 wr'))
    (hfr' : wr'.com_journalFile = some fr')
    (hwf : ∀ e ∈ wr.sysEvents, wellFormedPayload wr e)
    (hdec : ∀ e ∈ noneEvent :: wr.sysEvents, H.layout.decode (H.layout.encode e) = e)
    (hringPtr : ∀ ev ∈ ringContents H wr, ¬ platformPtr wr.sysEvents ev.evPtr)
    (hbatchPtr : ∀ b ∈ wr.sysBatches, ∀ ev ∈ b, ¬ platformPtr wr.sysEvents ev.evPtr)
    (hmodeP : wp.com_journal = 2)
    (hfileP : wp.com_journalFile = some { data := fr'.data, pos := 0, room := room2 })
    (hslots : wp.com_pushedEvents = wr.com_pushedEvents)
    (hhead : wp.com_pushedEventsHead = wr.com_pushedEventsHead)
    (htail : wp.com_pushedEventsTail = wr.com_pushedEventsTail)
    (hdx : wp.dx = wr.dx) (hdy : wp.dy = wr.dy)
    (hbatches : wp.sysBatches = wr.sysBatches)
    (hblocks : wp.blocks = wr.blocks)
    (hfresh : ∀ p, wp.lastAlloc < p → wr.blocks p = none) :
    (∀ (w : World) (s : List sysEvent_t) (n : Nat) (c : Bool), w.com_journal = 2 →
      RunEventLoop H n (w.withSysEvents s) c =
        (RunEventLoop H n w c).map (Outcome.mapWorld (fun v => v.withSysEvents s)) ∧
      observe (RunEventLoop H n (w.withSysEvents s) c) = observe (RunEventLoop H n w c)) ∧
    ∃ wp', RunEventLoop H fuel wp ce = some (.ok 0 wp') ∧
      ∃ X, views wr'.trace = views wr.trace ++ X ∧ views wp'.trace = views wp.trace ++ X := by
  constructor
  · intro w s n c hm
    have h := RunEventLoop_withSysEvents H c n w s hm
    exact ⟨h, by rw [h, observe_mapWorld_withSysEvents]⟩
  · have hwf' : ∀ e ∈ noneEvent :: wr.sysEvents, wellFormedPayload wr e := by
      intro e he
      rcases List.mem_cons.mp he with rfl | he
      · exact Or.inl ⟨rfl, rfl⟩
      · exact hwf e he
    have hrep : Replays H (noneEvent :: wr.sysEvents) wr.blocks (views wr.trace)
        (views wp.trace) wr wp :=
      { modeR := hmodeR, modeP := hmodeP, slots := hslots, head := hhead, tail := htail
        dx := hdx, dy := hdy, batches := hbatches
        sync := ⟨[], by simp, by simp⟩
        agree := fun p _ => by rw [hblocks]
        fresh := fun p hp => ⟨hfresh p hp, by rw [hblocks]; exact hfresh p hp⟩
        shrink := fun p bs hb => hb
        pending := fun e he => List.mem_cons_of_mem _ he
        ringPtr := fun ev hev => by
          rw [platformPtr_cons_none]
          exact hringPtr ev hev
        batchPtr := fun b hb ev hev => by
          rw [platformPtr_cons_none]
          exact hbatchPtr b hb ev hev }
    unfold RunEventLoop at hrec ⊢
    dsimp only at hrec ⊢
    rw [hdx, hdy]
    by_cases hax : wr.dx ≠ 0 ∨ wr.dy ≠ 0
    · rw [if_pos hax] at hrec ⊢
      have hf := ProcessEvent_frame wr (CreateMouseEvent H wr.dx wr.dy)
      have hfp := ProcessEvent_frame wp (CreateMouseEvent H wr.dx wr.dy)
      obtain ⟨suffix, hs1, hs2⟩ := RunEventLoop_loop_replays H (noneEvent :: wr.sysEvents) wr
        (views wr.trace) (views wp.trace) ce hwf' hdec (List.mem_cons_self _ _) fuel _ wr' _
        (hf.1.trans hmodeR) (hf.2.1.trans hfileR) hrec
      rw [hfr'] at hs1
      simp only [Option.map_some', Option.some.injEq, List.nil_append] at hs1
      exact hs2 _ _ [] (hrep.processEvent _ (by
          have h0 : (CreateMouseEvent H wr.dx wr.dy).evPtr = 0 := rfl
          rw [h0]
          exact platformPtr_zero _ wr hwf'))
        (hfp.2.1.trans hfileP) (by simp [hs1]) rfl
    · rw [if_neg hax] at hrec ⊢
      obtain ⟨suffix, hs1, hs2⟩ := RunEventLoop_loop_replays H (noneEvent :: wr.sysEvents) wr
        (views wr.trace) (views wp.trace) ce hwf' hdec (List.mem_cons_self _ _) fuel wr wr' _
        hmodeR hfileR hrec
      rw [hfr'] at hs1
      simp only [Option.map_some', Option.some.injEq, List.nil_append] at hs1
      exact hs2 wp _ [] hrep hfileP (by simp [hs1]) rfl

/-- C8, as stated, fails.  A pass in record mode with a key event pending, after
which the platform reports one secondary key event, dispatches both and writes
the journal of `journalPlaybackWorld`; played back from the same (empty) ring
buffer and axis state, that journal gives a pass that dispatches the key event
alone when the platform reports no secondary event, and the key event followed
by another secondary event when the platform reports that one: the dispatched
sequence depends on `Sys_PollSysEvents` and `Sys_ReturnSysEvent`, and differs
from the recorded pass. -/
theorem C8_playback_determinism_counterexample :
    observe (RunEventLoop sampleDecls 5 batchRecordingWorld false) =
      some (some 0, [keyEvent 1, keyEvent 9]) ∧
    (RunEventLoop sampleDecls 5 batchRecordingWorld false).map
        (fun o => o.world.com_journalFile.map idFile.data) =
      some ((journalPlaybackWorld []).com_journalFile.map idFile.data) ∧
    observe (RunEventLoop sampleDecls 5 (journalPlaybackWorld []) false) =
      some (some 0, [keyEvent 1]) ∧
    observe (RunEventLoop sampleDecls 5 (journalPlaybackWorld [[keyEvent 2]]) false) =
      some (some 0, [keyEvent 1, keyEvent 2]) := by
  refine ⟨by decide, by decide, by decide, by decide⟩

/-- C8 (as amended) at a concrete input: the pass recorded from `recordingWorld`
and its playback from `replayingWorld`. -/
theorem C8_playback_determinism_witness :
    ∃ wp', RunEventLoop sampleDecls 5 replayingWorld false = some (.ok 0 wp') ∧
      ∃ X, views recordedWorld.trace = views recordingWorld.trace ++ X ∧
        views wp'.trace = views replayingWorld.trace ++ X :=
  (C8_playback_determinism sampleDecls recordingWorld recordedWorld replayingWorld
    { data := sampleLayout.encode (consoleEvent 7 3) ++ [104, 105, 10] ++
        sampleLayout.encode (keyEvent 65) ++ sampleLayout.encode zeroEvent
      pos := 0, room := 4021 }
    4096 0 false 5 rfl rfl rfl (by decide)
    (by
      intro e he
      simp only [recordingWorld, List.mem_cons, List.mem_singleton, List.not_mem_nil,
        or_false] at he
      rcases he with rfl | rfl
      · exact Or.inr ⟨by decide, by decide, [104, 105, 10], rfl, rfl⟩
      · exact Or.inl ⟨rfl, rfl⟩)
    (by decide)
    (by
      intro ev hev
      simp [ringContents, recordingWorld, freshWorld, World.initial] at hev)
    (by
      intro b hb
      simp [recordingWorld, freshWorld, World.initial] at hb)
    rfl rfl rfl rfl rfl rfl rfl rfl rfl
    (by
      intro p hp
      have hp7 : p ≠ 7 := by
        have : replayingWorld.lastAlloc = 7 := rfl
        omega
      simp [recordingWorld, hp7])).2

/-! ## `Shutdown` -/

theorem closedFiles_append (t u : List Effect) :
    closedFiles (t ++ u) = closedFiles t ++ closedFiles u := by
  induction t with
  | nil => rfl
  | cons e t ih => cases e <;> simp [closedFiles, ih]

theorem Shutdown_closed (w : World) :
    closedFiles (Shutdown w).trace =
      closedFiles w.trace ++ w.com_journalFile.toList ++ w.com_journalDataFile.toList ∧
    (Shutdown w).com_journalFile = none ∧ (Shutdown w).com_journalDataFile = none := by
  unfold Shutdown
  cases hf : w.com_journalFile <;> cases hg : w.com_journalDataFile <;>
    simp [hf, hg, closedFiles_append, closedFiles]

theorem shutdowns_closed (n : Nat) (w : World) :
    closedFiles (shutdowns (n + 1) w).trace =
      closedFiles w.trace ++ w.com_journalFile.toList ++ w.com_journalDataFile.toList ∧
    (shutdowns (n + 1) w).com_journalFile = none ∧
    (shutdowns (n + 1) w).com_journalDataFile = none := by
  induction n generalizing w with
  | zero => exact Shutdown_closed w
  | succ n ih =>
    have h := ih (Shutdown w)
    have hs := Shutdown_closed w
    rw [shutdowns]
    rw [hs.2.1, hs.2.2, hs.1] at h
    simpa using h

/-- When the opens of `Init` both succeed, or none does, one or more `Shutdown`
calls after `Init` pass to `CloseFile` exactly the streams `Init` opened, each
once. -/
theorem Init_shutdowns_closed (fs : FileSystem) (w : World) (n : Nat)
    (hf : w.com_journalFile = none) (hg : w.com_journalDataFile = none)
    (ht : closedFiles w.trace = [])
    (hboth : (openedByInit fs w).length ≠ 1) :
    closedFiles (shutdowns (n + 1) (Init fs w)).trace = openedByInit fs w := by
  rw [(shutdowns_closed n (Init fs w)).1]
  unfold Init openedByInit at *
  by_cases h1 : w.com_journal = 1
  · simp only [h1, if_true] at hboth ⊢
    cases ha : fs.OpenFileWrite "journal.dat" <;> cases hb : fs.OpenFileWrite "journaldata.dat" <;>
      simp_all [closedFiles_append, closedFiles]
  · by_cases h2 : w.com_journal = 2
    · simp only [h2, if_true] at hboth ⊢
      cases ha : fs.OpenFileRead "journal.dat" <;> cases hb : fs.OpenFileRead "journaldata.dat" <;>
        simp_all [closedFiles_append, closedFiles]
    · simp_all [closedFiles_append, closedFiles]

/-- C11 at the failing input: mode 1 configured, `journal.dat` cannot be opened
and `journaldata.dat` can.  `Init` opened one stream and drops its handle
without a `CloseFile`; no number of `Shutdown` calls passes that stream, or any
other, to `CloseFile`. -/
theorem C11_streams_closed_once_failing_input :
    openedByInit partialFileSystem (freshWorld 1) = [{ data := [], pos := 0, room := 4096 }] ∧
    (Init partialFileSystem (freshWorld 1)).com_journalDataFile = none ∧
    closedFiles (Init partialFileSystem (freshWorld 1)).trace = [] ∧
    ∀ n, closedFiles (shutdowns n (Init partialFileSystem (freshWorld 1))).trace = [] := by
  refine ⟨by decide, by decide, by decide, ?_⟩
  intro n
  cases n with
  | zero => decide
  | succ n =>
    rw [(shutdowns_closed n _).1]
    decide

/-! ## The journal handle -/

theorem GetRealEvent_playback_handle (H : Decls) (w : World)
    (h : w.com_journalFile.isSome = true) :
    (GetRealEvent_playback H w).world.com_journalFile.isSome = true := by
  unfold GetRealEvent_playback
  split
  · simpa [Outcome.world] using h
  · dsimp only
    split_ifs <;> simp [Outcome.world, Mem_ClearedAlloc]

theorem GetRealEvent_record_handle (H : Decls) (w : World) (ev : sysEvent_t)
    (h : w.com_journalFile.isSome = true) :
    (GetRealEvent_record H w ev).world.com_journalFile.isSome = true := by
  unfold GetRealEvent_record
  split
  · simpa [Outcome.world] using h
  · dsimp only
    split_ifs
    · simp [Outcome.world]
    · split
      · simp [Outcome.world]
      · split_ifs <;> simp [Outcome.world]
    · simp [Outcome.world]

theorem Sys_GetEvent_handle (w : World) :
    (Sys_GetEvent w).2.com_journalFile = w.com_journalFile := by
  unfold Sys_GetEvent
  cases w.sysEvents <;> simp [World.emit]

theorem GetRealEvent_handle (H : Decls) (w : World)
    (h : w.com_journalFile.isSome = true) :
    (GetRealEvent H w).world.com_journalFile.isSome = true := by
  unfold GetRealEvent
  dsimp only
  split_ifs
  · exact GetRealEvent_playback_handle H w h
  · exact GetRealEvent_record_handle H _ _ (by rw [Sys_GetEvent_handle]; exact h)
  · simp only [Outcome.world]
    rw [Sys_GetEvent_handle]; exact h

theorem GetEvent_handle (H : Decls) (w : World)
    (h : w.com_journalFile.isSome = true) :
    (GetEvent H w).world.com_journalFile.isSome = true := by
  unfold GetEvent
  dsimp only [World.emit]
  split_ifs
  · simpa [Outcome.world] using h
  · exact GetRealEvent_handle H _ h

theorem RunEventLoop_loop_handle (H : Decls) (ce : Bool) (fuel : Nat) (w : World)
    (o : Outcome Int) (h : RunEventLoop_loop H ce fuel w = some o)
    (hs : w.com_journalFile.isSome = true) :
    o.world.com_journalFile.isSome = true := by
  induction fuel generalizing w with
  | zero => simp [RunEventLoop_loop] at h
  | succ n ih =>
    rw [RunEventLoop_loop] at h
    have hw : (if ce = true then w.emit Effect.ExecuteCommandBuffer else w).com_journalFile.isSome
        = true := by
      split_ifs <;> simpa [World.emit] using hs
    have hg := GetEvent_handle H _ hw
    cases hge : GetEvent H (if ce = true then w.emit Effect.ExecuteCommandBuffer else w) with
    | fatal m w2 =>
      rw [hge] at h hg
      simp only [Option.some.injEq] at h
      subst h
      exact hg
    | crash w2 =>
      rw [hge] at h hg
      simp only [Option.some.injEq] at h
      subst h
      exact hg
    | ok ev w2 =>
      rw [hge] at h hg
      simp only [Outcome.world] at hg
      dsimp only at h
      split_ifs at h with hne
      · refine ih _ h ?_
        rw [(handlePrimary_frame H w2 ev).2.1]
        exact hg
      · simp only [Option.some.injEq] at h
        subst h
        exact hg

theorem RunEventLoop_handle (H : Decls) (ce : Bool) (fuel : Nat) (w : World)
    (o : Outcome Int) (h : RunEventLoop H fuel w ce = some o)
    (hs : w.com_journalFile.isSome = true) :
    o.world.com_journalFile.isSome = true := by
  unfold RunEventLoop at h
  dsimp only at h
  refine RunEventLoop_loop_handle H ce fuel _ o h ?_
  split_ifs
  · rw [(ProcessEvent_frame w _).2.1]; exact hs
  · exact hs

theorem Init_handle (fs : FileSystem) (w : World)
    (h : (Init fs w).com_journal = 1 ∨ (Init fs w).com_journal = 2) :
    (Init fs w).com_journalFile.isSome = true := by
  unfold Init at h ⊢
  dsimp only at h ⊢
  split_ifs at h ⊢ with h1 h2 h3 h4 h5 <;>
    first
    | (exfalso; simp at h; done)
    | (simp only [not_or] at *; simp_all [Option.isSome_iff_ne_none])

/-- C20. No null journal handle is used: in every state reached from `Init` by
`GetRealEvent`, `GetEvent`, `PushEvent`, `ProcessEvent` and `RunEventLoop`
calls, when the journal mode is 1 or 2 the handle `com_journalFile` is not null,
neither where the playback branch of `GetRealEvent` reads from it nor, after
`Sys_GetEvent`, where the record branch writes to it; the playback branch never
ends in the undefined behaviour of a null handle. -/
theorem C20_no_null_journal_handle (H : Decls) (fs : FileSystem) (w : World)
    (h : Operating H fs w) (hm : w.com_journal = 1 ∨ w.com_journal = 2) :
    (∃ f, w.com_journalFile = some f) ∧
    (∃ f, (Sys_GetEvent w).2.com_journalFile = some f) ∧
    ∀ v, GetRealEvent_playback H w ≠ Outcome.crash v := by
  have key : w.com_journalFile.isSome = true := by
    induction h with
    | init w => exact Init_handle fs w hm
    | getRealEvent w _ ih =>
      exact GetRealEvent_handle H w (ih (by rwa [GetRealEvent_journal] at hm))
    | getEvent w _ ih =>
      exact GetEvent_handle H w (ih (by rwa [GetEvent_journal] at hm))
    | pushEvent w e _ ih =>
      rw [(PushEvent_frame H w e).2.2.1] at hm
      rw [(PushEvent_frame H w e).2.2.2.1]
      exact ih hm
    | processEvent w e _ ih =>
      rw [(ProcessEvent_frame w e).1] at hm
      rw [(ProcessEvent_frame w e).2.1]
      exact ih hm
    | runEventLoop w fuel ce o _ hr ih =>
      rw [RunEventLoop_journal H ce fuel w o hr] at hm
      exact RunEventLoop_handle H ce fuel w o hr (ih hm)
  obtain ⟨f, hf⟩ := Option.isSome_iff_exists.mp key
  refine ⟨⟨f, hf⟩, ⟨f, by rw [Sys_GetEvent_handle]; exact hf⟩, ?_⟩
  intro v
  unfold GetRealEvent_playback
  rw [hf]
  dsimp only
  split_ifs <;> simp

/-- C20 at a concrete input: mode 1, every open succeeds, one `GetEvent` call after
`Init`. -/
theorem C20_no_null_journal_handle_witness :
    ∃ f, (GetEvent sampleDecls (Init openingFileSystem (freshWorld 1))).world.com_journalFile
      = some f :=
  (C20_no_null_journal_handle sampleDecls openingFileSystem _
    (Operating.getEvent _ (Operating.init (freshWorld 1))) (Or.inl (by decide))).1

/-! ## The secondary drain -/

theorem steps_append (t u : List Effect) : steps (t ++ u) = steps t ++ steps u := by
  induction t with
  | nil => rfl
  | cons e t ih => cases e <;> simp [steps, ih]

theorem ProcessEvent_steps (w : World) (ev : sysEvent_t) :
    steps (ProcessEvent w ev).trace = steps w.trace ++ [Step.dispatch ev] := by
  rw [ProcessEvent_trace]
  simp only [steps_append, steps]
  split_ifs <;> simp [steps]

theorem drainSysEvents_steps (b : List sysEvent_t) (w : World) (i : Nat) :
    steps (drainSysEvents w i b).trace = steps w.trace ++ secondarySteps i b := by
  induction b generalizing w i with
  | nil => simp [drainSysEvents, secondarySteps]
  | cons e b ih =>
    rw [drainSysEvents, ih, ProcessEvent_steps]
    simp [World.emit, steps_append, steps, secondarySteps]

/-- The steps a primary event of kind other than none makes the pass take. -/
theorem handlePrimary_steps (H : Decls) (w : World) (ev : sysEvent_t) :
    steps (handlePrimary H w ev).trace =
      steps w.trace ++ [Step.dispatch ev, Step.poll (w.sysBatches.headD []).length] ++
        secondarySteps 0 (w.sysBatches.headD []) ++ [Step.endSys] := by
  unfold handlePrimary
  dsimp only
  rw [Sys_PollSysEvents_eq]
  dsimp only
  obtain ⟨u1, u2, _⟩ := updateAxis_trace H (ProcessEvent w ev) ev
  obtain ⟨_, _, p3⟩ := ProcessEvent_axis w ev
  simp only [World.emit, steps_append, drainSysEvents_steps, u1, u2, p3, ProcessEvent_steps,
    steps]
  simp

theorem secondarySteps_dispatched (i : Nat) (b : List sysEvent_t) :
    (secondarySteps i b).filterMap
        (fun s => match s with | Step.dispatch e => some e | _ => none) = b ∧
      (secondarySteps i b).filterMap
        (fun s => match s with | Step.secondary j _ => some j | _ => none) =
        List.range' i b.length := by
  induction b generalizing i with
  | nil => simp [secondarySteps]
  | cons e b ih =>
    simp [secondarySteps, List.filterMap_cons, (ih (i + 1)).1, (ih (i + 1)).2, List.range']

theorem Sys_GetEvent_steps (w : World) :
    ∃ t, (Sys_GetEvent w).2.trace = w.trace ++ t ∧ steps t = [] := by
  unfold Sys_GetEvent
  cases w.sysEvents with
  | nil => exact ⟨[_], rfl, rfl⟩
  | cons e r => exact ⟨[_], rfl, rfl⟩

theorem GetRealEvent_playback_steps (H : Decls) (w : World) :
    ∃ t, (GetRealEvent_playback H w).world.trace = w.trace ++ t ∧ steps t = [] := by
  unfold GetRealEvent_playback
  split
  · exact ⟨[], by simp [Outcome.world], rfl⟩
  · dsimp only
    split_ifs
    · exact ⟨[], by simp [Outcome.world], rfl⟩
    · exact ⟨[Effect.Mem_ClearedAlloc _ _],
        by simp only [Outcome.world, Mem_ClearedAlloc]; rfl, rfl⟩
    · exact ⟨[Effect.Mem_ClearedAlloc _ _],
        by simp only [Outcome.world, Mem_ClearedAlloc]; rfl, rfl⟩
    · exact ⟨[], by simp [Outcome.world], rfl⟩

theorem GetRealEvent_record_steps (H : Decls) (w : World) (ev : sysEvent_t) :
    (GetRealEvent_record H w ev).world.trace = w.trace := by
  unfold GetRealEvent_record
  split
  · simp [Outcome.world]
  · dsimp only
    split_ifs
    · simp [Outcome.world]
    · split
      · simp [Outcome.world]
      · split_ifs <;> simp [Outcome.world]
    · simp [Outcome.world]

theorem GetRealEvent_steps (H : Decls) (w : World) :
    ∃ t, (GetRealEvent H w).world.trace = w.trace ++ t ∧ steps t = [] := by
  unfold GetRealEvent
  dsimp only
  split_ifs
  · exact GetRealEvent_playback_steps H w
  · rw [GetRealEvent_record_steps]
    exact Sys_GetEvent_steps w
  · exact Sys_GetEvent_steps w

/-- A `GetEvent` call adds to the trace its own mark and calls that are no
steps. -/
theorem GetEvent_steps (H : Decls) (w : World) :
    ∃ t, (GetEvent H w).world.trace = w.trace ++ Effect.GetEvent :: t ∧ steps t = [] := by
  unfold GetEvent
  dsimp only
  split_ifs
  · exact ⟨[], by simp [Outcome.world, World.emit], rfl⟩
  · obtain ⟨t, ht, hs⟩ := GetRealEvent_steps H (w.emit Effect.GetEvent)
    exact ⟨t, by rw [ht]; simp [World.emit], hs⟩

/-- C14. Secondary drain order: when a `GetEvent` call of the loop of
`RunEventLoop` returns the event `ev` in the state `w2`, and the platform's next
secondary batch is `b` (so `Sys_PollSysEvents` reports the count `b.length`):
if `ev` is of kind other than none, the loop goes on from the state
`handlePrimary H w2 ev`, up to which the steps taken since the fetch are the
dispatch of `ev`, the poll, then for the indices `0, 1, ..., b.length - 1` in
increasing order the return and the dispatch of the secondary event of that
index, then one `Sys_EndSysEvents`; the events dispatched are `ev` followed by
`b` in order; and the next `GetEvent` call comes right after that, preceded only
by the flush of the command buffer when commands are executed.  If `ev` is of
kind none the pass returns 0 in the state `w2`, without any poll. -/
theorem C14_secondary_drain_order (H : Decls) (ce : Bool) (fuel : Nat) (w w2 : World)
    (ev : sysEvent_t) (hg : GetEvent H (beforeGetEvent ce w) = .ok ev w2) :
    (ev.evType ≠ SE_NONE →
      RunEventLoop_loop H ce (fuel + 1) w =
        RunEventLoop_loop H ce fuel (handlePrimary H w2 ev) ∧
      steps (handlePrimary H w2 ev).trace =
        steps w2.trace ++ [Step.dispatch ev, Step.poll (w2.sysBatches.headD []).length] ++
          secondarySteps 0 (w2.sysBatches.headD []) ++ [Step.endSys] ∧
      (secondarySteps 0 (w2.sysBatches.headD [])).filterMap
          (fun s => match s with | Step.secondary j _ => some j | _ => none) =
        List.range (w2.sysBatches.headD []).length ∧
      dispatched (handlePrimary H w2 ev).trace =
        dispatched w2.trace ++ ev :: w2.sysBatches.headD [] ∧
      ∃ t, (GetEvent H (beforeGetEvent ce (handlePrimary H w2 ev))).world.trace =
        (handlePrimary H w2 ev).trace ++
          (if ce = true then [Effect.ExecuteCommandBuffer] else []) ++ Effect.GetEvent :: t) ∧
    (ev.evType = SE_NONE →
      RunEventLoop_loop H ce (fuel + 1) w = some (.ok 0 w2)) := by
  constructor
  · intro hne
    refine ⟨RunEventLoop_loop_continue H ce fuel w w2 ev hg hne, handlePrimary_steps H w2 ev, ?_,
      (handlePrimary_dispatched H w2 ev).1, ?_⟩
    · rw [(secondarySteps_dispatched 0 _).2, List.range_eq_range']
    · obtain ⟨t, ht, _⟩ := GetEvent_steps H (beforeGetEvent ce (handlePrimary H w2 ev))
      refine ⟨t, ?_⟩
      rw [ht]
      unfold beforeGetEvent
      split_ifs <;> simp [World.emit]
  · intro hnone
    exact RunEventLoop_loop_stop H ce fuel w w2 ev hg hnone

/-- C14 at a concrete input: a console event pending on the platform, which
reports after it one secondary key event. -/
theorem C14_secondary_drain_order_witness :
    steps (handlePrimary sampleDecls payloadBatchWorld.sysTaken (consoleEvent 7 3)).trace =
      [Step.fetch, Step.dispatch (consoleEvent 7 3), Step.poll 1,
        Step.secondary 0 (keyEvent 9), Step.dispatch (keyEvent 9), Step.endSys] :=
  ((C14_secondary_drain_order sampleDecls false 1 payloadBatchWorld payloadBatchWorld.sysTaken
    (consoleEvent 7 3) rfl).1 (by decide)).2.1.trans (by decide)

/-! ## The release of a primary payload -/

theorem ProcessEvent_added (w : World) (ev : sysEvent_t) :
    ∃ t, (ProcessEvent w ev).trace = w.trace ++ t ∧ steps t = [Step.dispatch ev] ∧
      dispatched t = [ev] := by
  refine ⟨[Effect.ProcessEvent ev (payloadAt w ev.evPtr)] ++
        (if ev.evType = SE_KEY
          then [Effect.PreliminaryKeyEvent ev.evValue (decide (ev.evValue2 ≠ 0))] else []) ++
        (if ev.evType = SE_CONSOLE
          then [Effect.BufferCommandText (CmdText.payload ev.evPtr),
                Effect.BufferCommandText (CmdText.literal "\n")]
          else [Effect.session_ProcessEvent ev]) ++
        (if ev.evPtr ≠ 0 then [Effect.Mem_Free ev.evPtr] else []), ?_, ?_, ?_⟩
  · rw [ProcessEvent_trace]
    simp only [List.append_assoc]
  · simp only [steps_append, steps]
    split_ifs <;> simp [steps]
  · simp only [dispatched_append, dispatched]
    split_ifs <;> simp [dispatched]

theorem drainSysEvents_added (b : List sysEvent_t) (w : World) (i : Nat) :
    ∃ t, (drainSysEvents w i b).trace = w.trace ++ t ∧ steps t = secondarySteps i b ∧
      dispatched t = b := by
  induction b generalizing w i with
  | nil => exact ⟨[], by simp [drainSysEvents], rfl, rfl⟩
  | cons e b ih =>
    obtain ⟨t1, h1, s1, d1⟩ := ProcessEvent_added (w.emit (Effect.Sys_ReturnSysEvent i e)) e
    obtain ⟨t, ht, hs, hd⟩ := ih (ProcessEvent (w.emit (Effect.Sys_ReturnSysEvent i e)) e) (i + 1)
    refine ⟨[Effect.Sys_ReturnSysEvent i e] ++ t1 ++ t, ?_, ?_, ?_⟩
    · rw [drainSysEvents, ht, h1]
      simp [World.emit]
    · simp [steps_append, steps, s1, hs, secondarySteps]
    · simp [dispatched_append, dispatched, d1, hd]

theorem Sys_PollSysEvents_added (w : World) :
    (Sys_PollSysEvents w).1 = w.sysBatches.headD [] ∧
    (Sys_PollSysEvents w).2.trace =
      w.trace ++ [Effect.Sys_PollSysEvents (w.sysBatches.headD []).length] := by
  unfold Sys_PollSysEvents
  cases w.sysBatches <;> simp [World.emit]

/-- What follows the dispatch of a primary event: the poll, the drain of the
secondary events and `Sys_EndSysEvents`. -/
theorem finishPrimary_added (H : Decls) (w : World) (ev : sysEvent_t) :
    ∃ B, (finishPrimary H w ev).trace = w.trace ++ B ∧
      steps B = [Step.poll (w.sysBatches.headD []).length] ++
        secondarySteps 0 (w.sysBatches.headD []) ++ [Step.endSys] ∧
      dispatched B = w.sysBatches.headD [] := by
  unfold finishPrimary
  obtain ⟨u1, u2, _⟩ := updateAxis_trace H w ev
  obtain ⟨p1, p2⟩ := Sys_PollSysEvents_added (updateAxis H w ev)
  obtain ⟨t, ht, hs, hd⟩ := drainSysEvents_added (Sys_PollSysEvents (updateAxis H w ev)).1
    (Sys_PollSysEvents (updateAxis H w ev)).2 0
  rw [p1, u2] at hs hd
  rw [p2, u1, u2] at ht
  refine ⟨[Effect.Sys_PollSysEvents (w.sysBatches.headD []).length] ++ t ++
    [Effect.Sys_EndSysEvents], ?_, ?_, ?_⟩
  · simp only [World.emit, ht, List.append_assoc]
  · simp [steps_append, steps, hs]
  · simp [dispatched_append, dispatched, hd]

/-- C13 (as amended). Primary payload release point: when a `GetEvent` call of
the loop of `RunEventLoop` returns an event `ev` of kind other than none with a
non-null payload, the loop goes on from the state `handlePrimary H w2 ev`, and
the calls made up to there since the fetch are: the dispatch of `ev` (the key
tracker for a key event, then the command buffer for a console event and the
session for any other), then the release `Mem_Free` of the payload, and only
then the calls `B` of the secondary drain: the poll, the return and dispatch of
each secondary event in index order, and `Sys_EndSysEvents`.  The payload is
released after the dispatch of the primary event and before the dispatch of
every secondary event reported for it. -/
theorem C13_primary_payload_release (H : Decls) (ce : Bool) (fuel : Nat) (w w2 : World)
    (ev : sysEvent_t) (hg : GetEvent H (beforeGetEvent ce w) = .ok ev w2)
    (hne : ev.evType ≠ SE_NONE) (hp : ev.evPtr ≠ 0) :
    RunEventLoop_loop H ce (fuel + 1) w =
      RunEventLoop_loop H ce fuel (handlePrimary H w2 ev) ∧
    ∃ B, (handlePrimary H w2 ev).trace =
        w2.trace ++
          ([Effect.ProcessEvent ev (payloadAt w2 ev.evPtr)] ++
            (if ev.evType = SE_KEY
              then [Effect.PreliminaryKeyEvent ev.evValue (decide (ev.evValue2 ≠ 0))] else []) ++
            (if ev.evType = SE_CONSOLE
              then [Effect.BufferCommandText (CmdText.payload ev.evPtr),
                    Effect.BufferCommandText (CmdText.literal "\n")]
              else [Effect.session_ProcessEvent ev])) ++
          [Effect.Mem_Free ev.evPtr] ++ B ∧
      steps B = [Step.poll (w2.sysBatches.headD []).length] ++
        secondarySteps 0 (w2.sysBatches.headD []) ++ [Step.endSys] ∧
      dispatched B = w2.sysBatches.headD [] := by
  refine ⟨RunEventLoop_loop_continue H ce fuel w w2 ev hg hne, ?_⟩
  obtain ⟨B, hB, hs, hd⟩ := finishPrimary_added H (ProcessEvent w2 ev) ev
  rw [(ProcessEvent_axis w2 ev).2.2] at hs hd
  refine ⟨B, ?_, hs, hd⟩
  rw [handlePrimary_eq, hB, ProcessEvent_trace, if_pos hp]
  simp only [List.append_assoc]

/-- C13 (as amended) at a concrete input: a console event with payload at
address 7, followed by a batch of one secondary key event. -/
theorem C13_primary_payload_release_witness :
    ∃ B, (handlePrimary sampleDecls payloadBatchWorld.sysTaken (consoleEvent 7 3)).trace =
        payloadBatchWorld.sysTaken.trace ++
          [Effect.ProcessEvent (consoleEvent 7 3) (some [104, 105, 10]),
            Effect.BufferCommandText (CmdText.payload 7),
            Effect.BufferCommandText (CmdText.literal "\n")] ++
          [Effect.Mem_Free 7] ++ B ∧
      dispatched B = [keyEvent 9] := by
  obtain ⟨B, h, _, hd⟩ := (C13_primary_payload_release sampleDecls false 1 payloadBatchWorld
    payloadBatchWorld.sysTaken (consoleEvent 7 3) rfl (by decide) (by decide)).2
  exact ⟨B, h, hd⟩

/-- C13, as stated, fails.  Journal off, a console event with payload at
address 7 pending on the platform, which reports after it one secondary key
event: in the trace of the pass the release `Mem_Free 7` of the primary payload
comes before the dispatch of the secondary event, not after it. -/
theorem C13_primary_payload_release_counterexample :
    passTrace (RunEventLoop sampleDecls 3 payloadBatchWorld false) =
      [Effect.GetEvent, Effect.Sys_GetEvent (consoleEvent 7 3),
        Effect.ProcessEvent (consoleEvent 7 3) (some [104, 105, 10]),
        Effect.BufferCommandText (CmdText.payload 7),
        Effect.BufferCommandText (CmdText.literal "\n"),
        Effect.Mem_Free 7,
        Effect.Sys_PollSysEvents 1,
        Effect.Sys_ReturnSysEvent 0 (keyEvent 9),
        Effect.ProcessEvent (keyEvent 9) none,
        Effect.PreliminaryKeyEvent 9 true,
        Effect.session_ProcessEvent (keyEvent 9),
        Effect.Sys_EndSysEvents,
        Effect.GetEvent, Effect.Sys_GetEvent noneEvent] ∧
    (consoleEvent 7 3).evPtr = 7 ∧
    List.indexOf (Effect.Mem_Free 7) (passTrace (RunEventLoop sampleDecls 3 payloadBatchWorld false))
      < List.indexOf (Effect.ProcessEvent (keyEvent 9) none)
          (passTrace (RunEventLoop sampleDecls 3 payloadBatchWorld false)) := by
  refine ⟨by decide, rfl, by decide⟩

/-! ## The axis state -/

theorem GetRealEvent_playback_axis (H : Decls) (w : World) :
    (GetRealEvent_playback H w).world.dx = w.dx ∧ (GetRealEvent_playback H w).world.dy = w.dy := by
  unfold GetRealEvent_playback
  split
  · simp [Outcome.world]
  · dsimp only
    split_ifs <;> simp [Outcome.world, Mem_ClearedAlloc]

theorem GetRealEvent_record_axis (H : Decls) (w : World) (ev : sysEvent_t) :
    (GetRealEvent_record H w ev).world.dx = w.dx ∧
      (GetRealEvent_record H w ev).world.dy = w.dy := by
  unfold GetRealEvent_record
  split
  · simp [Outcome.world]
  · dsimp only
    split_ifs
    · simp [Outcome.world]
    · split
      · simp [Outcome.world]
      · split_ifs <;> simp [Outcome.world]
    · simp [Outcome.world]

theorem Sys_GetEvent_axis (w : World) :
    (Sys_GetEvent w).2.dx = w.dx ∧ (Sys_GetEvent w).2.dy = w.dy := by
  unfold Sys_GetEvent
  cases w.sysEvents <;> simp [World.emit]

theorem GetRealEvent_axis (H : Decls) (w : World) :
    (GetRealEvent H w).world.dx = w.dx ∧ (GetRealEvent H w).world.dy = w.dy := by
  unfold GetRealEvent
  dsimp only
  split_ifs
  · exact GetRealEvent_playback_axis H w
  · exact ⟨(GetRealEvent_record_axis H _ _).1.trans (Sys_GetEvent_axis w).1,
      (GetRealEvent_record_axis H _ _).2.trans (Sys_GetEvent_axis w).2⟩
  · exact Sys_GetEvent_axis w

theorem GetEvent_axis (H : Decls) (w : World) :
    (GetEvent H w).world.dx = w.dx ∧ (GetEvent H w).world.dy = w.dy := by
  unfold GetEvent
  dsimp only [World.emit]
  split_ifs
  · simp [Outcome.world]
  · exact GetRealEvent_axis H _

theorem finishPrimary_axis (H : Decls) (w : World) (ev : sysEvent_t) :
    (finishPrimary H w ev).dx = (updateAxis H w ev).dx ∧
    (finishPrimary H w ev).dy = (updateAxis H w ev).dy := by
  unfold finishPrimary
  obtain ⟨d1, d2, _⟩ := drainSysEvents_axis (Sys_PollSysEvents (updateAxis H w ev)).1
    (Sys_PollSysEvents (updateAxis H w ev)).2 0
  simp only [World.emit, d1, d2]
  unfold Sys_PollSysEvents
  cases (updateAxis H w ev).sysBatches <;> simp [World.emit]

/-- The axis state after a primary event is that of `updateAxis` on the axis
state before it. -/
theorem handlePrimary_axis (H : Decls) (w : World) (ev : sysEvent_t) :
    (handlePrimary H w ev).dx = (updateAxis H w ev).dx ∧
    (handlePrimary H w ev).dy = (updateAxis H w ev).dy := by
  rw [handlePrimary_eq]
  obtain ⟨f1, f2⟩ := finishPrimary_axis H (ProcessEvent w ev) ev
  obtain ⟨p1, p2, _⟩ := ProcessEvent_axis w ev
  rw [f1, f2]
  unfold updateAxis
  split_ifs <;> simp [p1, p2]

/-- C17. Axis-state frame, the two axis ids being distinct: what `RunEventLoop`
does with a fetched event `ev` (dispatch, axis update, drain of its secondary
events, `Sys_EndSysEvents`) sets `dx` to `ev.evValue2` and leaves `dy` when `ev`
is a joystick-axis event with axis id `RX_AXIS`, sets `dy` to `ev.evValue2` and
leaves `dx` when it is one with axis id `RY_AXIS`, and leaves both unchanged for
every other event (any other kind, any other axis id); the dispatch of any
event by itself, so that of the synthesized mouse event and of each secondary
event, leaves both unchanged, and so do the drain of a secondary batch, the
flush of the command buffer and `GetEvent`. -/
theorem C17_axis_state_frame (H : Decls) (hax : H.RX_AXIS ≠ H.RY_AXIS) (w : World)
    (ev : sysEvent_t) :
    (ev.evType = SE_JOYSTICK_AXIS → ev.evValue = H.RX_AXIS →
      (handlePrimary H w ev).dx = ev.evValue2 ∧ (handlePrimary H w ev).dy = w.dy) ∧
    (ev.evType = SE_JOYSTICK_AXIS → ev.evValue = H.RY_AXIS →
      (handlePrimary H w ev).dx = w.dx ∧ (handlePrimary H w ev).dy = ev.evValue2) ∧
    (¬ (ev.evType = SE_JOYSTICK_AXIS ∧ (ev.evValue = H.RX_AXIS ∨ ev.evValue = H.RY_AXIS)) →
      (handlePrimary H w ev).dx = w.dx ∧ (handlePrimary H w ev).dy = w.dy) ∧
    ((ProcessEvent w ev).dx = w.dx ∧ (ProcessEvent w ev).dy = w.dy) ∧
    ((ProcessEvent w (CreateMouseEvent H w.dx w.dy)).dx = w.dx ∧
      (ProcessEvent w (CreateMouseEvent H w.dx w.dy)).dy = w.dy) ∧
    (∀ (b : List sysEvent_t) (i : Nat),
      (drainSysEvents w i b).dx = w.dx ∧ (drainSysEvents w i b).dy = w.dy) ∧
    (∀ ce : Bool, (GetEvent H (beforeGetEvent ce w)).world.dx = w.dx ∧
      (GetEvent H (beforeGetEvent ce w)).world.dy = w.dy) := by
  obtain ⟨h1, h2⟩ := handlePrimary_axis H w ev
  refine ⟨?_, ?_, ?_, ?_, ?_, ?_, ?_⟩
  · intro ht hv
    rw [h1, h2]
    unfold updateAxis
    simp [ht, hv]
  · intro ht hv
    have hne : ev.evValue ≠ H.RX_AXIS := by rw [hv]; exact fun h => hax h.symm
    rw [h1, h2]
    unfold updateAxis
    simp [ht, hv, hne, Ne.symm hax]
  · intro hn
    rw [h1, h2]
    unfold updateAxis
    by_cases ht : ev.evType = SE_JOYSTICK_AXIS
    · have : ¬ (ev.evValue = H.RX_AXIS ∨ ev.evValue = H.RY_AXIS) := fun h => hn ⟨ht, h⟩
      simp [ht, this]
    · simp [ht]
  · exact ⟨(ProcessEvent_axis w ev).1, (ProcessEvent_axis w ev).2.1⟩
  · exact ⟨(ProcessEvent_axis w _).1, (ProcessEvent_axis w _).2.1⟩
  · intro b i
    exact ⟨(drainSysEvents_axis b w i).1, (drainSysEvents_axis b w i).2.1⟩
  · intro ce
    obtain ⟨g1, g2⟩ := GetEvent_axis H (beforeGetEvent ce w)
    rw [g1, g2]
    unfold beforeGetEvent
    split_ifs <;> simp [World.emit]

/-- C17 at a concrete input: an axis event for `RY_AXIS` of `sampleDecls` with
reading 500, fetched with the axis state at zero. -/
theorem C17_axis_state_frame_witness :
    (handlePrimary sampleDecls (freshWorld 0) (axisEvent 3 500)).dx = 0 ∧
    (handlePrimary sampleDecls (freshWorld 0) (axisEvent 3 500)).dy = 500 :=
  (C17_axis_state_frame sampleDecls (by decide) (freshWorld 0) (axisEvent 3 500)).2.1 rfl rfl

/-! ## The synthesized event -/

theorem handlePrimary_added (H : Decls) (w : World) (ev : sysEvent_t) :
    ∃ A, (handlePrimary H w ev).trace = w.trace ++ A ∧
      steps A = [Step.dispatch ev, Step.poll (w.sysBatches.headD []).length] ++
        secondarySteps 0 (w.sysBatches.headD []) ++ [Step.endSys] := by
  obtain ⟨A, hA⟩ : ∃ A, (handlePrimary H w ev).trace = w.trace ++ A := by
    obtain ⟨t, ht, _⟩ := ProcessEvent_added w ev
    obtain ⟨B, hB, _⟩ := finishPrimary_added H (ProcessEvent w ev) ev
    exact ⟨t ++ B, by rw [handlePrimary_eq, hB, ht, List.append_assoc]⟩
  refine ⟨A, hA, ?_⟩
  have h := handlePrimary_steps H w ev
  rw [hA, steps_append] at h
  simp only [List.append_assoc] at h ⊢
  exact List.append_cancel_left h

theorem secondarySteps_counts (i : Nat) (b : List sysEvent_t) :
    (secondarySteps i b).countP Step.isDispatch = b.length ∧
    (secondarySteps i b).countP Step.isSecondary = b.length ∧
    (secondarySteps i b).count Step.fetch = 0 := by
  induction b generalizing i with
  | nil => simp [secondarySteps]
  | cons e b ih =>
    obtain ⟨h1, h2, h3⟩ := ih (i + 1)
    simp [secondarySteps, List.countP_cons, List.count_cons, h1, h2, h3, Step.isDispatch,
      Step.isSecondary]

/-- Every dispatch the loop of `RunEventLoop` makes is that of an event a
`GetEvent` call returned or of a secondary event `Sys_ReturnSysEvent` handed
back; the last `GetEvent` call of the loop is followed by no dispatch.  The
loop starts with the flush, when commands are executed, and a `GetEvent`
call. -/
theorem RunEventLoop_loop_added (H : Decls) (ce : Bool) (fuel : Nat) (w : World)
    (o : Outcome Int) (h : RunEventLoop_loop H ce fuel w = some o) :
    ∃ T, o.world.trace =
        w.trace ++ ((if ce = true then [Effect.ExecuteCommandBuffer] else []) ++
          Effect.GetEvent :: T) ∧
      (steps T).countP Step.isDispatch =
        (steps T).count Step.fetch + (steps T).countP Step.isSecondary := by
  induction fuel generalizing w o with
  | zero => simp [RunEventLoop_loop] at h
  | succ n ih =>
    rw [RunEventLoop_loop_succ] at h
    obtain ⟨t, ht, hs⟩ := GetEvent_steps H (beforeGetEvent ce w)
    have hb : (beforeGetEvent ce w).trace =
        w.trace ++ (if ce = true then [Effect.ExecuteCommandBuffer] else []) := by
      unfold beforeGetEvent
      split_ifs <;> simp [World.emit]
    rw [hb] at ht
    have stop : ∀ w2, (GetEvent H (beforeGetEvent ce w)).world = w2 → o.world = w2 →
        ∃ T, o.world.trace =
          w.trace ++ ((if ce = true then [Effect.ExecuteCommandBuffer] else []) ++
            Effect.GetEvent :: T) ∧
        (steps T).countP Step.isDispatch =
          (steps T).count Step.fetch + (steps T).countP Step.isSecondary := by
      intro w2 hw ho
      refine ⟨t, ?_, by simp [hs]⟩
      rw [ho, ← hw, ht, List.append_assoc]
    cases hge : GetEvent H (beforeGetEvent ce w) with
    | fatal m w2 =>
      rw [hge] at h
      simp only [Option.some.injEq] at h
      subst h
      exact stop w2 (by rw [hge]; rfl) rfl
    | crash w2 =>
      rw [hge] at h
      simp only [Option.some.injEq] at h
      subst h
      exact stop w2 (by rw [hge]; rfl) rfl
    | ok ev w2 =>
      rw [hge] at h
      dsimp only at h
      split_ifs at h with hne
      · obtain ⟨T, hT, hc⟩ := ih _ _ h
        obtain ⟨A, hA, hsA⟩ := handlePrimary_added H w2 ev
        rw [hge] at ht
        simp only [Outcome.world] at ht
        obtain ⟨c1, c2, c3⟩ := secondarySteps_counts 0 (w2.sysBatches.headD [])
        refine ⟨t ++ A ++ ((if ce = true then [Effect.ExecuteCommandBuffer] else []) ++
          Effect.GetEvent :: T), ?_, ?_⟩
        · rw [hT, hA, ht]
          simp only [List.append_assoc, List.cons_append]
        · simp only [steps_append, hs, hsA, List.nil_append, List.countP_append,
            List.count_append, c1, c2, c3, steps]
          have e1 : (steps (if ce = true then [Effect.ExecuteCommandBuffer] else [])).countP
              Step.isDispatch = 0 := by split_ifs <;> simp [steps, Step.isDispatch]
          have e2 : (steps (if ce = true then [Effect.ExecuteCommandBuffer] else [])).countP
              Step.isSecondary = 0 := by split_ifs <;> simp [steps, Step.isSecondary]
          have e3 : (steps (if ce = true then [Effect.ExecuteCommandBuffer] else [])).count
              Step.fetch = 0 := by split_ifs <;> simp [steps]
          simp only [e1, e2, e3, List.countP_cons, List.count_cons, Step.isDispatch,
            Step.isSecondary, List.countP_nil, List.count_nil]
          simp
          omega
      · simp only [Option.some.injEq] at h
        subst h
        exact stop w2 (by rw [hge]; rfl) rfl

/-! ## The overflow warning -/

theorem warns_eq (H : Decls) (w : World) (e : sysEvent_t) :
    warns H w e = (overflows H w && !w.printedWarning) := by
  unfold warns overflows overflowWarning
  rw [PushEvent_trace, List.drop_left]
  by_cases ho : occupancy w ≥ H.MAX_PUSHED_EVENTS
  · by_cases hq : (w.com_pushedEvents
        (w.com_pushedEventsHead &&& (H.MAX_PUSHED_EVENTS - 1))).evPtr ≠ 0
    · cases hp : w.printedWarning <;> simp [ho, hp, hq]
    · cases hp : w.printedWarning <;> simp [ho, hp, hq]
  · simp [ho]

theorem GetRealEvent_playback_printedWarning (H : Decls) (w : World) :
    (GetRealEvent_playback H w).world.printedWarning = w.printedWarning := by
  unfold GetRealEvent_playback
  split
  · simp [Outcome.world]
  · dsimp only
    split_ifs <;> simp [Outcome.world, Mem_ClearedAlloc]

theorem GetRealEvent_record_printedWarning (H : Decls) (w : World) (ev : sysEvent_t) :
    (GetRealEvent_record H w ev).world.printedWarning = w.printedWarning := by
  unfold GetRealEvent_record
  split
  · simp [Outcome.world]
  · dsimp only
    split_ifs
    · simp [Outcome.world]
    · split
      · simp [Outcome.world]
      · split_ifs <;> simp [Outcome.world]
    · simp [Outcome.world]

theorem Sys_GetEvent_printedWarning (w : World) :
    (Sys_GetEvent w).2.printedWarning = w.printedWarning := by
  unfold Sys_GetEvent
  cases w.sysEvents <;> simp [World.emit]

theorem GetRealEvent_printedWarning (H : Decls) (w : World) :
    (GetRealEvent H w).world.printedWarning = w.printedWarning := by
  unfold GetRealEvent
  dsimp only
  split_ifs
  · exact GetRealEvent_playback_printedWarning H w
  · exact (GetRealEvent_record_printedWarning H _ _).trans (Sys_GetEvent_printedWarning w)
  · exact Sys_GetEvent_printedWarning w

theorem GetEvent_printedWarning (H : Decls) (w : World) :
    (GetEvent H w).world.printedWarning = w.printedWarning := by
  unfold GetEvent
  dsimp only [World.emit]
  split_ifs
  · simp [Outcome.world]
  · exact GetRealEvent_printedWarning H _

/-- Along an interleaving, a push warns exactly when it overflows and the push
before it did not; `prev` tells whether the push before the first one of the
log overflowed. -/
theorem pushLog_oneShot (H : Decls) (ops : List QueueOp) (w : World) (i : Nat)
    (hi : i < (pushLog H w ops).length) :
    ((pushLog H w ops).getD i (false, false)).2 =
      (((pushLog H w ops).getD i (false, false)).1 &&
        !(if i = 0 then w.printedWarning
          else ((pushLog H w ops).getD (i - 1) (false, false)).1)) := by
  induction ops generalizing w i with
  | nil => simp [pushLog] at hi
  | cons op ops ih =>
    cases op with
    | push e =>
      rw [pushLog] at hi ⊢
      cases i with
      | zero => simp [warns_eq]
      | succ j =>
        have hj : j < (pushLog H (PushEvent H w e) ops).length := by simpa using hi
        have h := ih (PushEvent H w e) j hj
        rw [PushEvent_printedWarning] at h
        simp only [List.getD_cons_succ, Nat.add_sub_cancel, Nat.succ_ne_zero, if_false]
        rw [h]
        cases j with
        | zero => simp [overflows]
        | succ k => simp
    | get =>
      rw [pushLog] at hi ⊢
      have hp := GetEvent_printedWarning H w
      cases hg : GetEvent H w with
      | ok ev w1 =>
        rw [hg] at hi hp
        simp only [Outcome.world] at hp
        dsimp only at hi ⊢
        rw [← hp]
        exact ih w1 i hi
      | fatal m w1 => rw [hg] at hi; simp at hi
      | crash w1 => rw [hg] at hi; simp at hi

/-- C15. One-shot overflow warning: along any interleaving of `PushEvent` and
`GetEvent` calls run from a state with the warning flag clear (so from the
empty buffer after start-up), the `PushEvent` call with index `i` among the
pushes emits the warning if and only if it overflows (occupancy at least
`MAX_PUSHED_EVENTS` at entry) and it is the first push or the push before it
did not overflow.  So a push that does not overflow emits none, and of a run of
consecutive overflowing pushes the first one, and only it, emits the warning. -/
theorem C15_one_shot_overflow_warning (H : Decls) (w : World) (ops : List QueueOp)
    (hflag : w.printedWarning = false) (i : Nat) (hi : i < (pushLog H w ops).length) :
    (((pushLog H w ops).getD i (false, false)).2 = true ↔
      (((pushLog H w ops).getD i (false, false)).1 = true ∧
        (i = 0 ∨ ((pushLog H w ops).getD (i - 1) (false, false)).1 = false))) := by
  rw [pushLog_oneShot H ops w i hi, hflag]
  by_cases h0 : i = 0
  · simp [h0]
  · simp [h0]

/-- C15 at a concrete input: with two slots, of the pushes of `overflowingOps`
those with index 2, 3 and 5 overflow and those with index 2 and 5 emit the
warning; the push with index 2 emits it because it overflows and the push with
index 1 did not. -/
theorem C15_one_shot_overflow_warning_witness :
    pushLog smallDecls (freshWorld 0) overflowingOps =
      [(false, false), (false, false), (true, true), (true, false), (false, false),
        (true, true)] ∧
    ((pushLog smallDecls (freshWorld 0) overflowingOps).getD 2 (false, false)).2 = true :=
  ⟨by decide, (C15_one_shot_overflow_warning smallDecls (freshWorld 0) overflowingOps rfl 2
    (by decide)).mpr ⟨by decide, Or.inr (by decide)⟩⟩

/-! ## Release of payloads -/

theorem payloads_append (a b : List sysEvent_t) : payloads (a ++ b) = payloads a ++ payloads b := by
  simp [payloads]

theorem payloads_perm {a b : List sysEvent_t} (h : List.Perm a b) :
    List.Perm (payloads a) (payloads b) :=
  (h.map _).filter _

theorem payloads_singleton (e : sysEvent_t) :
    payloads [e] = if e.evPtr ≠ 0 then [e.evPtr] else [] := by
  unfold payloads
  split_ifs with h <;> simp [h]

theorem GetRealEvent_playback_freed (H : Decls) (w : World) :
    freed (GetRealEvent_playback H w).world.trace = freed w.trace := by
  unfold GetRealEvent_playback
  split
  · simp [Outcome.world]
  · dsimp only
    split_ifs <;> simp [Outcome.world, Mem_ClearedAlloc, freed_append, freed]

theorem GetRealEvent_record_freed (H : Decls) (w : World) (ev : sysEvent_t) :
    freed (GetRealEvent_record H w ev).world.trace = freed w.trace := by
  rw [GetRealEvent_record_steps]

theorem Sys_GetEvent_freed (w : World) :
    freed (Sys_GetEvent w).2.trace = freed w.trace := by
  unfold Sys_GetEvent
  cases w.sysEvents <;> simp [World.emit, freed_append, freed]

theorem GetRealEvent_freed (H : Decls) (w : World) :
    freed (GetRealEvent H w).world.trace = freed w.trace := by
  unfold GetRealEvent
  dsimp only
  split_ifs
  · exact GetRealEvent_playback_freed H w
  · exact (GetRealEvent_record_freed H _ _).trans (Sys_GetEvent_freed w)
  · exact Sys_GetEvent_freed w

theorem GetEvent_freed (H : Decls) (w : World) :
    freed (GetEvent H w).world.trace = freed w.trace := by
  unfold GetEvent
  dsimp only
  split_ifs
  · simp [Outcome.world, World.emit, freed_append, freed]
  · refine (GetRealEvent_freed H _).trans ?_
    simp [World.emit, freed_append, freed]

theorem ProcessEvent_freed (w : World) (ev : sysEvent_t) :
    freed (ProcessEvent w ev).trace = freed w.trace ++ payloads [ev] := by
  rw [ProcessEvent_trace, payloads_singleton]
  simp only [freed_append, freed]
  split_ifs <;> simp [freed]

theorem PushEvent_dispatched (H : Decls) (w : World) (e : sysEvent_t) :
    dispatched (PushEvent H w e).trace = dispatched w.trace := by
  rw [PushEvent_trace]
  simp only [dispatched_append]
  split_ifs <;> simp [dispatched]

theorem PushEvent_freed (H : Decls) (w : World) (e : sysEvent_t) :
    freed (PushEvent H w e).trace =
      freed w.trace ++
        (if occupancy w ≥ H.MAX_PUSHED_EVENTS then
          payloads [w.com_pushedEvents (w.com_pushedEventsHead &&& (H.MAX_PUSHED_EVENTS - 1))]
        else []) := by
  rw [PushEvent_trace, payloads_singleton]
  simp only [freed_append]
  split_ifs <;> simp [freed]

theorem payloadRun_inv (H : Decls) (k : Nat) (hpow : H.MAX_PUSHED_EVENTS = 2 ^ k)
    (ops : List QueueOp) (L : PayloadLog) (h : PayloadInv H L) :
    PayloadInv H (payloadRun H L ops) := by
  induction ops generalizing L with
  | nil => exact h
  | cons op ops ih =>
    obtain ⟨hle, hocc, hacc, hrel⟩ := h
    cases op with
    | push e =>
      rw [payloadRun]
      apply ih
      have hrc := ringContents_PushEvent H k L.world e hpow hle hocc
      by_cases hov : occupancy L.world ≥ H.MAX_PUSHED_EVENTS
      · have hfull : L.world.com_pushedEventsHead =
            L.world.com_pushedEventsTail + H.MAX_PUSHED_EVENTS := by
          unfold occupancy at hov
          omega
        have hsl := full_slot_eq_head H k L.world hpow hfull
        have hcons : ringContents H L.world =
            L.world.com_pushedEvents
              (L.world.com_pushedEventsHead &&& (H.MAX_PUSHED_EVENTS - 1)) ::
              (ringContents H L.world).tail := by
          cases hr : ringContents H L.world with
          | nil => rw [hr] at hsl; simp at hsl
          | cons a t =>
            rw [hr] at hsl
            simp only [List.head?_cons, Option.some.injEq] at hsl
            simp [hsl]
        rw [if_pos (by omega)] at hrc
        constructor
        · simp only [PushEvent_head, PushEvent_tail, if_pos hov]; omega
        · simp only [PushEvent_head, PushEvent_tail, if_pos hov]; omega
        · simp only [overflows, hov, decide_True, if_true, hsl, Option.toList, PushEvent_dispatched,
            hrc]
          rw [hcons] at hacc
          rw [← Multiset.coe_eq_coe] at hacc ⊢
          simp only [← Multiset.coe_add, ← Multiset.singleton_add, ← Multiset.cons_coe,
            Multiset.coe_nil, add_zero] at hacc ⊢
          rw [add_right_comm (↑L.pushed : Multiset sysEvent_t), ← hacc]
          abel
        · simp only [overflows, hov, decide_True, if_true, hsl, Option.toList, PushEvent_dispatched,
            PushEvent_freed]
          rw [← Multiset.coe_eq_coe] at hrel ⊢
          simp only [payloads_append, ← Multiset.coe_add] at hrel ⊢
          rw [hrel]
          abel
      · have hlt : L.world.com_pushedEventsHead - L.world.com_pushedEventsTail ≠
            H.MAX_PUSHED_EVENTS := by
          unfold occupancy at hov
          omega
        rw [if_neg hlt] at hrc
        constructor
        · simp only [PushEvent_head, PushEvent_tail, if_neg hov]; omega
        · simp only [PushEvent_head, PushEvent_tail, if_neg hov]; omega
        · simp only [overflows, hov, decide_False, Bool.false_eq_true, if_false,
            PushEvent_dispatched, hrc]
          rw [← Multiset.coe_eq_coe] at hacc ⊢
          simp only [← Multiset.coe_add] at hacc ⊢
          rw [add_right_comm (↑L.pushed : Multiset sysEvent_t), ← hacc]
          abel
        · simp only [overflows, hov, decide_False, Bool.false_eq_true, if_false,
            PushEvent_dispatched, PushEvent_freed, List.append_nil]
          exact hrel
    | get =>
      rw [payloadRun]
      by_cases hne : L.world.com_pushedEventsTail < L.world.com_pushedEventsHead
      · obtain ⟨hg, hrc⟩ := GetEvent_ringTaken H L.world hne
        rw [hg]
        dsimp only
        apply ih
        have hfr := ProcessEvent_frame L.world.ringTaken
          (L.world.com_pushedEvents
            (L.world.com_pushedEventsTail &&& (H.MAX_PUSHED_EVENTS - 1)))
        have hd : dispatched L.world.ringTaken.trace = dispatched L.world.trace := by
          simp [World.ringTaken, dispatched_append, dispatched]
        have hf : freed L.world.ringTaken.trace = freed L.world.trace := by
          simp [World.ringTaken, freed_append, freed]
        constructor
        · rw [hfr.2.2.2.2.1, hfr.2.2.2.2.2.1]
          simp only [World.ringTaken]
          omega
        · rw [hfr.2.2.2.2.1, hfr.2.2.2.2.2.1]
          simp only [World.ringTaken]
          omega
        · rw [ringContents_frame H _ _ hfr, ProcessEvent_dispatched, hd, if_pos hne]
          rw [hrc] at hacc
          rw [← Multiset.coe_eq_coe] at hacc ⊢
          simp only [← Multiset.coe_add, ← Multiset.singleton_add, ← Multiset.cons_coe,
            Multiset.coe_nil, add_zero] at hacc ⊢
          rw [← hacc]
          abel
        · rw [ProcessEvent_dispatched, ProcessEvent_freed, hd, hf]
          rw [← Multiset.coe_eq_coe] at hrel ⊢
          simp only [payloads_append, ← Multiset.coe_add, ← List.append_assoc] at hrel ⊢
          rw [hrel]
      · have hc := GetEvent_counters H L.world
        have hd := GetEvent_dispatched H L.world
        have hf := GetEvent_freed H L.world
        rw [if_neg (by omega)] at hc
        have hr0 : ringContents H L.world = [] := ringContents_empty H L.world hne
        rw [hr0, List.append_nil] at hacc
        have stop : ∀ w1, (GetEvent H L.world).world = w1 →
            PayloadInv H
              { world := w1, pushed := L.pushed, fetched := L.fetched, evicted := L.evicted } := by
          intro w1 hw
          rw [hw] at hc hd hf
          constructor
          · dsimp only; omega
          · dsimp only; omega
          · dsimp only
            rw [ringContents_empty H w1 (by omega), hd, List.append_nil]
            exact hacc
          · dsimp only
            rw [hd, hf]
            exact hrel
        cases hg : GetEvent H L.world with
        | fatal m w1 => exact stop w1 (by rw [hg]; rfl)
        | crash w1 => exact stop w1 (by rw [hg]; rfl)
        | ok ev w1 =>
          dsimp only
          apply ih
          rw [hg] at hc hd hf
          simp only [Outcome.world] at hc hd hf
          have hfr := ProcessEvent_frame w1 ev
          constructor
          · rw [hfr.2.2.2.2.1, hfr.2.2.2.2.2.1]
            omega
          · rw [hfr.2.2.2.2.1, hfr.2.2.2.2.2.1]
            omega
          · rw [ringContents_frame H _ _ hfr, ringContents_empty H w1 (by omega),
              ProcessEvent_dispatched, hd, if_neg (by omega), List.append_nil]
            rw [← Multiset.coe_eq_coe] at hacc ⊢
            simp only [← Multiset.coe_add] at hacc ⊢
            rw [← add_assoc, ← add_assoc, ← hacc]
          · rw [ProcessEvent_dispatched, ProcessEvent_freed, hd, hf]
            rw [← Multiset.coe_eq_coe] at hrel ⊢
            simp only [payloads_append, ← Multiset.coe_add, ← List.append_assoc] at hrel ⊢
            rw [hrel]

/-- C12. Payload released exactly once, the capacity being a power of two: run
any interleaving of `PushEvent` calls and `GetEvent`-then-`ProcessEvent`
dispatches from a state with an empty ring buffer and an empty trace.  If the
events pushed and the events `GetEvent` obtained from `GetRealEvent` own
pairwise distinct payloads (or none), then no pointer is passed to `Mem_Free`
more than once, and the payload of every event that was evicted by an
overflowing push or dispatched has been passed to `Mem_Free` exactly once: by
the eviction in `PushEvent` or by the cleanup in `ProcessEvent`, never by
both. -/
theorem C12_payload_released_once (H : Decls) (k : Nat) (w : World) (ops : List QueueOp)
    (hpow : H.MAX_PUSHED_EVENTS = 2 ^ k)
    (hempty : w.com_pushedEventsHead = w.com_pushedEventsTail)
    (htrace : w.trace = [])
    (hown : (payloads ((payloadRun H (PayloadLog.start w) ops).pushed ++
      (payloadRun H (PayloadLog.start w) ops).fetched)).Nodup) :
    (freed (payloadRun H (PayloadLog.start w) ops).world.trace).Nodup ∧
    ∀ e ∈ (payloadRun H (PayloadLog.start w) ops).evicted ++
        dispatched (payloadRun H (PayloadLog.start w) ops).world.trace,
      e.evPtr ≠ 0 →
        (freed (payloadRun H (PayloadLog.start w) ops).world.trace).count e.evPtr = 1 := by
  have h0 : PayloadInv H (PayloadLog.start w) := by
    constructor
    · simp only [PayloadLog.start]; omega
    · simp only [PayloadLog.start]; omega
    · simp only [PayloadLog.start, htrace, dispatched]
      rw [ringContents_empty H w (by omega)]
      simp
    · simp [PayloadLog.start, htrace, dispatched, freed, payloads]
  obtain ⟨_, _, hacc, hrel⟩ := payloadRun_inv H k hpow ops _ h0
  have hsub : List.Subperm
      (payloads ((payloadRun H (PayloadLog.start w) ops).evicted ++
        dispatched (payloadRun H (PayloadLog.start w) ops).world.trace))
      (payloads ((payloadRun H (PayloadLog.start w) ops).pushed ++
        (payloadRun H (PayloadLog.start w) ops).fetched)) := by
    refine List.Subperm.trans ?_ (payloads_perm hacc).subperm
    rw [payloads_append _ (ringContents H _)]
    exact (List.sublist_append_left _ _).subperm
  have hnd : (freed (payloadRun H (PayloadLog.start w) ops).world.trace).Nodup :=
    hrel.nodup_iff.mpr (by
      obtain ⟨l, hl, hs⟩ := hsub
      exact hl.nodup_iff.mp (hs.nodup hown))
  refine ⟨hnd, ?_⟩
  intro e he hp
  apply List.count_eq_one_of_mem hnd
  rw [hrel.mem_iff]
  unfold payloads
  rw [List.mem_filter]
  exact ⟨List.mem_map.mpr ⟨e, he, rfl⟩, by simpa using hp⟩

/-- C12 at a concrete input: with two slots, the pushes and dispatches of
`payloadOps`; the payload at 7 is released by the eviction, those at 8 and 9 by
the dispatches. -/
theorem C12_payload_released_once_witness :
    freed (payloadRun smallDecls (PayloadLog.start payloadWorld) payloadOps).world.trace =
      [7, 8, 9] ∧
    (payloadRun smallDecls (PayloadLog.start payloadWorld) payloadOps).evicted =
      [consoleEvent 7 3] ∧
    (freed (payloadRun smallDecls (PayloadLog.start payloadWorld) payloadOps).world.trace).Nodup :=
  ⟨by decide, by decide,
    (C12_payload_released_once smallDecls 1 payloadWorld payloadOps rfl rfl rfl (by decide)).1⟩

/-! ## `float` arithmetic -/

theorem roundHalfEven_error (q : ℚ) : |(roundHalfEven q : ℚ) - q| ≤ 1 / 2 := by
  have h1 := Int.floor_le q
  have h2 := Int.lt_floor_add_one q
  unfold roundHalfEven
  split_ifs with a b c
  · rw [abs_le]; constructor <;> linarith
  · rw [abs_le]; push_cast; constructor <;> linarith
  · rw [abs_le]; constructor <;> linarith
  · rw [abs_le]; push_cast; constructor <;> linarith

theorem roundHalfEven_intCast (n : ℤ) : roundHalfEven (n : ℚ) = n := by
  unfold roundHalfEven
  simp

theorem roundHalfEven_nonneg (q : ℚ) (h : 0 ≤ q) : 0 ≤ roundHalfEven q := by
  have h1 : 0 ≤ ⌊q⌋ := Int.floor_nonneg.mpr h
  unfold roundHalfEven
  split_ifs <;> omega

theorem roundHalfEven_nonpos (q : ℚ) (h : q ≤ 0) : roundHalfEven q ≤ 0 := by
  rcases eq_or_lt_of_le h with h0 | hneg
  · rw [h0]
    simpa using (roundHalfEven_intCast 0).le
  · have h1 : ⌊q⌋ < 0 := Int.floor_lt.mpr (by simpa using hneg)
    unfold roundHalfEven
    split_ifs <;> omega

theorem toFloat_zero : toFloat 0 = 0 := by
  unfold toFloat
  simp [roundHalfEven]

/-- The error of a rounding to `float`: at most `2 ^ (-24)` relative to the
value, or half the least spacing. -/
theorem toFloat_error (q : ℚ) : |toFloat q - q| ≤ |q| / 2 ^ 24 + 1 / 2 ^ 150 := by
  rcases eq_or_ne q 0 with rfl | hq
  · rw [toFloat_zero]; norm_num
  have hpos : (0 : ℚ) < 2 ^ (max (Int.log 2 |q|) (-126) - 23) := by positivity
  have herr := roundHalfEven_error (q / 2 ^ (max (Int.log 2 |q|) (-126) - 23))
  have habs : |toFloat q - q| ≤ 2 ^ (max (Int.log 2 |q|) (-126) - 23) / 2 := by
    have : toFloat q - q =
        ((roundHalfEven (q / 2 ^ (max (Int.log 2 |q|) (-126) - 23)) : ℚ) -
          q / 2 ^ (max (Int.log 2 |q|) (-126) - 23)) *
          2 ^ (max (Int.log 2 |q|) (-126) - 23) := by
      unfold toFloat
      field_simp
    rw [this, abs_mul, abs_of_pos hpos]
    calc _ ≤ 1 / 2 * 2 ^ (max (Int.log 2 |q|) (-126) - 23) :=
          mul_le_mul_of_nonneg_right herr hpos.le
      _ = _ := by ring
  refine habs.trans ?_
  have hq0 : (0 : ℚ) < |q| := abs_pos.mpr hq
  rcases le_total (Int.log 2 |q|) (-126) with hl | hl
  · rw [max_eq_right hl]
    have : (2 : ℚ) ^ ((-126 : ℤ) - 23) / 2 = 1 / 2 ^ 150 := by norm_num
    rw [this]
    have : 0 ≤ |q| / 2 ^ 24 := by positivity
    linarith
  · rw [max_eq_left hl]
    have hlog : ((2 : ℕ) : ℚ) ^ Int.log 2 |q| ≤ |q| := Int.zpow_log_le_self (by norm_num) hq0
    have : (2 : ℚ) ^ (Int.log 2 |q| - 23) / 2 = 2 ^ Int.log 2 |q| / 2 ^ 24 := by
      rw [zpow_sub₀ (by norm_num)]
      norm_num
      ring
    rw [this]
    have h2 : (2 : ℚ) ^ Int.log 2 |q| / 2 ^ 24 ≤ |q| / 2 ^ 24 := by
      apply div_le_div_of_nonneg_right _ (by positivity)
      simpa using hlog
    have : (0 : ℚ) ≤ 1 / 2 ^ 150 := by positivity
    linarith

theorem toFloat_nonneg (q : ℚ) (h : 0 ≤ q) : 0 ≤ toFloat q := by
  unfold toFloat
  have hpos : (0 : ℚ) < 2 ^ (max (Int.log 2 |q|) (-126) - 23) := by positivity
  have := roundHalfEven_nonneg (q / 2 ^ (max (Int.log 2 |q|) (-126) - 23))
    (div_nonneg h hpos.le)
  exact mul_nonneg (by exact_mod_cast this) hpos.le

theorem toFloat_nonpos (q : ℚ) (h : q ≤ 0) : toFloat q ≤ 0 := by
  unfold toFloat
  have hpos : (0 : ℚ) < 2 ^ (max (Int.log 2 |q|) (-126) - 23) := by positivity
  have := roundHalfEven_nonpos (q / 2 ^ (max (Int.log 2 |q|) (-126) - 23))
    (div_nonpos_of_nonpos_of_nonneg h hpos.le)
  exact mul_nonpos_of_nonpos_of_nonneg (by exact_mod_cast this) hpos.le

/-- An integer of less than 24 bits is a `float`. -/
theorem toFloat_intCast (n : ℤ) (h : |n| < 2 ^ 24) : toFloat (n : ℚ) = n := by
  rcases eq_or_ne n 0 with rfl | hn
  · simpa using toFloat_zero
  have hq0 : (0 : ℚ) < |(n : ℚ)| := abs_pos.mpr (by exact_mod_cast hn)
  have hlog : ((2 : ℕ) : ℚ) ^ Int.log 2 |(n : ℚ)| ≤ |(n : ℚ)| :=
    Int.zpow_log_le_self (by norm_num) hq0
  have hlt : |(n : ℚ)| < 2 ^ (24 : ℤ) := by
    have : ((|n| : ℤ) : ℚ) < ((2 ^ 24 : ℤ) : ℚ) := by exact_mod_cast h
    rw [Int.cast_abs] at this
    refine lt_of_lt_of_le this ?_
    norm_num
  have hle : Int.log 2 |(n : ℚ)| < 24 := by
    have h3 : ((2 : ℚ)) ^ Int.log 2 |(n : ℚ)| < 2 ^ (24 : ℤ) := by
      refine lt_of_le_of_lt ?_ hlt
      simpa using hlog
    exact (zpow_lt_zpow_iff_right₀ (by norm_num : (1 : ℚ) < 2)).mp h3
  obtain ⟨k, hk⟩ : ∃ k : ℕ, max (Int.log 2 |(n : ℚ)|) (-126) - 23 = -(k : ℤ) := by
    refine ⟨(23 - max (Int.log 2 |(n : ℚ)|) (-126)).toNat, ?_⟩
    have : max (Int.log 2 |(n : ℚ)|) (-126) ≤ 23 := max_le (by omega) (by norm_num)
    omega
  unfold toFloat
  rw [hk]
  have : (n : ℚ) / 2 ^ (-(k : ℤ)) = ((n * 2 ^ k : ℤ) : ℚ) := by
    rw [zpow_neg, zpow_natCast]
    push_cast
    field_simp
  rw [this, roundHalfEven_intCast]
  push_cast
  rw [zpow_neg, zpow_natCast]
  field_simp

theorem intToFloat_eq (n : ℤ) (h : |n| ≤ 32767) : intToFloat n = n := by
  unfold intToFloat
  exact toFloat_intCast n (lt_of_le_of_lt h (by norm_num))

theorem floatConstants :
    intToFloat SDL_JOYSTICK_AXIS_MAX = 32767 ∧ intToFloat mouseSpeed = 15 ∧
      fmul 15 15 = 225 := by
  refine ⟨?_, ?_, ?_⟩
  · have := intToFloat_eq 32767 (by norm_num)
    simpa [SDL_JOYSTICK_AXIS_MAX] using this
  · have := intToFloat_eq 15 (by norm_num)
    simpa [mouseSpeed] using this
  · have := toFloat_intCast 225 (by norm_num)
    unfold fmul
    norm_num at this ⊢
    exact this

/-- An upper bound of the error of a rounding to `float` of a value of
magnitude at most `B`. -/
theorem toFloat_error_of_le (q B : ℚ) (h : |q| ≤ B) :
    |toFloat q - q| ≤ B / 2 ^ 24 + 1 / 2 ^ 150 := by
  refine (toFloat_error q).trans ?_
  have : |q| / 2 ^ 24 ≤ B / 2 ^ 24 := div_le_div_of_nonneg_right h (by positivity)
  linarith

/-- A component of `axisVector`: the reading scaled by `15 / 32767`, up to the
rounding of the division and of the multiplication. -/
theorem scaled_error (n : ℤ) (h : |n| ≤ 32767) :
    |fmul (fdiv (intToFloat n) (intToFloat SDL_JOYSTICK_AXIS_MAX)) (intToFloat mouseSpeed) -
      15 * n / 32767| ≤ 1 / 2 ^ 18 := by
  obtain ⟨c1, c2, _⟩ := floatConstants
  rw [intToFloat_eq n h, c1, c2]
  unfold fmul fdiv
  have hn : |(n : ℚ)| ≤ 32767 := by
    have : ((|n| : ℤ) : ℚ) ≤ ((32767 : ℤ) : ℚ) := by exact_mod_cast h
    simpa using this
  have hq : |(n : ℚ) / 32767| ≤ 1 := by
    rw [abs_div, div_le_one (by norm_num)]
    simpa using hn
  have ha := toFloat_error_of_le ((n : ℚ) / 32767) 1 hq
  have ha2 : |toFloat ((n : ℚ) / 32767)| ≤ 2 := by
    have := abs_sub_abs_le_abs_sub (toFloat ((n : ℚ) / 32767)) ((n : ℚ) / 32767)
    have h3 : (1 : ℚ) / 2 ^ 24 + 1 / 2 ^ 150 ≤ 1 := by norm_num
    linarith
  have hb := toFloat_error_of_le (toFloat ((n : ℚ) / 32767) * 15) 30 (by
    rw [abs_mul]
    have : |(15 : ℚ)| = 15 := abs_of_pos (by norm_num)
    rw [this]
    linarith)
  have key : fmul (toFloat ((n : ℚ) / 32767)) 15 - 15 * n / 32767 =
      (toFloat (toFloat ((n : ℚ) / 32767) * 15) - toFloat ((n : ℚ) / 32767) * 15) +
        15 * (toFloat ((n : ℚ) / 32767) - (n : ℚ) / 32767) := by
    unfold fmul
    ring
  unfold fmul at key
  rw [key]
  refine (abs_add _ _).trans ?_
  rw [abs_mul]
  have : |(15 : ℚ)| = 15 := abs_of_pos (by norm_num)
  rw [this]
  have h4 : (30 : ℚ) / 2 ^ 24 + 1 / 2 ^ 150 + 15 * (1 / 2 ^ 24 + 1 / 2 ^ 150) ≤ 1 / 2 ^ 18 := by
    norm_num
  linarith

theorem scaled_sign (n : ℤ) (h : |n| ≤ 32767) :
    (0 ≤ n → 0 ≤ fmul (fdiv (intToFloat n) (intToFloat SDL_JOYSTICK_AXIS_MAX))
      (intToFloat mouseSpeed)) ∧
    (n ≤ 0 → fmul (fdiv (intToFloat n) (intToFloat SDL_JOYSTICK_AXIS_MAX))
      (intToFloat mouseSpeed) ≤ 0) := by
  obtain ⟨c1, c2, _⟩ := floatConstants
  rw [intToFloat_eq n h, c1, c2]
  unfold fmul fdiv
  constructor
  · intro hn
    have : (0 : ℚ) ≤ n := by exact_mod_cast hn
    exact toFloat_nonneg _ (mul_nonneg (toFloat_nonneg _ (div_nonneg this (by norm_num)))
      (by norm_num))
  · intro hn
    have : (n : ℚ) ≤ 0 := by exact_mod_cast hn
    exact toFloat_nonpos _ (mul_nonpos_of_nonpos_of_nonneg
      (toFloat_nonpos _ (div_nonpos_of_nonpos_of_nonneg this (by norm_num))) (by norm_num))

/-- The squared magnitude in `float` arithmetic of a vector with components of
magnitude at most 16, against the exact one. -/
theorem LengthSqr_error (v : idVec2) (hx : |v.x| ≤ 16) (hy : |v.y| ≤ 16) :
    |v.LengthSqr - (v.x * v.x + v.y * v.y)| ≤ 1 / 2 ^ 13 := by
  unfold idVec2.LengthSqr fadd fmul
  have sqb : ∀ z : ℚ, |z| ≤ 16 → |z * z| ≤ 256 := by
    intro z hz
    rw [abs_mul]
    calc |z| * |z| ≤ 16 * 16 := mul_le_mul hz hz (abs_nonneg _) (by norm_num)
      _ = 256 := by norm_num
  have h1 := toFloat_error_of_le (v.x * v.x) 256 (sqb _ hx)
  have h2 := toFloat_error_of_le (v.y * v.y) 256 (sqb _ hy)
  have b1 : |toFloat (v.x * v.x)| ≤ 257 := by
    have := abs_sub_abs_le_abs_sub (toFloat (v.x * v.x)) (v.x * v.x)
    have := sqb _ hx
    have h3 : (256 : ℚ) / 2 ^ 24 + 1 / 2 ^ 150 ≤ 1 := by norm_num
    linarith
  have b2 : |toFloat (v.y * v.y)| ≤ 257 := by
    have := abs_sub_abs_le_abs_sub (toFloat (v.y * v.y)) (v.y * v.y)
    have := sqb _ hy
    have h3 : (256 : ℚ) / 2 ^ 24 + 1 / 2 ^ 150 ≤ 1 := by norm_num
    linarith
  have h3 := toFloat_error_of_le (toFloat (v.x * v.x) + toFloat (v.y * v.y)) 514
    ((abs_add _ _).trans (by linarith))
  have key : toFloat (toFloat (v.x * v.x) + toFloat (v.y * v.y)) - (v.x * v.x + v.y * v.y) =
      (toFloat (toFloat (v.x * v.x) + toFloat (v.y * v.y)) -
        (toFloat (v.x * v.x) + toFloat (v.y * v.y))) +
      ((toFloat (v.x * v.x) - v.x * v.x) + (toFloat (v.y * v.y) - v.y * v.y)) := by ring
  rw [key]
  refine (abs_add _ _).trans ?_
  have := abs_add (toFloat (v.x * v.x) - v.x * v.x) (toFloat (v.y * v.y) - v.y * v.y)
  have h4 : (514 : ℚ) / 2 ^ 24 + 1 / 2 ^ 150 + (256 / 2 ^ 24 + 1 / 2 ^ 150 +
      (256 / 2 ^ 24 + 1 / 2 ^ 150)) ≤ 1 / 2 ^ 13 := by norm_num
  linarith

theorem floatToInt_sq_le (q : ℚ) : ((floatToInt q : ℤ) : ℚ) * (floatToInt q : ℤ) ≤ q * q := by
  unfold floatToInt
  split_ifs with h
  · have h1 := Int.floor_le q
    have h2 : (0 : ℚ) ≤ ⌊q⌋ := by exact_mod_cast Int.floor_nonneg.mpr h
    exact mul_le_mul h1 h1 h2 h
  · push_neg at h
    have h1 := Int.le_ceil q
    have h2 : ((⌈q⌉ : ℤ) : ℚ) ≤ 0 := by exact_mod_cast Int.ceil_le.mpr (by simpa using h.le)
    nlinarith

theorem floatToInt_sq_gt (q : ℚ) :
    q * q < ((|floatToInt q| + 1 : ℤ) : ℚ) * ((|floatToInt q| + 1 : ℤ) : ℚ) := by
  unfold floatToInt
  split_ifs with h
  · have h1 := Int.lt_floor_add_one q
    have h2 : (0 : ℤ) ≤ ⌊q⌋ := Int.floor_nonneg.mpr h
    rw [abs_of_nonneg h2]
    push_cast
    nlinarith
  · push_neg at h
    have h1 := Int.ceil_lt_add_one q
    have h2 : ⌈q⌉ ≤ 0 := Int.ceil_le.mpr (by simpa using h.le)
    rw [abs_of_nonpos h2]
    push_cast
    nlinarith

theorem floatToInt_sign (q : ℚ) :
    (0 ≤ q → 0 ≤ floatToInt q) ∧ (q ≤ 0 → floatToInt q ≤ 0) := by
  unfold floatToInt
  constructor
  · intro h
    rw [if_pos h]
    exact Int.floor_nonneg.mpr h
  · intro h
    split_ifs with h0
    · have : q = 0 := le_antisymm h h0
      simp [this]
    · exact Int.ceil_le.mpr (by simpa using h)

theorem floatToInt_eq_zero (q : ℚ) (h : |q| < 1) : floatToInt q = 0 := by
  rw [abs_lt] at h
  unfold floatToInt
  split_ifs with h0
  · rw [Int.floor_eq_iff]
    constructor
    · simpa using h0
    · simpa using h.2
  · rw [Int.ceil_eq_iff]
    push_neg at h0
    constructor
    · simpa using h.1
    · simpa using h0.le

theorem abs_sq_sub_sq_le (a b A e : ℚ) (h : |a - b| ≤ e) (ha : |a| ≤ A) (hb : |b| ≤ A) :
    |a * a - b * b| ≤ 2 * A * e := by
  have : a * a - b * b = (a - b) * (a + b) := by ring
  rw [this, abs_mul]
  have h2 : |a + b| ≤ 2 * A := (abs_add _ _).trans (by linarith)
  calc |a - b| * |a + b| ≤ e * (2 * A) :=
        mul_le_mul h h2 (abs_nonneg _) ((abs_nonneg _).trans h)
    _ = 2 * A * e := by ring

/-- The clamp branch of `Truncate( 15 )` on a vector with components of magnitude
at most 16 and squared magnitude, in `float` arithmetic, above 225: the squared
magnitude of the result is within 1/2 of 225, and the result is the vector
multiplied by a factor between 1/2 and 2, up to rounding. -/
theorem clamp_error (v : idVec2) (r : ℚ) (hx : |v.x| ≤ 16) (hy : |v.y| ≤ 16)
    (hL : 225 < v.LengthSqr) (hr : InvSqrtAccurate r v.LengthSqr) :
    |fmul v.x (fmul 15 r) * fmul v.x (fmul 15 r) +
        fmul v.y (fmul 15 r) * fmul v.y (fmul 15 r) - 225| ≤ 1 / 2 ∧
    1 / 2 ≤ fmul 15 r ∧ fmul 15 r ≤ 2 ∧
    |fmul v.x (fmul 15 r) - fmul 15 r * v.x| ≤ 1 / 2 ^ 18 ∧
    |fmul v.y (fmul 15 r) - fmul 15 r * v.y| ≤ 1 / 2 ^ 18 := by
  obtain ⟨hr0, hrl, hru⟩ := hr
  have hs := LengthSqr_error v hx hy
  have sqb : ∀ z : ℚ, |z| ≤ 16 → z * z ≤ 256 := by
    intro z hz
    have := abs_mul_abs_self z
    have h2 : |z| * |z| ≤ 16 * 16 := mul_le_mul hz hz (abs_nonneg _) (by norm_num)
    linarith
  have hsx := sqb _ hx
  have hsy := sqb _ hy
  have hsx0 := mul_self_nonneg v.x
  have hsy0 := mul_self_nonneg v.y
  rw [abs_le] at hs
  have hLu : v.LengthSqr ≤ 513 := by linarith [hs.2, (by norm_num : (1 : ℚ) / 2 ^ 13 ≤ 1)]
  have hrr : 0 < r * r := mul_pos hr0 hr0
  -- bounds of `15 * r`
  have h15u : 15 * r < 1 + 1 / 2 ^ 10 := by
    by_contra hcon
    push_neg at hcon
    have h1 : (1 + 1 / 2 ^ 10) * (1 + 1 / 2 ^ 10) ≤ (15 * r) * (15 * r) :=
      mul_le_mul hcon hcon (by norm_num) (by positivity)
    have h2 : r * r * 225 < r * r * v.LengthSqr := mul_lt_mul_of_pos_left hL hrr
    nlinarith
  have h15l : 13 / 20 ≤ 15 * r := by
    by_contra hcon
    push_neg at hcon
    have h1 : (15 * r) * (15 * r) < 13 / 20 * (13 / 20) :=
      mul_lt_mul'' hcon hcon (by positivity) (by positivity)
    have h2 : r * r * v.LengthSqr ≤ r * r * 513 := mul_le_mul_of_nonneg_left hLu hrr.le
    have h3 : (1 - 1 / 2 ^ 10 : ℚ) * (1 - 1 / 2 ^ 10) ≥ 99 / 100 := by norm_num
    nlinarith
  have h225 : 225 * (r * r) ≤ 2 := by
    have h2 : r * r * 225 < r * r * v.LengthSqr := mul_lt_mul_of_pos_left hL hrr
    have h3 : (1 + 1 / 2 ^ 10 : ℚ) * (1 + 1 / 2 ^ 10) ≤ 2 := by norm_num
    linarith
  -- the factor
  have hil := toFloat_error_of_le (15 * r) 2 (by
    rw [abs_of_pos (by positivity)]
    have : (1 : ℚ) + 1 / 2 ^ 10 ≤ 2 := by norm_num
    linarith)
  have e4 : (2 : ℚ) / 2 ^ 24 + 1 / 2 ^ 150 ≤ 1 / 2 ^ 22 := by norm_num
  have hil' : |fmul 15 r - 15 * r| ≤ 1 / 2 ^ 22 := by
    unfold fmul
    exact hil.trans e4
  have hilb := abs_le.mp hil'
  have hil_lo : 1 / 2 ≤ fmul 15 r := by
    have : (13 : ℚ) / 20 - 1 / 2 ^ 22 ≥ 1 / 2 := by norm_num
    linarith [hilb.1]
  have hil_hi : fmul 15 r ≤ 2 := by
    have : (1 : ℚ) + 1 / 2 ^ 10 + 1 / 2 ^ 22 ≤ 2 := by norm_num
    linarith [hilb.2]
  have hil_abs : |fmul 15 r| ≤ 2 := by
    rw [abs_of_nonneg (by linarith)]
    exact hil_hi
  have h15_abs : |15 * r| ≤ 2 := by
    rw [abs_of_pos (by positivity)]
    have : (1 : ℚ) + 1 / 2 ^ 10 ≤ 2 := by norm_num
    linarith
  -- the components
  have comp : ∀ z : ℚ, |z| ≤ 16 →
      |fmul z (fmul 15 r) - z * fmul 15 r| ≤ 1 / 2 ^ 18 ∧
      |fmul z (fmul 15 r) * fmul z (fmul 15 r) - (z * fmul 15 r) * (z * fmul 15 r)| ≤
        66 / 2 ^ 18 := by
    intro z hz
    have hp : |z * fmul 15 r| ≤ 32 := by
      rw [abs_mul]
      calc |z| * |fmul 15 r| ≤ 16 * 2 := mul_le_mul hz hil_abs (abs_nonneg _) (by norm_num)
        _ = 32 := by norm_num
    have h1 := toFloat_error_of_le (z * fmul 15 r) 32 hp
    have e5 : (32 : ℚ) / 2 ^ 24 + 1 / 2 ^ 150 ≤ 1 / 2 ^ 18 := by norm_num
    have h2 : |fmul z (fmul 15 r) - z * fmul 15 r| ≤ 1 / 2 ^ 18 := by
      have : fmul z (fmul 15 r) = toFloat (z * fmul 15 r) := rfl
      rw [this]
      exact h1.trans e5
    have h3 : |fmul z (fmul 15 r)| ≤ 33 := by
      have := abs_sub_abs_le_abs_sub (fmul z (fmul 15 r)) (z * fmul 15 r)
      have : (1 : ℚ) / 2 ^ 18 ≤ 1 := by norm_num
      linarith
    refine ⟨h2, ?_⟩
    have := abs_sq_sub_sq_le _ _ 33 (1 / 2 ^ 18) h2 h3 (hp.trans (by norm_num))
    refine this.trans ?_
    norm_num
  obtain ⟨cx1, cx2⟩ := comp v.x hx
  obtain ⟨cy1, cy2⟩ := comp v.y hy
  have hil2 := abs_sq_sub_sq_le _ _ 2 (1 / 2 ^ 22) hil' hil_abs h15_abs
  refine ⟨?_, hil_lo, hil_hi, by rwa [mul_comm (fmul 15 r)], by rwa [mul_comm (fmul 15 r)]⟩
  -- the squared magnitude
  have key : fmul v.x (fmul 15 r) * fmul v.x (fmul 15 r) +
        fmul v.y (fmul 15 r) * fmul v.y (fmul 15 r) - 225 =
      (fmul v.x (fmul 15 r) * fmul v.x (fmul 15 r) -
          (v.x * fmul 15 r) * (v.x * fmul 15 r)) +
        (fmul v.y (fmul 15 r) * fmul v.y (fmul 15 r) -
          (v.y * fmul 15 r) * (v.y * fmul 15 r)) +
        (v.x * v.x + v.y * v.y) * (fmul 15 r * fmul 15 r - 15 * r * (15 * r)) +
        225 * (r * r) * ((v.x * v.x + v.y * v.y) - v.LengthSqr) +
        225 * (r * r * v.LengthSqr - 1) := by ring
  rw [key]
  have t3 : |(v.x * v.x + v.y * v.y) * (fmul 15 r * fmul 15 r - 15 * r * (15 * r))| ≤
      512 * (2 * 2 * (1 / 2 ^ 22)) := by
    rw [abs_mul]
    refine mul_le_mul ?_ hil2 (abs_nonneg _) (by norm_num)
    rw [abs_of_nonneg (by linarith)]
    linarith
  have t4 : |225 * (r * r) * ((v.x * v.x + v.y * v.y) - v.LengthSqr)| ≤ 2 * (1 / 2 ^ 13) := by
    rw [abs_mul, abs_of_nonneg (by positivity)]
    refine mul_le_mul h225 ?_ (abs_nonneg _) (by norm_num)
    rw [abs_le]
    constructor <;> linarith [hs.1, hs.2]
  have t5 : |225 * (r * r * v.LengthSqr - 1)| ≤ 225 * (1 / 2 ^ 9 + 1 / 2 ^ 20) := by
    rw [abs_mul, abs_of_nonneg (by norm_num : (0 : ℚ) ≤ 225)]
    refine mul_le_mul_of_nonneg_left ?_ (by norm_num)
    rw [abs_le]
    constructor
    · have : (1 - 1 / 2 ^ 10 : ℚ) * (1 - 1 / 2 ^ 10) - 1 ≥ -(1 / 2 ^ 9 + 1 / 2 ^ 20) := by
        norm_num
      linarith
    · have : (1 + 1 / 2 ^ 10 : ℚ) * (1 + 1 / 2 ^ 10) - 1 ≤ 1 / 2 ^ 9 + 1 / 2 ^ 20 := by norm_num
      linarith
  have tot := (abs_add _ _).trans (add_le_add ((abs_add _ _).trans (add_le_add
    ((abs_add _ _).trans (add_le_add ((abs_add _ _).trans (add_le_add cx2 cy2)) t3)) t4)) t5)
  refine tot.trans ?_
  norm_num

/-- The components of `axisVector` for readings in the device range. -/
theorem axisVector_error (dx dy : ℤ) (hx : |dx| ≤ 32767) (hy : |dy| ≤ 32767) :
    |(axisVector dx dy).x - 15 * dx / 32767| ≤ 1 / 2 ^ 18 ∧
    |(axisVector dx dy).y - 15 * dy / 32767| ≤ 1 / 2 ^ 18 ∧
    |(axisVector dx dy).x| ≤ 16 ∧ |(axisVector dx dy).y| ≤ 16 := by
  have key : ∀ n : ℤ, |n| ≤ 32767 →
      |(15 : ℚ) * n / 32767| ≤ 15 := by
    intro n h
    have hn : |(n : ℚ)| ≤ 32767 := by
      have : ((|n| : ℤ) : ℚ) ≤ ((32767 : ℤ) : ℚ) := by exact_mod_cast h
      simpa using this
    rw [abs_div, abs_mul, abs_of_pos (by norm_num : (0 : ℚ) < 15),
      abs_of_pos (by norm_num : (0 : ℚ) < 32767), div_le_iff₀ (by norm_num)]
    linarith
  have ex := scaled_error dx hx
  have ey := scaled_error dy hy
  refine ⟨ex, ey, ?_, ?_⟩
  · have := abs_sub_abs_le_abs_sub
      (fmul (fdiv (intToFloat dx) (intToFloat SDL_JOYSTICK_AXIS_MAX)) (intToFloat mouseSpeed))
      (15 * dx / 32767)
    have := key dx hx
    have : (1 : ℚ) / 2 ^ 18 ≤ 1 := by norm_num
    show |fmul (fdiv (intToFloat dx) (intToFloat SDL_JOYSTICK_AXIS_MAX))
      (intToFloat mouseSpeed)| ≤ 16
    linarith
  · have := abs_sub_abs_le_abs_sub
      (fmul (fdiv (intToFloat dy) (intToFloat SDL_JOYSTICK_AXIS_MAX)) (intToFloat mouseSpeed))
      (15 * dy / 32767)
    have := key dy hy
    have : (1 : ℚ) / 2 ^ 18 ≤ 1 := by norm_num
    show |fmul (fdiv (intToFloat dy) (intToFloat SDL_JOYSTICK_AXIS_MAX))
      (intToFloat mouseSpeed)| ≤ 16
    linarith

/-- The exact squared magnitude of `axisVector` for readings whose scaled
vector has magnitude above 15. -/
theorem axisVector_sq (dx dy : ℤ) (hx : |dx| ≤ 32767) (hy : |dy| ≤ 32767)
    (hmag : 32767 ^ 2 < dx ^ 2 + dy ^ 2) :
    225 - 1 / 2 ^ 12 ≤ (axisVector dx dy).x * (axisVector dx dy).x +
      (axisVector dx dy).y * (axisVector dx dy).y := by
  obtain ⟨ex, ey, bx, by'⟩ := axisVector_error dx dy hx hy
  have key : ∀ n : ℤ, |n| ≤ 32767 → |(15 : ℚ) * n / 32767| ≤ 16 := by
    intro n h
    have hn : |(n : ℚ)| ≤ 32767 := by
      have : ((|n| : ℤ) : ℚ) ≤ ((32767 : ℤ) : ℚ) := by exact_mod_cast h
      simpa using this
    rw [abs_div, abs_mul, abs_of_pos (by norm_num : (0 : ℚ) < 15),
      abs_of_pos (by norm_num : (0 : ℚ) < 32767), div_le_iff₀ (by norm_num)]
    linarith
  have sx := abs_sq_sub_sq_le _ _ 16 (1 / 2 ^ 18) ex bx (key dx hx)
  have sy := abs_sq_sub_sq_le _ _ 16 (1 / 2 ^ 18) ey by' (key dy hy)
  rw [abs_le] at sx sy
  have hm : ((32767 : ℚ)) ^ 2 < (dx : ℚ) ^ 2 + (dy : ℚ) ^ 2 := by exact_mod_cast hmag
  have hexact : (225 : ℚ) ≤ 15 * dx / 32767 * (15 * dx / 32767) +
      15 * dy / 32767 * (15 * dy / 32767) := by
    have : (15 : ℚ) * dx / 32767 * (15 * dx / 32767) + 15 * dy / 32767 * (15 * dy / 32767) =
        225 * ((dx : ℚ) ^ 2 + (dy : ℚ) ^ 2) / 32767 ^ 2 := by ring
    rw [this, le_div_iff₀ (by norm_num)]
    linarith
  have : (2 : ℚ) * 16 * (1 / 2 ^ 18) + 2 * 16 * (1 / 2 ^ 18) ≤ 1 / 2 ^ 12 := by norm_num
  linarith [sx.1, sy.1]

/-! ## The mouse vector -/

/-- The vector `CreateMouseEvent` converts, for readings in the device range
whose scaled vector has magnitude above 15: its squared magnitude is within 1/2
of 225, and it is the exact scaled vector `(15 dx / 32767, 15 dy / 32767)`
multiplied by a factor between 1/2 and 2, up to `2 ^ (-16)` in each
component. -/
theorem mouseVector_clamped (InvSqrt : ℚ → ℚ) (dx dy : ℤ)
    (hx : |dx| ≤ 32767) (hy : |dy| ≤ 32767) (hmag : 32767 ^ 2 < dx ^ 2 + dy ^ 2)
    (hinv : InvSqrtAccurate (InvSqrt (axisVector dx dy).LengthSqr)
      (axisVector dx dy).LengthSqr) :
    |(mouseVector InvSqrt dx dy).x * (mouseVector InvSqrt dx dy).x +
      (mouseVector InvSqrt dx dy).y * (mouseVector InvSqrt dx dy).y - 225| ≤ 1 / 2 ∧
    ∃ k : ℚ, 1 / 2 ≤ k ∧ k ≤ 2 ∧
      |(mouseVector InvSqrt dx dy).x - k * (15 * dx / 32767)| ≤ 1 / 2 ^ 16 ∧
      |(mouseVector InvSqrt dx dy).y - k * (15 * dy / 32767)| ≤ 1 / 2 ^ 16 := by
  obtain ⟨ex, ey, bx, by'⟩ := axisVector_error dx dy hx hy
  obtain ⟨_, c2, c3⟩ := floatConstants
  have hsq := axisVector_sq dx dy hx hy hmag
  have hs := LengthSqr_error (axisVector dx dy) bx by'
  unfold mouseVector idVec2.Truncate
  rw [c2, c3, if_neg (by norm_num)]
  split_ifs with hL
  · obtain ⟨h1, h2, h3, h4, h5⟩ := clamp_error (axisVector dx dy)
      (InvSqrt (axisVector dx dy).LengthSqr) bx by' hL hinv
    refine ⟨h1, fmul 15 (InvSqrt (axisVector dx dy).LengthSqr), h2, h3, ?_, ?_⟩
    · have : fmul (axisVector dx dy).x (fmul 15 (InvSqrt (axisVector dx dy).LengthSqr)) -
          fmul 15 (InvSqrt (axisVector dx dy).LengthSqr) * (15 * dx / 32767) =
          (fmul (axisVector dx dy).x (fmul 15 (InvSqrt (axisVector dx dy).LengthSqr)) -
            fmul 15 (InvSqrt (axisVector dx dy).LengthSqr) * (axisVector dx dy).x) +
          fmul 15 (InvSqrt (axisVector dx dy).LengthSqr) *
            ((axisVector dx dy).x - 15 * dx / 32767) := by ring
      rw [this]
      refine (abs_add _ _).trans ?_
      rw [abs_mul, abs_of_nonneg (by linarith : (0 : ℚ) ≤
        fmul 15 (InvSqrt (axisVector dx dy).LengthSqr))]
      have : fmul 15 (InvSqrt (axisVector dx dy).LengthSqr) *
          |(axisVector dx dy).x - 15 * dx / 32767| ≤ 2 * (1 / 2 ^ 18) :=
        mul_le_mul h3 ex (abs_nonneg _) (by norm_num)
      have : (1 : ℚ) / 2 ^ 18 + 2 * (1 / 2 ^ 18) ≤ 1 / 2 ^ 16 := by norm_num
      linarith
    · have : fmul (axisVector dx dy).y (fmul 15 (InvSqrt (axisVector dx dy).LengthSqr)) -
          fmul 15 (InvSqrt (axisVector dx dy).LengthSqr) * (15 * dy / 32767) =
          (fmul (axisVector dx dy).y (fmul 15 (InvSqrt (axisVector dx dy).LengthSqr)) -
            fmul 15 (InvSqrt (axisVector dx dy).LengthSqr) * (axisVector dx dy).y) +
          fmul 15 (InvSqrt (axisVector dx dy).LengthSqr) *
            ((axisVector dx dy).y - 15 * dy / 32767) := by ring
      rw [this]
      refine (abs_add _ _).trans ?_
      rw [abs_mul, abs_of_nonneg (by linarith : (0 : ℚ) ≤
        fmul 15 (InvSqrt (axisVector dx dy).LengthSqr))]
      have : fmul 15 (InvSqrt (axisVector dx dy).LengthSqr) *
          |(axisVector dx dy).y - 15 * dy / 32767| ≤ 2 * (1 / 2 ^ 18) :=
        mul_le_mul h3 ey (abs_nonneg _) (by norm_num)
      have : (1 : ℚ) / 2 ^ 18 + 2 * (1 / 2 ^ 18) ≤ 1 / 2 ^ 16 := by norm_num
      linarith
  · push_neg at hL
    rw [abs_le] at hs
    refine ⟨?_, 1, by norm_num, by norm_num, ?_, ?_⟩
    · rw [abs_le]
      have : (1 : ℚ) / 2 ^ 13 ≤ 1 / 2 := by norm_num
      have : (1 : ℚ) / 2 ^ 12 ≤ 1 / 2 := by norm_num
      constructor <;> linarith [hs.1, hs.2]
    · rw [one_mul]
      exact ex.trans (by norm_num)
    · rw [one_mul]
      exact ey.trans (by norm_num)

/-- The components of the vector `CreateMouseEvent` converts have the signs of
the readings. -/
theorem mouseVector_sign (InvSqrt : ℚ → ℚ) (dx dy : ℤ)
    (hx : |dx| ≤ 32767) (hy : |dy| ≤ 32767)
    (hinv : 0 ≤ InvSqrt (axisVector dx dy).LengthSqr) :
    (0 ≤ dx → 0 ≤ (mouseVector InvSqrt dx dy).x) ∧
    (dx ≤ 0 → (mouseVector InvSqrt dx dy).x ≤ 0) ∧
    (0 ≤ dy → 0 ≤ (mouseVector InvSqrt dx dy).y) ∧
    (dy ≤ 0 → (mouseVector InvSqrt dx dy).y ≤ 0) := by
  obtain ⟨_, c2, c3⟩ := floatConstants
  obtain ⟨sx1, sx2⟩ := scaled_sign dx hx
  obtain ⟨sy1, sy2⟩ := scaled_sign dy hy
  have hil : 0 ≤ fmul 15 (InvSqrt (axisVector dx dy).LengthSqr) :=
    toFloat_nonneg _ (mul_nonneg (by norm_num) hinv)
  unfold mouseVector idVec2.Truncate
  rw [c2, c3, if_neg (by norm_num)]
  split_ifs with hL
  · refine ⟨fun h => ?_, fun h => ?_, fun h => ?_, fun h => ?_⟩
    · exact toFloat_nonneg _ (mul_nonneg (sx1 h) hil)
    · exact toFloat_nonpos _ (mul_nonpos_of_nonpos_of_nonneg (sx2 h) hil)
    · exact toFloat_nonneg _ (mul_nonneg (sy1 h) hil)
    · exact toFloat_nonpos _ (mul_nonpos_of_nonpos_of_nonneg (sy2 h) hil)
  · exact ⟨sx1, sx2, sy1, sy2⟩

/-- The dead zone: for readings of magnitude at most 2184 the vector is not
clamped and both of its components are below 1 in magnitude. -/
theorem mouseVector_deadZone (InvSqrt : ℚ → ℚ) (dx dy : ℤ)
    (hx : |dx| ≤ 2184) (hy : |dy| ≤ 2184) :
    mouseVector InvSqrt dx dy = axisVector dx dy ∧
    |(axisVector dx dy).x| < 1 ∧ |(axisVector dx dy).y| < 1 := by
  obtain ⟨ex, ey, bx, by'⟩ := axisVector_error dx dy (hx.trans (by norm_num))
    (hy.trans (by norm_num))
  obtain ⟨_, c2, c3⟩ := floatConstants
  have key : ∀ n : ℤ, |n| ≤ 2184 → |(15 : ℚ) * n / 32767| ≤ 32760 / 32767 := by
    intro n h
    have hn : |(n : ℚ)| ≤ 2184 := by
      have : ((|n| : ℤ) : ℚ) ≤ ((2184 : ℤ) : ℚ) := by exact_mod_cast h
      simpa using this
    rw [abs_div, abs_mul, abs_of_pos (by norm_num : (0 : ℚ) < 15),
      abs_of_pos (by norm_num : (0 : ℚ) < 32767), div_le_div_iff_of_pos_right (by norm_num)]
    linarith
  have small : ∀ (z : ℚ) (n : ℤ), |n| ≤ 2184 → |z - 15 * n / 32767| ≤ 1 / 2 ^ 18 → |z| < 1 := by
    intro z n h he
    have := abs_sub_abs_le_abs_sub z (15 * n / 32767)
    have := key n h
    have : (32760 : ℚ) / 32767 + 1 / 2 ^ 18 < 1 := by norm_num
    linarith
  have h1 := small _ dx hx ex
  have h2 := small _ dy hy ey
  refine ⟨?_, h1, h2⟩
  have hs := LengthSqr_error (axisVector dx dy) bx by'
  rw [abs_le] at hs
  have sq : ∀ z : ℚ, |z| < 1 → z * z ≤ 1 := by
    intro z hz
    have := abs_mul_abs_self z
    have : |z| * |z| ≤ 1 * 1 := mul_le_mul hz.le hz.le (abs_nonneg _) (by norm_num)
    linarith
  have := sq _ h1
  have := sq _ h2
  unfold mouseVector idVec2.Truncate
  rw [c2, c3, if_neg (by norm_num), if_neg]
  have : (1 : ℚ) / 2 ^ 13 ≤ 1 := by norm_num
  linarith [hs.2]

/-- What the conversion to `int` makes of a vector of squared magnitude within
1/2 of 225: a pair of integers inside the circle of radius 15 and within one
unit, in each component, of its outside. -/
theorem floatToInt_circle (a b : ℚ) (h : |a * a + b * b - 225| ≤ 1 / 2) :
    floatToInt a ^ 2 + floatToInt b ^ 2 ≤ 225 ∧
    225 ≤ (|floatToInt a| + 1) ^ 2 + (|floatToInt b| + 1) ^ 2 := by
  rw [abs_le] at h
  have ha := floatToInt_sq_le a
  have hb := floatToInt_sq_le b
  have ga := floatToInt_sq_gt a
  have gb := floatToInt_sq_gt b
  constructor
  · have : ((floatToInt a ^ 2 + floatToInt b ^ 2 : ℤ) : ℚ) < 226 := by
      push_cast
      nlinarith [h.2]
    have : floatToInt a ^ 2 + floatToInt b ^ 2 < 226 := by exact_mod_cast this
    omega
  · have : (224 : ℚ) < (((|floatToInt a| + 1) ^ 2 + (|floatToInt b| + 1) ^ 2 : ℤ) : ℚ) := by
      push_cast at ga gb ⊢
      nlinarith [h.1]
    have : 224 < (|floatToInt a| + 1) ^ 2 + (|floatToInt b| + 1) ^ 2 := by exact_mod_cast this
    omega

/-- The reciprocal square root of the examples is accurate. -/
theorem sampleInvSqrt_accurate (x : ℚ) (h1 : 1 ≤ x) (h2 : x ≤ 2 ^ 20) :
    InvSqrtAccurate (sampleInvSqrt x) x := by
  have hx0 : (0 : ℚ) ≤ x * 2 ^ 48 := by positivity
  have hN1 : ((⌊x * 2 ^ 48⌋₊ : ℕ) : ℚ) ≤ x * 2 ^ 48 := Nat.floor_le hx0
  have hN2 : x * 2 ^ 48 < ((⌊x * 2 ^ 48⌋₊ : ℕ) : ℚ) + 1 := Nat.lt_floor_add_one _
  set N := ⌊x * 2 ^ 48⌋₊ with hN
  set s := Nat.sqrt N with hs
  have hs1 : s * s ≤ N := by
    have := Nat.sqrt_le' N
    rw [pow_two] at this
    exact this
  have hs2 : N < (s + 1) * (s + 1) := by
    have := Nat.lt_succ_sqrt' N
    rw [pow_two] at this
    exact this
  have hNlo : 2 ^ 48 ≤ N := by
    rw [hN]
    apply Nat.le_floor
    push_cast
    nlinarith
  have hslo : 2 ^ 24 ≤ s := by
    rw [hs, Nat.le_sqrt]
    calc 2 ^ 24 * 2 ^ 24 = 2 ^ 48 := by norm_num
      _ ≤ N := hNlo
  have hNhi : N ≤ 2 ^ 68 := by
    have : (N : ℚ) ≤ 2 ^ 68 := by
      refine hN1.trans ?_
      calc x * 2 ^ 48 ≤ 2 ^ 20 * 2 ^ 48 := by nlinarith
        _ = 2 ^ 68 := by norm_num
    exact_mod_cast this
  have hshi : s ≤ 2 ^ 34 := by
    by_contra hcon
    push_neg at hcon
    have : 2 ^ 34 * 2 ^ 34 < s * s := Nat.mul_self_lt_mul_self hcon
    have : (2 : ℕ) ^ 34 * 2 ^ 34 = 2 ^ 68 := by norm_num
    omega
  have hsq : (0 : ℚ) < s := by
    have : (0 : ℕ) < s := lt_of_lt_of_le (by norm_num) hslo
    exact_mod_cast this
  have hs1q : (s : ℚ) * s ≤ x * 2 ^ 48 := by
    have : ((s * s : ℕ) : ℚ) ≤ (N : ℚ) := by exact_mod_cast hs1
    push_cast at this
    linarith
  have hs2q : x * 2 ^ 48 < ((s : ℚ) + 1) * (s + 1) := by
    have : ((N + 1 : ℕ) : ℚ) ≤ (((s + 1) * (s + 1) : ℕ) : ℚ) := by exact_mod_cast hs2
    push_cast at this
    linarith
  have hsloq : (2 : ℚ) ^ 24 ≤ s := by exact_mod_cast hslo
  have hshiq : (s : ℚ) ≤ 2 ^ 34 := by exact_mod_cast hshi
  -- the quotient before rounding
  set r0 : ℚ := 2 ^ 24 / (s : ℚ) with hr0
  have hr0pos : 0 < r0 := by positivity
  have hr0le : r0 ≤ 1 := by
    rw [hr0, div_le_one hsq]
    exact hsloq
  have hr0ge : 1 / 2 ^ 10 ≤ r0 := by
    rw [hr0, div_le_div_iff₀ (by positivity) hsq]
    calc 1 * (s : ℚ) ≤ 2 ^ 34 := by linarith
      _ = 2 ^ 24 * 2 ^ 10 := by norm_num
  have hr0s : r0 * s = 2 ^ 24 := by
    rw [hr0]
    field_simp
  have hlo : 1 ≤ r0 * r0 * x := by
    have : r0 * r0 * (x * 2 ^ 48) ≥ r0 * r0 * (s * s) :=
      mul_le_mul_of_nonneg_left hs1q (by positivity)
    have e : r0 * r0 * ((s : ℚ) * s) = 2 ^ 48 := by
      calc r0 * r0 * ((s : ℚ) * s) = (r0 * s) * (r0 * s) := by ring
        _ = 2 ^ 48 := by rw [hr0s]; norm_num
    nlinarith
  have hhi : r0 * r0 * x ≤ (1 + 1 / 2 ^ 24) * (1 + 1 / 2 ^ 24) := by
    have h3 : r0 * r0 * (x * 2 ^ 48) ≤ r0 * r0 * (((s : ℚ) + 1) * (s + 1)) :=
      mul_le_mul_of_nonneg_left hs2q.le (by positivity)
    have e : r0 * r0 * (((s : ℚ) + 1) * (s + 1)) = (2 ^ 24 + r0) * (2 ^ 24 + r0) := by
      calc r0 * r0 * (((s : ℚ) + 1) * (s + 1)) = (r0 * s + r0) * (r0 * s + r0) := by ring
        _ = _ := by rw [hr0s]
    have h4 : (2 ^ 24 + r0) * (2 ^ 24 + r0) ≤ (2 ^ 24 + 1) * (2 ^ 24 + 1) :=
      mul_le_mul (by linarith) (by linarith) (by positivity) (by positivity)
    have h5 : r0 * r0 * x * 2 ^ 48 ≤ ((2 : ℚ) ^ 24 + 1) * (2 ^ 24 + 1) := by
      calc r0 * r0 * x * 2 ^ 48 = r0 * r0 * (x * 2 ^ 48) := by ring
        _ ≤ _ := by linarith
    have h6 : ((2 : ℚ) ^ 24 + 1) * (2 ^ 24 + 1) =
        (1 + 1 / 2 ^ 24) * (1 + 1 / 2 ^ 24) * 2 ^ 48 := by norm_num
    rw [h6] at h5
    exact le_of_mul_le_mul_right h5 (by positivity)
  -- the rounding
  have herr := toFloat_error r0
  rw [abs_of_pos hr0pos, abs_le] at herr
  have ht : (1 : ℚ) / 2 ^ 150 ≤ r0 / 2 ^ 24 := by
    rw [div_le_div_iff₀ (by positivity) (by positivity)]
    calc (1 : ℚ) * 2 ^ 24 ≤ 1 / 2 ^ 10 * 2 ^ 150 := by norm_num
      _ ≤ r0 * 2 ^ 150 := by nlinarith
  have hrlo : r0 * (1 - 1 / 2 ^ 23) ≤ sampleInvSqrt x := by
    have : sampleInvSqrt x = toFloat r0 := rfl
    rw [this]
    have : r0 * (1 - 1 / 2 ^ 23) = r0 - (r0 / 2 ^ 24 + r0 / 2 ^ 24) := by ring
    linarith [herr.1]
  have hrhi : sampleInvSqrt x ≤ r0 * (1 + 1 / 2 ^ 23) := by
    have : sampleInvSqrt x = toFloat r0 := rfl
    rw [this]
    have : r0 * (1 + 1 / 2 ^ 23) = r0 + (r0 / 2 ^ 24 + r0 / 2 ^ 24) := by ring
    linarith [herr.2]
  have hrpos : 0 < sampleInvSqrt x := by
    refine lt_of_lt_of_le ?_ hrlo
    exact mul_pos hr0pos (by norm_num)
  have hxpos : 0 < x := by linarith
  refine ⟨hrpos, ?_, ?_⟩
  · have h3 : (r0 * (1 - 1 / 2 ^ 23)) * (r0 * (1 - 1 / 2 ^ 23)) ≤
        sampleInvSqrt x * sampleInvSqrt x :=
      mul_le_mul hrlo hrlo (mul_nonneg hr0pos.le (by norm_num)) hrpos.le
    have h4 : (r0 * (1 - 1 / 2 ^ 23)) * (r0 * (1 - 1 / 2 ^ 23)) * x ≤
        sampleInvSqrt x * sampleInvSqrt x * x := mul_le_mul_of_nonneg_right h3 hxpos.le
    have h5 : (r0 * (1 - 1 / 2 ^ 23)) * (r0 * (1 - 1 / 2 ^ 23)) * x =
        (r0 * r0 * x) * ((1 - 1 / 2 ^ 23) * (1 - 1 / 2 ^ 23)) := by ring
    have h6 : (1 : ℚ) * ((1 - 1 / 2 ^ 23) * (1 - 1 / 2 ^ 23)) ≤
        (r0 * r0 * x) * ((1 - 1 / 2 ^ 23) * (1 - 1 / 2 ^ 23)) :=
      mul_le_mul_of_nonneg_right hlo (by norm_num)
    have h7 : (1 - 1 / 2 ^ 10 : ℚ) * (1 - 1 / 2 ^ 10) ≤
        1 * ((1 - 1 / 2 ^ 23) * (1 - 1 / 2 ^ 23)) := by norm_num
    linarith
  · have h3 : sampleInvSqrt x * sampleInvSqrt x ≤
        (r0 * (1 + 1 / 2 ^ 23)) * (r0 * (1 + 1 / 2 ^ 23)) :=
      mul_le_mul hrhi hrhi hrpos.le (mul_nonneg hr0pos.le (by norm_num))
    have h4 : sampleInvSqrt x * sampleInvSqrt x * x ≤
        (r0 * (1 + 1 / 2 ^ 23)) * (r0 * (1 + 1 / 2 ^ 23)) * x :=
      mul_le_mul_of_nonneg_right h3 hxpos.le
    have h5 : (r0 * (1 + 1 / 2 ^ 23)) * (r0 * (1 + 1 / 2 ^ 23)) * x =
        (r0 * r0 * x) * ((1 + 1 / 2 ^ 23) * (1 + 1 / 2 ^ 23)) := by ring
    have h6 : (r0 * r0 * x) * ((1 + 1 / 2 ^ 23) * (1 + 1 / 2 ^ 23)) ≤
        ((1 + 1 / 2 ^ 24) * (1 + 1 / 2 ^ 24)) * ((1 + 1 / 2 ^ 23) * (1 + 1 / 2 ^ 23)) :=
      mul_le_mul_of_nonneg_right hhi (by norm_num)
    have h7 : ((1 + 1 / 2 ^ 24 : ℚ) * (1 + 1 / 2 ^ 24)) * ((1 + 1 / 2 ^ 23) * (1 + 1 / 2 ^ 23)) ≤
        (1 + 1 / 2 ^ 10) * (1 + 1 / 2 ^ 10) := by norm_num
    linarith

/-- The squared magnitude of `axisVector`, in `float` arithmetic, for readings
whose scaled vector has magnitude above 15. -/
theorem axisVector_LengthSqr_bounds (dx dy : ℤ) (hx : |dx| ≤ 32767) (hy : |dy| ≤ 32767)
    (hmag : 32767 ^ 2 < dx ^ 2 + dy ^ 2) :
    1 ≤ (axisVector dx dy).LengthSqr ∧ (axisVector dx dy).LengthSqr ≤ 2 ^ 20 := by
  obtain ⟨_, _, bx, by'⟩ := axisVector_error dx dy hx hy
  have hs := LengthSqr_error (axisVector dx dy) bx by'
  have hsq := axisVector_sq dx dy hx hy hmag
  rw [abs_le] at hs
  have sqb : ∀ z : ℚ, |z| ≤ 16 → z * z ≤ 256 := by
    intro z hz
    have := abs_mul_abs_self z
    have h2 : |z| * |z| ≤ 16 * 16 := mul_le_mul hz hz (abs_nonneg _) (by norm_num)
    linarith
  have := sqb _ bx
  have := sqb _ by'
  constructor
  · have : (1 : ℚ) / 2 ^ 13 + 1 / 2 ^ 12 ≤ 1 := by norm_num
    linarith [hs.1]
  · have : (1 : ℚ) / 2 ^ 13 + 512 ≤ 2 ^ 20 := by norm_num
    linarith [hs.2]

/-! ## The radial clamp -/

/-- No `float` has a square of which the double is 225. -/
theorem two_mul_sq_ne (q : ℚ) : q * q + q * q ≠ 225 := by
  intro h
  have h2 : (2 * q / 15) * (2 * q / 15) = 2 := by
    field_simp
    linarith
  have hirr := irrational_sqrt_two
  have hr : ((|2 * q / 15| : ℚ) : ℝ) = Real.sqrt 2 := by
    have h3 : (((2 * q / 15) * (2 * q / 15) : ℚ) : ℝ) = 2 := by rw [h2]; norm_num
    rw [Rat.cast_abs, ← Real.sqrt_mul_self_eq_abs]
    congr 1
    exact_mod_cast h3
  exact hirr.ne_rat _ hr.symm

/-- The vector of `CreateMouseEvent` for both readings at 32767, before
`Truncate`, and its squared magnitude in `float` arithmetic. -/
theorem axisVector_corner :
    (axisVector 32767 32767).x = 15 ∧ (axisVector 32767 32767).y = 15 ∧
    (axisVector 32767 32767).LengthSqr = 450 := by
  obtain ⟨c1, c2, c3⟩ := floatConstants
  have h1 : toFloat 1 = 1 := by simpa using toFloat_intCast 1 (by norm_num)
  have h450 : toFloat 450 = 450 := by simpa using toFloat_intCast 450 (by norm_num)
  have hx : (axisVector 32767 32767).x = 15 := by
    unfold axisVector
    dsimp only
    rw [c1, c2, intToFloat_eq 32767 (by norm_num)]
    unfold fdiv
    have : ((32767 : ℤ) : ℚ) / 32767 = 1 := by norm_num
    rw [this, h1]
    unfold fmul
    rw [one_mul]
    have := toFloat_intCast 15 (by norm_num)
    simpa using this
  have hy : (axisVector 32767 32767).y = 15 := hx
  refine ⟨hx, hy, ?_⟩
  unfold idVec2.LengthSqr
  rw [hx, hy, c3]
  unfold fadd
  norm_num
  exact h450

/-- C16 (as amended). Radial clamp, `float` being IEEE binary32 and
`idVec2::Truncate` as modelled: for `dx`, `dy` in the device range
`[-32767, 32767]` whose scaled vector has magnitude above `mouseSpeed = 15`
(`dx ^ 2 + dy ^ 2 > 32767 ^ 2`), and `InvSqrt` accurate to `2 ^ (-10)` at the
squared magnitude of the vector, `CreateMouseEvent( dx, dy )` has kind
`SE_MOUSE` and its deltas are the components of the vector after `Truncate`
converted to `int`.  Before the conversion that vector has magnitude
`mouseSpeed` up to the rounding of the `float` operations (its squared
magnitude is within 1/2 of 225) and is, up to `2 ^ (-16)` in each component, a
positive multiple of the exact scaled vector.  The delta has magnitude
`mouseSpeed` within the rounding of the integer conversion:
`evValue ^ 2 + evValue2 ^ 2 <= 225 <= (|evValue| + 1) ^ 2 + (|evValue2| + 1) ^ 2`;
and each delta has the sign of its reading, or is zero. -/
theorem C16_radial_clamp (H : Decls) (dx dy : Int)
    (hx : |dx| ≤ 32767) (hy : |dy| ≤ 32767) (hmag : 32767 ^ 2 < dx ^ 2 + dy ^ 2)
    (hinv : InvSqrtAccurate (H.InvSqrt (axisVector dx dy).LengthSqr)
      (axisVector dx dy).LengthSqr) :
    (CreateMouseEvent H dx dy).evType = SE_MOUSE ∧
    (CreateMouseEvent H dx dy).evValue = floatToInt (mouseVector H.InvSqrt dx dy).x ∧
    (CreateMouseEvent H dx dy).evValue2 = floatToInt (mouseVector H.InvSqrt dx dy).y ∧
    |(mouseVector H.InvSqrt dx dy).x * (mouseVector H.InvSqrt dx dy).x +
      (mouseVector H.InvSqrt dx dy).y * (mouseVector H.InvSqrt dx dy).y - 225| ≤ 1 / 2 ∧
    (∃ k : ℚ, 1 / 2 ≤ k ∧ k ≤ 2 ∧
      |(mouseVector H.InvSqrt dx dy).x - k * (15 * dx / 32767)| ≤ 1 / 2 ^ 16 ∧
      |(mouseVector H.InvSqrt dx dy).y - k * (15 * dy / 32767)| ≤ 1 / 2 ^ 16) ∧
    (CreateMouseEvent H dx dy).evValue ^ 2 + (CreateMouseEvent H dx dy).evValue2 ^ 2 ≤ 225 ∧
    225 ≤ (|(CreateMouseEvent H dx dy).evValue| + 1) ^ 2 +
      (|(CreateMouseEvent H dx dy).evValue2| + 1) ^ 2 ∧
    (0 ≤ dx → 0 ≤ (CreateMouseEvent H dx dy).evValue) ∧
    (dx ≤ 0 → (CreateMouseEvent H dx dy).evValue ≤ 0) ∧
    (0 ≤ dy → 0 ≤ (CreateMouseEvent H dx dy).evValue2) ∧
    (dy ≤ 0 → (CreateMouseEvent H dx dy).evValue2 ≤ 0) := by
  obtain ⟨hm, hk⟩ := mouseVector_clamped H.InvSqrt dx dy hx hy hmag hinv
  obtain ⟨h1, h2⟩ := floatToInt_circle _ _ hm
  obtain ⟨s1, s2, s3, s4⟩ := mouseVector_sign H.InvSqrt dx dy hx hy hinv.1.le
  refine ⟨rfl, rfl, rfl, hm, hk, h1, h2, ?_, ?_, ?_, ?_⟩
  · exact fun h => (floatToInt_sign _).1 (s1 h)
  · exact fun h => (floatToInt_sign _).2 (s2 h)
  · exact fun h => (floatToInt_sign _).1 (s3 h)
  · exact fun h => (floatToInt_sign _).2 (s4 h)

/-- C16 (as amended) at a concrete input: the readings `(32767, -32767)` with
the reciprocal square root of the examples. -/
theorem C16_radial_clamp_witness :
    (CreateMouseEvent sampleDecls 32767 (-32767)).evValue ^ 2 +
      (CreateMouseEvent sampleDecls 32767 (-32767)).evValue2 ^ 2 ≤ 225 ∧
    225 ≤ (|(CreateMouseEvent sampleDecls 32767 (-32767)).evValue| + 1) ^ 2 +
      (|(CreateMouseEvent sampleDecls 32767 (-32767)).evValue2| + 1) ^ 2 :=
  ⟨(C16_radial_clamp sampleDecls 32767 (-32767) (by decide) (by decide) (by decide)
      (sampleInvSqrt_accurate _
        (axisVector_LengthSqr_bounds 32767 (-32767) (by decide) (by decide) (by decide)).1
        (axisVector_LengthSqr_bounds 32767 (-32767) (by decide) (by decide)
          (by decide)).2)).2.2.2.2.2.1,
    (C16_radial_clamp sampleDecls 32767 (-32767) (by decide) (by decide) (by decide)
      (sampleInvSqrt_accurate _
        (axisVector_LengthSqr_bounds 32767 (-32767) (by decide) (by decide) (by decide)).1
        (axisVector_LengthSqr_bounds 32767 (-32767) (by decide) (by decide)
          (by decide)).2)).2.2.2.2.2.2.1⟩

/-- C16, as stated, fails.  For `dx = dy = 32767` the scaled vector is
`(15, 15)`, of magnitude above 15, and its squared magnitude in `float`
arithmetic is 450, so `Truncate` clamps it; the two components of the clamped
vector are the same `float`, and no `float` `q` has `q * q + q * q = 225`: the
magnitude of the clamped vector is not exactly `mouseSpeed`. -/
theorem C16_radial_clamp_counterexample :
    (32767 : Int) ^ 2 < (32767 : Int) ^ 2 + (32767 : Int) ^ 2 ∧
    (axisVector 32767 32767).x = 15 ∧ (axisVector 32767 32767).y = 15 ∧
    (axisVector 32767 32767).LengthSqr = 450 ∧
    (mouseVector sampleDecls.InvSqrt 32767 32767).x =
      (mouseVector sampleDecls.InvSqrt 32767 32767).y ∧
    (mouseVector sampleDecls.InvSqrt 32767 32767).x *
        (mouseVector sampleDecls.InvSqrt 32767 32767).x +
      (mouseVector sampleDecls.InvSqrt 32767 32767).y *
        (mouseVector sampleDecls.InvSqrt 32767 32767).y ≠ 225 := by
  have he : (mouseVector sampleDecls.InvSqrt 32767 32767).x =
      (mouseVector sampleDecls.InvSqrt 32767 32767).y := by
    unfold mouseVector idVec2.Truncate axisVector
    split_ifs <;> rfl
  refine ⟨by decide, axisVector_corner.1, axisVector_corner.2.1, axisVector_corner.2.2, he, ?_⟩
  rw [← he]
  exact two_mul_sq_ne _

/-! ## The real source -/

theorem journalEvents_fuel (H : Decls) (hsize : 0 < H.layout.size) :
    ∀ (k k' : Nat) (bs : List byte) (la : Nat), bs.length < k → bs.length < k' →
      journalEvents H k bs la = journalEvents H k' bs la := by
  intro k
  induction k with
  | zero => intro k' bs la h; omega
  | succ k ih =>
    intro k' bs la h h'
    cases k' with
    | zero => omega
    | succ k' =>
      unfold journalEvents
      by_cases h1 : (bs.take H.layout.size).length ≠ H.layout.size
      · rw [if_pos h1, if_pos h1]
      · rw [if_neg h1, if_neg h1]
        have hlen : H.layout.size ≤ bs.length := by
          have := not_not.mp h1
          rw [List.length_take] at this
          omega
        have hd : (bs.drop H.layout.size).length < bs.length := by
          rw [List.length_drop]
          omega
        by_cases h2 : (H.layout.decode (bs.take H.layout.size)).evPtrLength ≠ 0
        · rw [if_pos h2, if_pos h2]
          by_cases h3 : ((bs.drop H.layout.size).take
              (H.layout.decode (bs.take H.layout.size)).evPtrLength).length ≠
              (H.layout.decode (bs.take H.layout.size)).evPtrLength
          · rw [if_pos h3, if_pos h3]
          · rw [if_neg h3, if_neg h3]
            have hd2 : ((bs.drop H.layout.size).drop
                (H.layout.decode (bs.take H.layout.size)).evPtrLength).length < bs.length := by
              rw [List.length_drop]
              omega
            rw [ih k' _ _ (by omega) (by omega)]
        · rw [if_neg h2, if_neg h2]
          rw [ih k' _ _ (by omega) (by omega)]

theorem realSource_frame (H : Decls) (w w' : World) (h : DispatchFrame w w') :
    realSource H w' = realSource H w := by
  obtain ⟨h1, h2, _, _, _, _, _, h8, h9⟩ := h
  unfold realSource
  rw [h1, h2, h8, h9]

theorem realSource_emit (H : Decls) (w : World) (e : Effect) :
    realSource H (w.emit e) = realSource H w := rfl

theorem realSource_playback (H : Decls) (w : World) (f : idFile) (h2 : w.com_journal = 2)
    (hf : w.com_journalFile = some f) :
    realSource H w =
      journalEvents H ((f.data.drop f.pos).length + 1) (f.data.drop f.pos) w.lastAlloc := by
  unfold realSource
  rw [if_pos h2, hf]

theorem journalEvents_succ (H : Decls) (k : Nat) (bs : List byte) (la : Nat) :
    journalEvents H (k + 1) bs la =
      if (bs.take H.layout.size).length ≠ H.layout.size then []
      else if (H.layout.decode (bs.take H.layout.size)).evPtrLength ≠ 0 then
        if ((bs.drop H.layout.size).take
            (H.layout.decode (bs.take H.layout.size)).evPtrLength).length ≠
            (H.layout.decode (bs.take H.layout.size)).evPtrLength then []
        else
          { H.layout.decode (bs.take H.layout.size) with evPtr := la + 1 } ::
            journalEvents H k
              ((bs.drop H.layout.size).drop (H.layout.decode (bs.take H.layout.size)).evPtrLength)
              (la + 1)
      else
        H.layout.decode (bs.take H.layout.size) :: journalEvents H k (bs.drop H.layout.size) la :=
  rfl

/-- What a `GetRealEvent` call that returns has taken from the real source. -/
theorem GetRealEvent_source (H : Decls) (w : World)
    (hsize : w.com_journal = 2 → 0 < H.layout.size) (e : sysEvent_t) (w2 : World)
    (h : GetRealEvent H w = .ok e w2) :
    ∃ X, realSource H w = e :: X ∧ (e.evType ≠ SE_NONE → realSource H w2 = X) := by
  by_cases h2 : w.com_journal = 2
  · have hs := hsize h2
    unfold GetRealEvent at h
    rw [if_pos h2] at h
    unfold GetRealEvent_playback at h
    cases hf : w.com_journalFile with
    | none =>
      rw [hf] at h
      cases h
    | some f =>
      rw [hf] at h
      dsimp only at h
      rw [realSource_playback H w f h2 hf]
      have hr1 : (f.Read H.layout.size).1 = (f.data.drop f.pos).take H.layout.size := rfl
      generalize hbs : f.data.drop f.pos = bs at hr1 ⊢
      rw [journalEvents_succ]
      by_cases h1 : (bs.take H.layout.size).length ≠ H.layout.size
      · rw [if_pos (by rw [hr1]; exact h1)] at h
        cases h
      · rw [if_neg (by rw [hr1]; exact h1)] at h
        rw [if_neg h1]
        have hlen : H.layout.size ≤ bs.length := by
          have := not_not.mp h1
          rw [List.length_take] at this
          omega
        rw [hr1] at h
        have hpos : (f.Read H.layout.size).2.pos = f.pos + H.layout.size := by
          show f.pos + ((f.data.drop f.pos).take H.layout.size).length = _
          rw [hbs, not_not.mp h1]
        have hdata : (f.Read H.layout.size).2.data = f.data := rfl
        by_cases h3 : (H.layout.decode (bs.take H.layout.size)).evPtrLength ≠ 0
        · rw [if_pos h3] at h
          rw [if_pos h3]
          have hr2 : ((f.Read H.layout.size).2.Read
              (H.layout.decode (bs.take H.layout.size)).evPtrLength).1 =
              (bs.drop H.layout.size).take
                (H.layout.decode (bs.take H.layout.size)).evPtrLength := by
            show (((f.Read H.layout.size).2.data.drop (f.Read H.layout.size).2.pos).take _) = _
            rw [hdata, hpos, ← List.drop_drop, hbs]
          rw [hr2] at h
          by_cases h4 : ((bs.drop H.layout.size).take
              (H.layout.decode (bs.take H.layout.size)).evPtrLength).length ≠
              (H.layout.decode (bs.take H.layout.size)).evPtrLength
          · rw [if_pos h4] at h
            cases h
          · rw [if_neg h4] at h
            rw [if_neg h4]
            injection h with he hw
            refine ⟨_, by rw [← he]; rfl, ?_⟩
            intro _
            have hpos2 : ((f.Read H.layout.size).2.Read
                (H.layout.decode (bs.take H.layout.size)).evPtrLength).2.pos =
                f.pos + H.layout.size +
                  (H.layout.decode (bs.take H.layout.size)).evPtrLength := by
              show (f.Read H.layout.size).2.pos + ((f.Read H.layout.size).2.Read
                (H.layout.decode (bs.take H.layout.size)).evPtrLength).1.length = _
              rw [hr2, hpos, not_not.mp h4]
            have hdata2 : ((f.Read H.layout.size).2.Read
                (H.layout.decode (bs.take H.layout.size)).evPtrLength).2.data = f.data := rfl
            rw [realSource_playback H w2 _ (by rw [← hw]; exact h2) (by rw [← hw])]
            rw [hdata2, hpos2, ← List.drop_drop, ← List.drop_drop, hbs]
            have hla : w2.lastAlloc = w.lastAlloc + 1 := by rw [← hw]; rfl
            rw [hla]
            apply journalEvents_fuel H hs
            · omega
            · rw [List.length_drop, List.length_drop]
              omega
        · rw [if_neg h3] at h
          rw [if_neg h3]
          injection h with he hw
          refine ⟨_, by rw [← he], ?_⟩
          intro _
          rw [realSource_playback H w2 _ (by rw [← hw]; exact h2) (by rw [← hw])]
          rw [hdata, hpos, ← List.drop_drop, hbs]
          have hla : w2.lastAlloc = w.lastAlloc := by rw [← hw]
          rw [hla]
          apply journalEvents_fuel H hs
          · omega
          · rw [List.length_drop]
            omega
  · have hrs : realSource H w = w.sysEvents ++ [noneEvent] := by
      unfold realSource
      rw [if_neg h2]
    by_cases h1 : w.com_journal = 1
    · cases hf : w.com_journalFile with
      | none =>
        exfalso
        unfold GetRealEvent at h
        rw [if_neg h2] at h
        dsimp only at h
        have hm : (Sys_GetEvent w).2.com_journal = 1 := by
          unfold Sys_GetEvent
          cases w.sysEvents <;> simpa [World.emit] using h1
        have hn : (Sys_GetEvent w).2.com_journalFile = none := by
          unfold Sys_GetEvent
          cases w.sysEvents <;> simpa [World.emit] using hf
        rw [if_pos hm] at h
        unfold GetRealEvent_record at h
        rw [hn] at h
        cases h
      | some f =>
        obtain ⟨he, hm, _, _, _, hs, _⟩ := GetRealEvent_mode1_ok H w f e w2 h1 hf h
        rw [hrs]
        cases hq : w.sysEvents with
        | nil =>
          rw [hq] at he
          refine ⟨[], by rw [he]; rfl, ?_⟩
          intro hne
          rw [he] at hne
          exact absurd rfl hne
        | cons q qs =>
          rw [hq] at he hs
          refine ⟨qs ++ [noneEvent], by rw [he]; rfl, ?_⟩
          intro _
          unfold realSource
          rw [if_neg (by rw [hm]; decide), hs]
          rfl
    · rw [GetRealEvent_live H w h1 h2] at h
      injection h with he hw
      rw [hrs]
      cases hq : w.sysEvents with
      | nil =>
        rw [hq] at he
        refine ⟨[], by rw [← he]; rfl, ?_⟩
        intro hne
        rw [← he] at hne
        exact absurd rfl hne
      | cons q qs =>
        rw [hq] at he hw
        refine ⟨qs ++ [noneEvent], by rw [← he]; rfl, ?_⟩
        intro _
        rw [← hw]
        unfold realSource
        dsimp only
        rw [if_neg h2]
        rfl

/-! ## Every pass ends -/

theorem GetRealEvent_playback_batches (H : Decls) (w : World) :
    (GetRealEvent_playback H w).world.sysBatches = w.sysBatches ∧
      (GetRealEvent_playback H w).world.com_pushedEvents = w.com_pushedEvents := by
  unfold GetRealEvent_playback
  split
  · simp [Outcome.world]
  · dsimp only
    split_ifs <;> simp [Outcome.world, Mem_ClearedAlloc]

theorem GetRealEvent_record_batches (H : Decls) (w : World) (ev : sysEvent_t) :
    (GetRealEvent_record H w ev).world.sysBatches = w.sysBatches ∧
      (GetRealEvent_record H w ev).world.com_pushedEvents = w.com_pushedEvents := by
  unfold GetRealEvent_record
  split
  · simp [Outcome.world]
  · dsimp only
    split_ifs
    · simp [Outcome.world]
    · split
      · simp [Outcome.world]
      · split_ifs <;> simp [Outcome.world]
    · simp [Outcome.world]

theorem Sys_GetEvent_batches (w : World) :
    (Sys_GetEvent w).2.sysBatches = w.sysBatches ∧
      (Sys_GetEvent w).2.com_pushedEvents = w.com_pushedEvents := by
  unfold Sys_GetEvent
  cases w.sysEvents <;> simp [World.emit]

theorem GetRealEvent_batches (H : Decls) (w : World) :
    (GetRealEvent H w).world.sysBatches = w.sysBatches ∧
      (GetRealEvent H w).world.com_pushedEvents = w.com_pushedEvents := by
  unfold GetRealEvent
  dsimp only
  split_ifs
  · exact GetRealEvent_playback_batches H w
  · exact ⟨(GetRealEvent_record_batches H _ _).1.trans (Sys_GetEvent_batches w).1,
      (GetRealEvent_record_batches H _ _).2.trans (Sys_GetEvent_batches w).2⟩
  · exact Sys_GetEvent_batches w

theorem available_frame (H : Decls) (w w' : World) (h : DispatchFrame w w') :
    available H w' = available H w := by
  unfold available
  rw [ringContents_frame H w w' h, realSource_frame H w w' h]

/-- What a fetch from the real source leaves alone: the ring buffer, the
secondary batches, the events dispatched so far. -/
theorem GetRealEvent_fetch (H : Decls) (v : World) (o : Outcome sysEvent_t)
    (hring : ¬ v.com_pushedEventsTail < v.com_pushedEventsHead)
    (hg : GetRealEvent H (v.emit Effect.GetEvent) = o) :
    GetEvent H v = o ∧ ringContents H o.world = [] ∧ o.world.sysBatches = v.sysBatches ∧
      dispatched o.world.trace = dispatched v.trace ∧ o.world.com_journal = v.com_journal := by
  have hc := GetRealEvent_counters H (v.emit Effect.GetEvent)
  have hb := GetRealEvent_batches H (v.emit Effect.GetEvent)
  have hd := GetRealEvent_dispatched H (v.emit Effect.GetEvent)
  have hj := GetRealEvent_journal H (v.emit Effect.GetEvent)
  rw [hg] at hc hb hd hj
  refine ⟨by rw [GetEvent_empty H v hring, hg], ?_, hb.1, ?_, hj⟩
  · apply ringContents_empty
    rw [hc.1, hc.2]
    exact hring
  · rw [hd]
    simp [World.emit, dispatched_append, dispatched]

/-- Every run of the loop of `RunEventLoop` ends, given iterations for the
events of the ring buffer and of the real source.  Its primary events are an
initial segment of the events available, all of them when it returns; after
each it has dispatched the secondary events reported after it. -/
theorem RunEventLoop_loop_ends (H : Decls) (ce : Bool) (fuel : Nat) (w : World)
    (hsize : w.com_journal = 2 → 0 < H.layout.size)
    (hfuel : (ringContents H w).length + (realSource H w).length < fuel) :
    ∃ o prims, RunEventLoop_loop H ce fuel w = some o ∧
      dispatched o.world.trace = dispatched w.trace ++ interleave prims w.sysBatches ∧
      prims <+: available H w ∧
      ∀ r, o.result = some r → r = 0 ∧ prims = available H w := by
  induction fuel generalizing w with
  | zero => omega
  | succ fuel ih =>
    obtain ⟨fr, _, _, fb, _, fd⟩ := beforeGetEvent_frame ce w
    rw [← available_frame H w _ fr, ← fd, ← fb]
    rw [← ringContents_frame H w _ fr, ← realSource_frame H w _ fr] at hfuel
    rw [← fr.1] at hsize
    clear fd fb fr
    have hsucc := RunEventLoop_loop_succ H ce fuel w
    have hstop := RunEventLoop_loop_stop H ce fuel w
    have hcont := RunEventLoop_loop_continue H ce fuel w
    generalize beforeGetEvent ce w = v at *
    by_cases hring : v.com_pushedEventsTail < v.com_pushedEventsHead
    · -- the event comes from the ring buffer
      obtain ⟨hg, hc⟩ := GetEvent_ringTaken H v hring
      generalize v.com_pushedEvents (v.com_pushedEventsTail &&& (H.MAX_PUSHED_EVENTS - 1))
        = ev at hg hc
      have hrs : realSource H v.ringTaken = realSource H v := rfl
      by_cases hnone : ev.evType = SE_NONE
      · refine ⟨_, [], hstop _ _ hg hnone, ?_, List.nil_prefix, ?_⟩
        · simp [interleave, World.ringTaken, dispatched_append, dispatched, Outcome.world]
        · intro r hr
          simp only [Outcome.result, Option.some.injEq] at hr
          refine ⟨hr.symm, ?_⟩
          simp [available, hc, List.takeWhile, hnone]
      · rw [hcont _ _ hg hnone]
        obtain ⟨hd, hb⟩ := handlePrimary_dispatched H v.ringTaken ev
        have hf := handlePrimary_frame H v.ringTaken ev
        obtain ⟨o, prims, ho, hdo, hpre, hres⟩ := ih (handlePrimary H v.ringTaken ev)
          (by rw [hf.1]; exact hsize)
          (by
            rw [ringContents_frame H _ _ hf, realSource_frame H _ _ hf, hrs]
            rw [hc] at hfuel
            simp only [List.length_cons] at hfuel
            omega)
        have hav : available H v = ev :: available H (handlePrimary H v.ringTaken ev) := by
          rw [available_frame H _ _ hf]
          simp [available, hc, hrs, List.takeWhile_cons, hnone]
        refine ⟨o, ev :: prims, ho, ?_, ?_, ?_⟩
        · rw [hdo, hd, hb]
          simp [interleave, World.ringTaken, dispatched_append, dispatched]
        · rw [hav]
          exact List.prefix_cons_inj ev |>.mpr hpre
        · intro r hr
          obtain ⟨h0, hp⟩ := hres r hr
          exact ⟨h0, by rw [hav, hp]⟩
    · -- the ring buffer is empty: the event comes from the real source
      have hc := ringContents_empty H v hring
      cases hg : GetRealEvent H (v.emit Effect.GetEvent) with
      | fatal m w2 =>
        obtain ⟨hge, _, _, hd, _⟩ := GetRealEvent_fetch H v _ hring hg
        refine ⟨.fatal m w2, [], by rw [hsucc, hge], ?_, List.nil_prefix, ?_⟩
        · simpa [interleave] using hd
        · intro r hr
          simp [Outcome.result] at hr
      | crash w2 =>
        obtain ⟨hge, _, _, hd, _⟩ := GetRealEvent_fetch H v _ hring hg
        refine ⟨.crash w2, [], by rw [hsucc, hge], ?_, List.nil_prefix, ?_⟩
        · simpa [interleave] using hd
        · intro r hr
          simp [Outcome.result] at hr
      | ok e w2 =>
        obtain ⟨hge, hc2, hb2, hd2, hj2⟩ := GetRealEvent_fetch H v _ hring hg
        simp only [Outcome.world] at hc2 hb2 hd2 hj2
        obtain ⟨X, hX, hX2⟩ := GetRealEvent_source H (v.emit Effect.GetEvent) hsize e w2 hg
        rw [realSource_emit] at hX
        by_cases hnone : e.evType = SE_NONE
        · refine ⟨_, [], hstop _ _ hge hnone, ?_, List.nil_prefix, ?_⟩
          · simpa [interleave] using hd2
          · intro r hr
            simp only [Outcome.result, Option.some.injEq] at hr
            refine ⟨hr.symm, ?_⟩
            simp [available, hc, hX, List.takeWhile, hnone]
        · rw [hcont _ _ hge hnone]
          obtain ⟨hd, hb⟩ := handlePrimary_dispatched H w2 e
          have hf := handlePrimary_frame H w2 e
          obtain ⟨o, prims, ho, hdo, hpre, hres⟩ := ih (handlePrimary H w2 e)
            (by rw [hf.1, hj2]; exact hsize)
            (by
              rw [ringContents_frame H _ _ hf, realSource_frame H _ _ hf, hc2, hX2 hnone]
              rw [hX] at hfuel
              simp only [List.length_cons, List.length_nil] at hfuel ⊢
              omega)
          have hav : available H v = e :: available H (handlePrimary H w2 e) := by
            rw [available_frame H _ _ hf]
            simp [available, hc, hc2, hX, hX2 hnone, List.takeWhile_cons, hnone]
          refine ⟨o, e :: prims, ho, ?_, ?_, ?_⟩
          · rw [hdo, hd, hb, hd2, hb2]
            simp [interleave]
          · rw [hav]
            exact List.prefix_cons_inj e |>.mpr hpre
          · intro r hr
            obtain ⟨h0, hp⟩ := hres r hr
            exact ⟨h0, by rw [hav, hp]⟩

/-- Every `RunEventLoop` invocation ends, given iterations for the events of
the ring buffer and of the real source.  The calls it has added to the trace:
the dispatch of the synthesized mouse event, handed to the session, when the
axis state at entry is not zero; then the flush, when commands are executed,
the first `GetEvent` call and the calls `T` after it.  The events dispatched
among `T` are primary events `prims`, an initial segment of the events
available (all of them when the pass returns), each followed by the secondary
events reported after it. -/
theorem RunEventLoop_ends (H : Decls) (fuel : Nat) (w : World) (ce : Bool)
    (hsize : w.com_journal = 2 → 0 < H.layout.size)
    (hfuel : (ringContents H w).length + (realSource H w).length < fuel) :
    ∃ o T prims, RunEventLoop H fuel w ce = some o ∧
      o.world.trace =
        w.trace ++
          (if w.dx ≠ 0 ∨ w.dy ≠ 0 then
            [Effect.ProcessEvent (CreateMouseEvent H w.dx w.dy) none,
              Effect.session_ProcessEvent (CreateMouseEvent H w.dx w.dy)]
          else []) ++
          ((if ce = true then [Effect.ExecuteCommandBuffer] else []) ++ Effect.GetEvent :: T) ∧
      dispatched T = interleave prims w.sysBatches ∧
      prims <+: available H w ∧
      (∀ r, o.result = some r → r = 0 ∧ prims = available H w) := by
  have key : ∀ v : World, DispatchFrame w v → v.sysBatches = w.sysBatches →
      ∃ o T prims, RunEventLoop_loop H ce fuel v = some o ∧
        o.world.trace =
          v.trace ++
            ((if ce = true then [Effect.ExecuteCommandBuffer] else []) ++ Effect.GetEvent :: T) ∧
        dispatched T = interleave prims w.sysBatches ∧
        prims <+: available H w ∧
        (∀ r, o.result = some r → r = 0 ∧ prims = available H w) := by
    intro v hv hb
    obtain ⟨o, prims, ho, hd, hpre, hres⟩ := RunEventLoop_loop_ends H ce fuel v
      (by rw [hv.1]; exact hsize)
      (by rw [ringContents_frame H w v hv, realSource_frame H w v hv]; exact hfuel)
    obtain ⟨T, hT, _⟩ := RunEventLoop_loop_added H ce fuel v o ho
    rw [available_frame H w v hv] at hpre hres
    refine ⟨o, T, prims, ho, hT, ?_, hpre, hres⟩
    rw [hT, hb] at hd
    have hfl : dispatched (if ce = true then [Effect.ExecuteCommandBuffer] else []) = [] := by
      split_ifs <;> rfl
    rw [dispatched_append, dispatched_append, hfl] at hd
    simpa [dispatched] using hd
  unfold RunEventLoop
  dsimp only
  by_cases hax : w.dx ≠ 0 ∨ w.dy ≠ 0
  · rw [if_pos hax, if_pos hax]
    obtain ⟨o, T, prims, ho, hT, hd, hpre, hres⟩ :=
      key (ProcessEvent w (CreateMouseEvent H w.dx w.dy))
        (ProcessEvent_frame w _) (ProcessEvent_axis w _).2.2
    refine ⟨o, T, prims, ho, ?_, hd, hpre, hres⟩
    rw [hT, ProcessEvent_trace]
    simp [CreateMouseEvent, payloadAt]
  · rw [if_neg hax, if_neg hax]
    obtain ⟨o, T, prims, ho, hT, hd, hpre, hres⟩ := key w (DispatchFrame.refl w) rfl
    exact ⟨o, T, prims, ho, by rw [hT]; simp, hd, hpre, hres⟩

/-! ## Exhaustion -/

theorem RunEventLoop_loop_mono (H : Decls) (ce : Bool) (fuel fuel' : Nat) (w : World)
    (o : Outcome Int) (hle : fuel ≤ fuel') (h : RunEventLoop_loop H ce fuel w = some o) :
    RunEventLoop_loop H ce fuel' w = some o := by
  induction fuel generalizing fuel' w with
  | zero => simp [RunEventLoop_loop] at h
  | succ n ih =>
    cases fuel' with
    | zero => omega
    | succ m =>
      rw [RunEventLoop_loop_succ] at h ⊢
      cases hg : GetEvent H (beforeGetEvent ce w) with
      | fatal msg w2 =>
        rw [hg] at h
        exact h
      | crash w2 =>
        rw [hg] at h
        exact h
      | ok ev w2 =>
        rw [hg] at h
        dsimp only at h ⊢
        split_ifs at h ⊢ with hne
        · exact ih m _ (by omega) h
        · exact h

/-- Outside record mode a `GetRealEvent` call returns as long as the real
source has an event to yield. -/
theorem GetRealEvent_of_source (H : Decls) (w : World) (h1 : w.com_journal ≠ 1)
    (hne : realSource H w ≠ []) : ∃ e w2, GetRealEvent H w = .ok e w2 := by
  by_cases h2 : w.com_journal = 2
  · unfold GetRealEvent
    rw [if_pos h2]
    cases hf : w.com_journalFile with
    | none =>
      exfalso
      apply hne
      unfold realSource
      rw [if_pos h2, hf]
    | some f =>
      rw [realSource_playback H w f h2 hf, journalEvents_succ] at hne
      unfold GetRealEvent_playback
      rw [hf]
      dsimp only
      have hr1 : (f.Read H.layout.size).1 = (f.data.drop f.pos).take H.layout.size := rfl
      rw [hr1]
      generalize hbs : f.data.drop f.pos = bs at hr1 hne ⊢
      by_cases c1 : (bs.take H.layout.size).length ≠ H.layout.size
      · rw [if_pos c1] at hne
        exact absurd rfl hne
      · rw [if_neg c1] at hne ⊢
        have hpos : (f.Read H.layout.size).2.pos = f.pos + H.layout.size := by
          show f.pos + ((f.data.drop f.pos).take H.layout.size).length = _
          rw [hbs, not_not.mp c1]
        have hdata : (f.Read H.layout.size).2.data = f.data := rfl
        by_cases c2 : (H.layout.decode (bs.take H.layout.size)).evPtrLength ≠ 0
        · rw [if_pos c2] at hne ⊢
          have hr2 : ((f.Read H.layout.size).2.Read
              (H.layout.decode (bs.take H.layout.size)).evPtrLength).1 =
              (bs.drop H.layout.size).take
                (H.layout.decode (bs.take H.layout.size)).evPtrLength := by
            show (((f.Read H.layout.size).2.data.drop (f.Read H.layout.size).2.pos).take _) = _
            rw [hdata, hpos, ← List.drop_drop, hbs]
          rw [hr2]
          by_cases c3 : ((bs.drop H.layout.size).take
              (H.layout.decode (bs.take H.layout.size)).evPtrLength).length ≠
              (H.layout.decode (bs.take H.layout.size)).evPtrLength
          · rw [if_pos c3] at hne
            exact absurd rfl hne
          · rw [if_neg c3]
            exact ⟨_, _, rfl⟩
        · rw [if_neg c2]
          exact ⟨_, _, rfl⟩
  · exact ⟨_, _, GetRealEvent_live H w h1 h2⟩

/-- The loop of `RunEventLoop` returns 0 once the ring buffer and the events
`real` of the real source are used up, given a property `R` of the state and of
the events the real source has yet to yield that every iteration maintains and
under which a fetch from the real source returns the next of them. -/
theorem RunEventLoop_loop_exhausts (H : Decls) (ce : Bool)
    (R : World → List sysEvent_t → Prop)
    (hRring : ∀ w pend, R w pend →
      (beforeGetEvent ce w).com_pushedEventsTail < (beforeGetEvent ce w).com_pushedEventsHead →
      R (handlePrimary H (beforeGetEvent ce w).ringTaken
        ((beforeGetEvent ce w).com_pushedEvents
          ((beforeGetEvent ce w).com_pushedEventsTail &&& (H.MAX_PUSHED_EVENTS - 1)))) pend)
    (hRreal : ∀ w e pend, R w (e :: pend) →
      ¬ (beforeGetEvent ce w).com_pushedEventsTail < (beforeGetEvent ce w).com_pushedEventsHead →
      ∃ w2, GetEvent H (beforeGetEvent ce w) = .ok e w2 ∧
        (e.evType ≠ SE_NONE → R (handlePrimary H w2 e) pend))
    (fuel : Nat) (w : World) (real : List sysEvent_t) (t : sysEvent_t)
    (hR : R w (real ++ [t]))
    (hring : ∀ e ∈ ringContents H w, e.evType ≠ SE_NONE)
    (hreal : ∀ e ∈ real, e.evType ≠ SE_NONE) (ht : t.evType = SE_NONE)
    (hfuel : (ringContents H w).length + real.length < fuel) :
    ∃ w', RunEventLoop_loop H ce fuel w = some (.ok 0 w') := by
  induction fuel generalizing w real with
  | zero => omega
  | succ fuel ih =>
    have fr := (beforeGetEvent_frame ce w).1
    have hrc := ringContents_frame H w _ fr
    by_cases hr : (beforeGetEvent ce w).com_pushedEventsTail <
        (beforeGetEvent ce w).com_pushedEventsHead
    · obtain ⟨hg, hc⟩ := GetEvent_ringTaken H (beforeGetEvent ce w) hr
      have hR2 := hRring w _ hR hr
      rw [hrc] at hc
      generalize (beforeGetEvent ce w).com_pushedEvents
        ((beforeGetEvent ce w).com_pushedEventsTail &&& (H.MAX_PUSHED_EVENTS - 1)) = ev
        at hg hc hR2
      have hnone : ev.evType ≠ SE_NONE := hring ev (by rw [hc]; exact List.mem_cons_self _ _)
      rw [RunEventLoop_loop_continue H ce fuel w _ ev hg hnone]
      have hf := handlePrimary_frame H (beforeGetEvent ce w).ringTaken ev
      have hrc2 := ringContents_frame H _ _ hf
      apply ih _ real hR2
      · intro e he
        rw [hrc2] at he
        exact hring e (by rw [hc]; exact List.mem_cons_of_mem _ he)
      · exact hreal
      · rw [hrc2]
        rw [hc] at hfuel
        simp only [List.length_cons] at hfuel
        omega
    · have hge := GetEvent_empty H (beforeGetEvent ce w) hr
      cases real with
      | nil =>
        obtain ⟨w2, hg, _⟩ := hRreal w t [] hR hr
        exact ⟨w2, RunEventLoop_loop_stop H ce fuel w w2 t hg ht⟩
      | cons e real' =>
        obtain ⟨w2, hg, hR2⟩ := hRreal w e (real' ++ [t]) hR hr
        have hnone : e.evType ≠ SE_NONE := hreal e (List.mem_cons_self _ _)
        rw [RunEventLoop_loop_continue H ce fuel w _ e hg hnone]
        obtain ⟨_, hc2, _⟩ := GetRealEvent_fetch H (beforeGetEvent ce w) _ hr (hge.symm.trans hg)
        simp only [Outcome.world] at hc2
        have hf := handlePrimary_frame H w2 e
        have hrc2 := ringContents_frame H _ _ hf
        apply ih _ real' (hR2 hnone)
        · intro x hx
          rw [hrc2, hc2] at hx
          cases hx
        · intro x hx
          exact hreal x (List.mem_cons_of_mem _ hx)
        · rw [hrc2, hc2]
          simp only [List.length_cons, List.length_nil] at hfuel ⊢
          omega

/-- Outside record mode the loop returns 0 once the ring buffer and the events
of kind other than none that the real source yields before an event of kind
none are used up. -/
theorem RunEventLoop_loop_exhausts_unrecorded (H : Decls) (ce : Bool) (fuel : Nat) (w : World)
    (real rest : List sysEvent_t) (t : sysEvent_t)
    (h1 : w.com_journal ≠ 1) (hsize : w.com_journal = 2 → 0 < H.layout.size)
    (hsrc : realSource H w = real ++ t :: rest)
    (hring : ∀ e ∈ ringContents H w, e.evType ≠ SE_NONE)
    (hreal : ∀ e ∈ real, e.evType ≠ SE_NONE) (ht : t.evType = SE_NONE)
    (hfuel : (ringContents H w).length + real.length < fuel) :
    ∃ w', RunEventLoop_loop H ce fuel w = some (.ok 0 w') := by
  refine RunEventLoop_loop_exhausts H ce
    (fun v pend => v.com_journal ≠ 1 ∧ (v.com_journal = 2 → 0 < H.layout.size) ∧
      ∃ rest, realSource H v = pend ++ rest)
    ?_ ?_ fuel w real t ⟨h1, hsize, rest, by rw [hsrc]; simp⟩ hring hreal ht hfuel
  · rintro v pend ⟨hj, hs, r, hr⟩ _
    have fr := (beforeGetEvent_frame ce v).1
    have hf := handlePrimary_frame H (beforeGetEvent ce v).ringTaken
      ((beforeGetEvent ce v).com_pushedEvents
        ((beforeGetEvent ce v).com_pushedEventsTail &&& (H.MAX_PUSHED_EVENTS - 1)))
    have hrs : realSource H (beforeGetEvent ce v).ringTaken = realSource H (beforeGetEvent ce v) :=
      rfl
    have hjr : (beforeGetEvent ce v).ringTaken.com_journal = (beforeGetEvent ce v).com_journal :=
      rfl
    refine ⟨by rw [hf.1, hjr, fr.1]; exact hj, by rw [hf.1, hjr, fr.1]; exact hs, r, ?_⟩
    rw [realSource_frame H _ _ hf, hrs, realSource_frame H _ _ fr, hr]
  · rintro v e pend ⟨hj, hs, r, hr⟩ hring
    have fr := (beforeGetEvent_frame ce v).1
    have hsrc2 : realSource H ((beforeGetEvent ce v).emit Effect.GetEvent) =
        e :: (pend ++ r) := by
      rw [realSource_emit, realSource_frame H _ _ fr, hr]
      rfl
    obtain ⟨e', w2, hg⟩ := GetRealEvent_of_source H ((beforeGetEvent ce v).emit Effect.GetEvent)
      (by show (beforeGetEvent ce v).com_journal ≠ 1; rw [fr.1]; exact hj)
      (by rw [hsrc2]; simp)
    obtain ⟨X, hX, hX2⟩ := GetRealEvent_source H ((beforeGetEvent ce v).emit Effect.GetEvent)
      (by show (beforeGetEvent ce v).com_journal = 2 → _; rw [fr.1]; exact hs) e' w2 hg
    rw [hsrc2] at hX
    injection hX with he hX
    subst he
    obtain ⟨hge, _, _, _, hj2⟩ := GetRealEvent_fetch H (beforeGetEvent ce v) _ hring hg
    simp only [Outcome.world] at hj2
    refine ⟨w2, hge, ?_⟩
    intro hnone
    have hf := handlePrimary_frame H w2 e
    refine ⟨by rw [hf.1, hj2, fr.1]; exact hj, by rw [hf.1, hj2, fr.1]; exact hs, r, ?_⟩
    rw [realSource_frame H _ _ hf, hX2 hnone, hX]

theorem mem_payloads (es : List sysEvent_t) (p : Nat) :
    p ∈ payloads es ↔ p ≠ 0 ∧ ∃ e ∈ es, e.evPtr = p := by
  simp [payloads, and_comm]

theorem drainSysEvents_blocks (w : World) (i : Nat) (b : List sysEvent_t) (p : Nat)
    (hb : ∀ e ∈ b, e.evPtr ≠ p) : (drainSysEvents w i b).blocks p = w.blocks p := by
  induction b generalizing w i with
  | nil => rfl
  | cons e b ih =>
    unfold drainSysEvents
    rw [ih _ _ (fun x hx => hb x (List.mem_cons_of_mem _ hx)), ProcessEvent_blocks]
    have he := hb e (List.mem_cons_self _ _)
    split_ifs
    · rw [Function.update_noteq (Ne.symm he)]
      rfl
    · rfl

theorem handlePrimary_blocks (H : Decls) (w : World) (ev : sysEvent_t) (p : Nat)
    (hev : ev.evPtr ≠ p) (hb : ∀ e ∈ w.sysBatches.headD [], e.evPtr ≠ p) :
    (handlePrimary H w ev).blocks p = w.blocks p := by
  have hp : (ProcessEvent w ev).blocks p = w.blocks p := by
    rw [ProcessEvent_blocks]
    split_ifs
    · rw [Function.update_noteq (Ne.symm hev)]
    · rfl
  have hu : (updateAxis H (ProcessEvent w ev) ev).blocks = (ProcessEvent w ev).blocks ∧
      (updateAxis H (ProcessEvent w ev) ev).sysBatches = w.sysBatches := by
    refine ⟨?_, ?_⟩
    · unfold updateAxis
      split_ifs <;> rfl
    · rw [(updateAxis_trace H _ ev).2.1, (ProcessEvent_axis w ev).2.2]
  have hs : (Sys_PollSysEvents (updateAxis H (ProcessEvent w ev) ev)).1 = w.sysBatches.headD [] ∧
      (Sys_PollSysEvents (updateAxis H (ProcessEvent w ev) ev)).2.blocks =
        (updateAxis H (ProcessEvent w ev) ev).blocks := by
    unfold Sys_PollSysEvents
    rw [hu.2]
    cases w.sysBatches <;> simp [World.emit]
  unfold handlePrimary
  dsimp only
  show (drainSysEvents _ 0 _).blocks p = _
  rw [drainSysEvents_blocks _ _ _ p (by rw [hs.1]; exact hb), hs.2, hu.1, hp]

theorem wellFormedPayload_of_blocks (w w' : World) (e : sysEvent_t)
    (hb : e.evPtr ≠ 0 → w'.blocks e.evPtr = w.blocks e.evPtr) (h : wellFormedPayload w e) :
    wellFormedPayload w' e := by
  rcases h with h | ⟨h0, hl, bs, hbs, hlen⟩
  · exact Or.inl h
  · exact Or.inr ⟨h0, hl, bs, by rw [hb h0]; exact hbs, hlen⟩

/-- In record mode, the ring buffer being empty, `GetEvent` returns the
platform's next event when the journal stream has room for it and its payload
is well formed. -/
theorem GetEvent_record_succeeds (H : Decls) (w : World) (f : idFile)
    (hring : ¬ w.com_pushedEventsTail < w.com_pushedEventsHead)
    (hmode : w.com_journal = 1) (hf : w.com_journalFile = some f)
    (hpay : wellFormedPayload w (w.sysEvents.headD noneEvent))
    (hroom : H.layout.size + (w.sysEvents.headD noneEvent).evPtrLength ≤ f.room) :
    GetEvent H w = .ok (w.sysEvents.headD noneEvent) (w.recordTaken H f) ∧
      (H.layout.encode (w.sysEvents.headD noneEvent) ++
        payloadBytes w (w.sysEvents.headD noneEvent)).length =
        H.layout.size + (w.sysEvents.headD noneEvent).evPtrLength := by
  have hrd := wellFormedPayload_readBlock w _ hpay
  have hlen : (H.layout.encode (w.sysEvents.headD noneEvent) ++
      payloadBytes w (w.sysEvents.headD noneEvent)).length =
      H.layout.size + (w.sysEvents.headD noneEvent).evPtrLength := by
    rw [List.length_append, H.layout.encode_length, payloadBytes_length w _ hrd]
  refine ⟨?_, hlen⟩
  obtain ⟨e, w2, hg⟩ : ∃ e w2, GetEvent H w = .ok e w2 := by
    rw [GetEvent_empty H w hring]
    unfold GetRealEvent
    have hm : (w.emit Effect.GetEvent).com_journal = 1 := hmode
    rw [if_neg (by rw [hm]; decide)]
    dsimp only
    rw [Sys_GetEvent_eq]
    dsimp only
    rw [if_pos hm]
    refine ⟨_, _, GetRealEvent_record_succeeds H _ f _ hf ?_ ?_⟩
    · intro h0
      have := hrd h0
      simpa [readBlock, World.emit] using this
    · have hpb : ∀ (v : World) (e : sysEvent_t), v.blocks = w.blocks →
          payloadBytes v e = payloadBytes w e := by
        intro v e hv
        simp [payloadBytes, readBlock, hv]
      refine le_trans (le_of_eq ?_) (hlen.le.trans hroom)
      rw [hpb _ _ rfl]
      rfl
  obtain ⟨he, hw2, _⟩ := GetEvent_recordTaken H w f e w2 hring hmode hf hg
  rw [hg, he, hw2]

/-- In record mode the loop returns 0 once the ring buffer and the events of
kind other than none that the platform yields before an event of kind none are
used up, when the journal can take those events. -/
theorem RunEventLoop_loop_exhausts_recording (H : Decls) (ce : Bool) (fuel : Nat) (w : World)
    (real rest : List sysEvent_t) (t : sysEvent_t)
    (h1 : w.com_journal = 1)
    (hsrc : realSource H w = real ++ t :: rest)
    (hrec : recordReady H w (real ++ [t]))
    (hring : ∀ e ∈ ringContents H w, e.evType ≠ SE_NONE)
    (hreal : ∀ e ∈ real, e.evType ≠ SE_NONE) (ht : t.evType = SE_NONE)
    (hfuel : (ringContents H w).length + real.length < fuel) :
    ∃ w', RunEventLoop_loop H ce fuel w = some (.ok 0 w') := by
  have hsrc0 : w.sysEvents ++ [noneEvent] = (real ++ [t]) ++ rest := by
    have : realSource H w = w.sysEvents ++ [noneEvent] := by
      unfold realSource
      rw [if_neg (by rw [h1]; decide)]
    rw [← this, hsrc]
    simp
  refine RunEventLoop_loop_exhausts H ce
    (fun v pend => v.com_journal = 1 ∧ (∃ rest, v.sysEvents ++ [noneEvent] = pend ++ rest) ∧
      recordReady H v pend)
    ?_ ?_ fuel w real t ⟨h1, ⟨rest, hsrc0⟩, hrec⟩ hring hreal ht hfuel
  · rintro v pend ⟨hj, ⟨r, hr⟩, ⟨f, hf, hroom⟩, hwf, hnd, hdis⟩ hlt
    obtain ⟨fr, _, _, fb, fbl, _⟩ := beforeGetEvent_frame ce v
    have hrc := ringContents_frame H v _ fr
    have hc := (GetEvent_ringTaken H (beforeGetEvent ce v) hlt).2
    rw [hrc] at hc
    generalize (beforeGetEvent ce v).com_pushedEvents
      ((beforeGetEvent ce v).com_pushedEventsTail &&& (H.MAX_PUSHED_EVENTS - 1)) = ev at hc ⊢
    have hfu := handlePrimary_frame H (beforeGetEvent ce v).ringTaken ev
    have hbt := (handlePrimary_dispatched H (beforeGetEvent ce v).ringTaken ev).2
    have hbt2 : (beforeGetEvent ce v).ringTaken.sysBatches = v.sysBatches := fb
    rw [hbt2] at hbt
    have hrc2 := ringContents_frame H _ _ hfu
    have hblocks : ∀ p ∈ payloads pend,
        (handlePrimary H (beforeGetEvent ce v).ringTaken ev).blocks p = v.blocks p := by
      intro p hp
      obtain ⟨d1, d2⟩ := hdis p hp
      rw [handlePrimary_blocks H _ ev p (d1 ev (by rw [hc]; exact List.mem_cons_self _ _)) ?_]
      · exact congrFun fbl p
      · rw [hbt2]
        intro x hx
        cases hq : v.sysBatches with
        | nil =>
          rw [hq] at hx
          cases hx
        | cons b bs =>
          rw [hq] at hx
          exact d2 b (by rw [hq]; exact List.mem_cons_self _ _) x hx
    refine ⟨?_, ⟨r, ?_⟩, ⟨f, ?_, hroom⟩, ?_, hnd, ?_⟩
    · rw [hfu.1]
      exact fr.1.trans hj
    · rw [hfu.2.2.2.2.2.2.2.2]
      show (beforeGetEvent ce v).sysEvents ++ _ = _
      rw [fr.2.2.2.2.2.2.2.2, hr]
    · rw [hfu.2.1]
      show (beforeGetEvent ce v).com_journalFile = _
      rw [fr.2.1, hf]
    · intro e he
      refine wellFormedPayload_of_blocks v _ e ?_ (hwf e he)
      intro h0
      exact hblocks _ ((mem_payloads pend _).mpr ⟨h0, e, he, rfl⟩)
    · intro p hp
      obtain ⟨d1, d2⟩ := hdis p hp
      refine ⟨?_, ?_⟩
      · intro e he
        rw [hrc2] at he
        exact d1 e (by rw [hc]; exact List.mem_cons_of_mem _ he)
      · intro b hb e he
        rw [hbt] at hb
        exact d2 b (List.mem_of_mem_tail hb) e he
  · rintro v e pend ⟨hj, ⟨r, hr⟩, ⟨f, hf, hroom⟩, hwf, hnd, hdis⟩ hemp
    obtain ⟨fr, _, _, fb, fbl, _⟩ := beforeGetEvent_frame ce v
    have hrc := ringContents_frame H v _ fr
    have hse : (beforeGetEvent ce v).sysEvents = v.sysEvents := fr.2.2.2.2.2.2.2.2
    have hhd : (beforeGetEvent ce v).sysEvents.headD noneEvent = e := by
      rw [hse]
      cases hq : v.sysEvents with
      | nil =>
        rw [hq] at hr
        exact (List.cons.inj hr).1
      | cons q qs =>
        rw [hq] at hr
        exact (List.cons.inj hr).1
    have hroom1 : H.layout.size + e.evPtrLength + journalRoom H pend ≤ f.room := by
      simpa [journalRoom, Nat.add_assoc] using hroom
    obtain ⟨hg, hlen⟩ := GetEvent_record_succeeds H (beforeGetEvent ce v) f hemp
      (fr.1.trans hj) (fr.2.1.trans hf)
      (by
        rw [hhd]
        exact wellFormedPayload_of_blocks v _ e (fun _ => congrFun fbl _)
          (hwf e (List.mem_cons_self _ _)))
      (by rw [hhd]; omega)
    rw [hhd] at hg hlen
    refine ⟨_, hg, ?_⟩
    intro hnone
    obtain ⟨qs, hq⟩ : ∃ qs, v.sysEvents = e :: qs := by
      cases hq : v.sysEvents with
      | nil =>
        rw [hq] at hr
        have he : noneEvent = e := (List.cons.inj hr).1
        rw [← he] at hnone
        exact absurd rfl hnone
      | cons q qs =>
        rw [hq] at hr
        have he : q = e := (List.cons.inj hr).1
        exact ⟨qs, by rw [he]⟩
    have hfu := handlePrimary_frame H ((beforeGetEvent ce v).recordTaken H f) e
    have hbt := (handlePrimary_dispatched H ((beforeGetEvent ce v).recordTaken H f) e).2
    have hbt2 : ((beforeGetEvent ce v).recordTaken H f).sysBatches = v.sysBatches := fb
    rw [hbt2] at hbt
    have hrc2 := ringContents_frame H _ _ hfu
    have hrc3 : ringContents H ((beforeGetEvent ce v).recordTaken H f) = [] := by
      rw [ringContents_congr H (beforeGetEvent ce v)
        ((beforeGetEvent ce v).recordTaken H f) rfl rfl rfl]
      exact ringContents_empty H _ hemp
    have hpe : payloads (e :: pend) =
        (if e.evPtr ≠ 0 then [e.evPtr] else []) ++ payloads pend := by
      rw [← payloads_singleton, ← payloads_append]
      rfl
    have hsub : ∀ p ∈ payloads pend, p ∈ payloads (e :: pend) := by
      intro p hp
      rw [hpe]
      exact List.mem_append_right _ hp
    have hblocks : ∀ p ∈ payloads pend,
        (handlePrimary H ((beforeGetEvent ce v).recordTaken H f) e).blocks p = v.blocks p := by
      intro p hp
      obtain ⟨d1, d2⟩ := hdis p (hsub p hp)
      rw [handlePrimary_blocks H _ e p ?_ ?_]
      · exact congrFun fbl p
      · intro he
        rw [hpe] at hnd
        have h0 : e.evPtr ≠ 0 := by
          rw [he]
          exact ((mem_payloads pend p).mp hp).1
        rw [if_pos h0] at hnd
        have := (List.nodup_cons.mp hnd).1
        rw [he] at this
        exact this hp
      · rw [hbt2]
        intro x hx
        cases hq : v.sysBatches with
        | nil =>
          rw [hq] at hx
          cases hx
        | cons b bs =>
          rw [hq] at hx
          exact d2 b (by rw [hq]; exact List.mem_cons_self _ _) x hx
    refine ⟨?_, ⟨r, ?_⟩,
      ⟨f.appended (H.layout.encode e ++ payloadBytes (beforeGetEvent ce v) e), ?_, ?_⟩,
      ?_, ?_, ?_⟩
    · rw [hfu.1]
      exact fr.1.trans hj
    · rw [hfu.2.2.2.2.2.2.2.2]
      show (beforeGetEvent ce v).sysEvents.tail ++ _ = _
      rw [hse, hq]
      rw [hq] at hr
      exact (List.cons.inj hr).2
    · rw [hfu.2.1]
      simp only [World.recordTaken]
      rw [hhd]
    · show journalRoom H pend ≤ f.room - _
      rw [hlen]
      omega
    · intro x hx
      refine wellFormedPayload_of_blocks v _ x ?_ (hwf x (List.mem_cons_of_mem _ hx))
      intro h0
      exact hblocks _ ((mem_payloads pend _).mpr ⟨h0, x, hx, rfl⟩)
    · rw [hpe] at hnd
      exact hnd.of_append_right
    · intro p hp
      obtain ⟨d1, d2⟩ := hdis p (hsub p hp)
      refine ⟨?_, ?_⟩
      · intro x hx
        rw [hrc2, hrc3] at hx
        cases hx
      · intro b hb x hx
        rw [hbt] at hb
        exact d2 b (List.mem_of_mem_tail hb) x hx

theorem takeWhile_append_cons {α : Type} (p : α → Bool) (l r : List α) (a : α)
    (hl : ∀ x ∈ l, p x = true) (ha : p a = false) : (l ++ a :: r).takeWhile p = l := by
  induction l with
  | nil => simp [List.takeWhile, ha]
  | cons x l ih =>
    rw [List.cons_append, List.takeWhile_cons, hl x (List.mem_cons_self _ _)]
    simp only [if_true]
    rw [ih (fun y hy => hl y (List.mem_cons_of_mem _ hy))]

/-- The loop of `RunEventLoop` on exhaustion, in every journal mode: it returns
0 and has dispatched each event of the ring buffer and each event the real
source yields before its event of kind none, in order, each followed by the
secondary events reported after it. -/
theorem RunEventLoop_loop_exhaustion (H : Decls) (ce : Bool) (fuel : Nat) (w : World)
    (real rest : List sysEvent_t) (t : sysEvent_t)
    (hring : ∀ e ∈ ringContents H w, e.evType ≠ SE_NONE)
    (hsrc : realSource H w = real ++ t :: rest)
    (hreal : ∀ e ∈ real, e.evType ≠ SE_NONE)
    (ht : t.evType = SE_NONE)
    (hrec : w.com_journal = 1 → recordReady H w (real ++ [t]))
    (hsize : w.com_journal = 2 → 0 < H.layout.size)
    (hfuel : (ringContents H w).length + real.length < fuel) :
    ∃ w', RunEventLoop_loop H ce fuel w = some (.ok 0 w') ∧
      dispatched w'.trace =
        dispatched w.trace ++ interleave (ringContents H w ++ real) w.sysBatches := by
  obtain ⟨w', hw'⟩ : ∃ w', RunEventLoop_loop H ce fuel w = some (.ok 0 w') := by
    by_cases h1 : w.com_journal = 1
    · exact RunEventLoop_loop_exhausts_recording H ce fuel w real rest t h1 hsrc (hrec h1)
        hring hreal ht hfuel
    · exact RunEventLoop_loop_exhausts_unrecorded H ce fuel w real rest t h1 hsize hsrc
        hring hreal ht hfuel
  refine ⟨w', hw', ?_⟩
  obtain ⟨o, prims, ho, hd, _, hres⟩ := RunEventLoop_loop_ends H ce
    (fuel + ((ringContents H w).length + (realSource H w).length) + 1) w hsize (by omega)
  rw [RunEventLoop_loop_mono H ce fuel _ w _ (by omega) hw'] at ho
  simp only [Option.some.injEq] at ho
  subst ho
  obtain ⟨_, hp⟩ := hres 0 rfl
  simp only [Outcome.world] at hd
  have hav : available H w = ringContents H w ++ real := by
    unfold available
    rw [hsrc, ← List.append_assoc]
    apply takeWhile_append_cons
    · intro x hx
      rcases List.mem_append.mp hx with h | h
      · simpa using hring x h
      · simpa using hreal x h
    · simpa using ht
  rw [hd, hp, hav]

/-! ## Exhaustion: the claim -/

/-- C7 (as amended). Exhaustion termination, in every journal mode: when the
ring buffer holds events of kind other than none, the real source (the
platform, or the journal in playback mode) yields the events `real`, of kind
other than none, and then an event `t` of kind none, and the secondary events
the platform reports are of kind other than none, a single `RunEventLoop`
invocation whose fuel exceeds the number of those events terminates and returns
0, provided that in record mode the journal can take the events fetched (the
stream is open and has room for them, their payloads are well formed and not
shared) and that in playback mode a record has a size; it has passed to
`ProcessEvent` the synthesized mouse event when the axis state is not zero,
then each event of the ring buffer and each event of `real` once, in order,
each followed by the secondary events reported after it; and no event it has
passed is of kind none. -/
theorem C7_exhaustion_termination (H : Decls) (w : World) (real rest : List sysEvent_t)
    (t : sysEvent_t) (ce : Bool) (fuel : Nat)
    (hring : ∀ e ∈ ringContents H w, e.evType ≠ SE_NONE)
    (hsrc : realSource H w = real ++ t :: rest)
    (hreal : ∀ e ∈ real, e.evType ≠ SE_NONE)
    (ht : t.evType = SE_NONE)
    (hsec : ∀ b ∈ w.sysBatches, ∀ e ∈ b, e.evType ≠ SE_NONE)
    (hrec : w.com_journal = 1 → recordReady H w (real ++ [t]))
    (hsize : w.com_journal = 2 → 0 < H.layout.size)
    (hfuel : (ringContents H w).length + real.length < fuel) :
    ∃ w', RunEventLoop H fuel w ce = some (.ok 0 w') ∧
      dispatched w'.trace =
        dispatched w.trace ++
          ((if w.dx ≠ 0 ∨ w.dy ≠ 0 then [CreateMouseEvent H w.dx w.dy] else []) ++
            interleave (ringContents H w ++ real) w.sysBatches) ∧
      ∀ e ∈ (if w.dx ≠ 0 ∨ w.dy ≠ 0 then [CreateMouseEvent H w.dx w.dy] else []) ++
            interleave (ringContents H w ++ real) w.sysBatches,
        e.evType ≠ SE_NONE := by
  have key : ∀ v : World, DispatchFrame w v → v.sysBatches = w.sysBatches →
      v.blocks = w.blocks →
      ∃ w', RunEventLoop_loop H ce fuel v = some (.ok 0 w') ∧
        dispatched w'.trace =
          dispatched v.trace ++ interleave (ringContents H w ++ real) w.sysBatches := by
    intro v hv hb hbl
    have hrc := ringContents_frame H w v hv
    obtain ⟨w', hw', hd⟩ := RunEventLoop_loop_exhaustion H ce fuel v real rest t
      (by rw [hrc]; exact hring) (by rw [realSource_frame H w v hv]; exact hsrc) hreal ht
      (by
        intro h1
        obtain ⟨⟨f, hf, hroom⟩, hwf, hnd, hdis⟩ := hrec (hv.1.symm.trans h1)
        refine ⟨⟨f, hv.2.1.trans hf, hroom⟩, ?_, hnd, ?_⟩
        · intro e he
          exact wellFormedPayload_of_blocks w v e (fun _ => congrFun hbl _) (hwf e he)
        · rw [hrc, hb]
          exact hdis)
      (by rw [hv.1]; exact hsize)
      (by rw [hrc]; exact hfuel)
    exact ⟨w', hw', by rw [hd, hrc, hb]⟩
  have hnone : ∀ e ∈ interleave (ringContents H w ++ real) w.sysBatches,
      e.evType ≠ SE_NONE := by
    intro e he
    rcases interleave_mem _ _ e he with h | ⟨b, hb, hx⟩
    · rcases List.mem_append.mp h with h | h
      · exact hring e h
      · exact hreal e h
    · exact hsec b hb e hx
  unfold RunEventLoop
  dsimp only
  by_cases hax : w.dx ≠ 0 ∨ w.dy ≠ 0
  · rw [if_pos hax, if_pos hax]
    obtain ⟨w', hw', hd⟩ := key (ProcessEvent w (CreateMouseEvent H w.dx w.dy))
      (ProcessEvent_frame w _) (ProcessEvent_axis w _).2.2
      (by rw [ProcessEvent_blocks]; simp [CreateMouseEvent])
    refine ⟨w', hw', ?_, ?_⟩
    · rw [hd, ProcessEvent_dispatched]
      simp
    · intro e he
      rcases List.mem_append.mp he with h | h
      · rw [List.mem_singleton] at h
        rw [h]
        simp [CreateMouseEvent]
      · exact hnone e h
  · rw [if_neg hax, if_neg hax]
    obtain ⟨w', hw', hd⟩ := key w (DispatchFrame.refl w) rfl rfl
    exact ⟨w', hw', by rw [hd]; simp, by simpa using hnone⟩

/-- C7 (as amended) at concrete inputs.  Record mode: a console event with three
payload bytes and a key event pending on the platform, a journal stream with
room.  Playback mode: the journal that pass writes; the console event comes
back with its payload at the address the allocator hands out, 8. -/
theorem C7_exhaustion_termination_witness :
    (∃ w', RunEventLoop sampleDecls 4 recordingWorld false = some (.ok 0 w') ∧
      dispatched w'.trace = [consoleEvent 7 3, keyEvent 65]) ∧
    (∃ w', RunEventLoop sampleDecls 4 replayingWorld false = some (.ok 0 w') ∧
      dispatched w'.trace = [consoleEvent 8 3, keyEvent 65]) := by
  constructor
  · obtain ⟨w', h, hd, _⟩ := C7_exhaustion_termination sampleDecls recordingWorld
      [consoleEvent 7 3, keyEvent 65] [] noneEvent false 4
      (by decide) (by decide) (by decide) rfl (by decide)
      (fun _ => ⟨⟨_, rfl, by decide⟩,
        by
          intro e he
          simp only [List.cons_append, List.nil_append, List.mem_cons, List.mem_singleton,
            List.not_mem_nil, or_false] at he
          rcases he with rfl | rfl | rfl
          · exact Or.inr ⟨by decide, by decide, [104, 105, 10], rfl, rfl⟩
          · exact Or.inl ⟨rfl, rfl⟩
          · exact Or.inl ⟨rfl, rfl⟩,
        by decide, by decide⟩)
      (fun _ => by decide) (by decide)
    exact ⟨w', h, hd⟩
  · obtain ⟨w', h, hd, _⟩ := C7_exhaustion_termination sampleDecls replayingWorld
      [consoleEvent 8 3, keyEvent 65] [] zeroEvent false 4
      (by decide) (by decide) (by decide) rfl (by decide)
      (fun h => absurd h (by decide)) (fun _ => by decide) (by decide)
    exact ⟨w', h, hd⟩

/-- C7, as stated, fails.  Journal off, one key event pending on the platform,
which reports after it a batch of one secondary event of kind none: the pass
returns 0 and has passed the event of kind none to `ProcessEvent`.  With an
event of kind none followed by a key event in the ring buffer, the pass returns
0 without having dispatched the key event.  And in record mode, two events
pending on the platform and a journal stream without room: the pass ends in
`FatalError`, returns nothing and has dispatched neither event. -/
theorem C7_exhaustion_termination_counterexample :
    observe (RunEventLoop sampleDecls 5 secondaryNoneWorld false) =
      some (some 0, [keyEvent 1, zeroEvent]) ∧
    zeroEvent.evType = SE_NONE ∧
    observe (RunEventLoop sampleDecls 5
      (pushAll sampleDecls (freshWorld 0) [zeroEvent, keyEvent 1]) false) =
      some (some 0, []) ∧
    realSource sampleDecls fullJournalWorld = [consoleEvent 7 3, keyEvent 65, noneEvent] ∧
    observe (RunEventLoop sampleDecls 5 fullJournalWorld false) = some (none, []) := by
  refine ⟨by decide, rfl, by decide, by decide, by decide⟩

/-! ## The synthesized event: the claim -/

/-- C18. One synthesized event per pass: every `RunEventLoop` invocation ends
(given iterations for the events of the ring buffer and of the real source; in
playback mode a record has a size), and the calls it has added to the trace
are, first, when `dx != 0` or `dy != 0` at entry, the dispatch of
`CreateMouseEvent` of the axis state at entry, handed to the session, and
nothing when `dx = dy = 0`; then the loop: the first flush of the command
buffer, when commands are executed, the first `GetEvent` call, and the calls
`T` after it.  The events dispatched among `T` are events the pass fetched,
an initial segment `prims` of the events of the ring buffer and of the real
source (all of them up to the first of kind none when the pass returns), each
followed by the secondary events the platform reports after it: the loop
dispatches no synthesized event, however many axis events it processes. -/
theorem C18_one_synthesized_event (H : Decls) (fuel : Nat) (w : World) (ce : Bool)
    (hsize : w.com_journal = 2 → 0 < H.layout.size)
    (hfuel : (ringContents H w).length + (realSource H w).length < fuel) :
    ∃ o T prims, RunEventLoop H fuel w ce = some o ∧
      o.world.trace =
        w.trace ++
          (if w.dx ≠ 0 ∨ w.dy ≠ 0 then
            [Effect.ProcessEvent (CreateMouseEvent H w.dx w.dy) none,
              Effect.session_ProcessEvent (CreateMouseEvent H w.dx w.dy)]
          else []) ++
          ((if ce = true then [Effect.ExecuteCommandBuffer] else []) ++ Effect.GetEvent :: T) ∧
      dispatched T = interleave prims w.sysBatches ∧
      prims <+: available H w ∧
      (∀ r, o.result = some r → r = 0 ∧ prims = available H w) :=
  RunEventLoop_ends H fuel w ce hsize hfuel

/-- C18 at a concrete input: axis state `(100, 0)` at entry, two axis events
pending on the platform.  The pass dispatches the synthesized event, then the
two axis events, and nothing else. -/
theorem C18_one_synthesized_event_witness :
    ∃ o T, RunEventLoop sampleDecls 5 axisWorld false = some o ∧
      o.world.trace =
        [Effect.ProcessEvent (CreateMouseEvent sampleDecls 100 0) none,
          Effect.session_ProcessEvent (CreateMouseEvent sampleDecls 100 0)] ++
          Effect.GetEvent :: T ∧
      dispatched T = [axisEvent 2 200, axisEvent 2 300] := by
  obtain ⟨o, T, prims, ho, hT, hd, _, hres⟩ :=
    C18_one_synthesized_event sampleDecls 5 axisWorld false (fun _ => by decide) (by decide)
  have hr : o.result = some 0 := by
    have h : (RunEventLoop sampleDecls 5 axisWorld false).bind Outcome.result = some 0 := by
      decide
    rw [ho] at h
    exact h
  refine ⟨o, T, ho, hT, ?_⟩
  rw [hd, (hres 0 hr).2]
  decide

/-! ## The dead zone -/

/-- C19. Dead-zone zero-delta event: for an axis state with `|dx| <= 2184` and
`|dy| <= 2184` that is not `(0, 0)`, the vector of `CreateMouseEvent` is not
clamped and its components, the scaled readings, are below 1 in magnitude, so
that `CreateMouseEvent( dx, dy )` is the mouse event with `evValue = 0` and
`evValue2 = 0`; and every `RunEventLoop` invocation from such a state ends
(given iterations for the events of the ring buffer and of the real source; in
playback mode a record has a size) and has dispatched that event, handed to the
session, once, before its loop, in which the events dispatched are events the
pass fetched, each followed by the secondary events reported after it. -/
theorem C19_dead_zone_zero_delta (H : Decls) (fuel : Nat) (w : World) (ce : Bool)
    (hx : |w.dx| ≤ 2184) (hy : |w.dy| ≤ 2184) (hne : w.dx ≠ 0 ∨ w.dy ≠ 0)
    (hsize : w.com_journal = 2 → 0 < H.layout.size)
    (hfuel : (ringContents H w).length + (realSource H w).length < fuel) :
    mouseVector H.InvSqrt w.dx w.dy = axisVector w.dx w.dy ∧
    |(axisVector w.dx w.dy).x| < 1 ∧ |(axisVector w.dx w.dy).y| < 1 ∧
    CreateMouseEvent H w.dx w.dy =
      { evType := SE_MOUSE, evValue := 0, evValue2 := 0, evPtrLength := 0, evPtr := 0 } ∧
    ∃ o T prims, RunEventLoop H fuel w ce = some o ∧
      o.world.trace =
        w.trace ++
          [Effect.ProcessEvent
              { evType := SE_MOUSE, evValue := 0, evValue2 := 0, evPtrLength := 0, evPtr := 0 }
              none,
            Effect.session_ProcessEvent
              { evType := SE_MOUSE, evValue := 0, evValue2 := 0, evPtrLength := 0, evPtr := 0 }] ++
          ((if ce = true then [Effect.ExecuteCommandBuffer] else []) ++ Effect.GetEvent :: T) ∧
      dispatched T = interleave prims w.sysBatches ∧
      prims <+: available H w ∧
      (∀ r, o.result = some r → r = 0 ∧ prims = available H w) := by
  obtain ⟨hv, h1, h2⟩ := mouseVector_deadZone H.InvSqrt w.dx w.dy hx hy
  have hcm : CreateMouseEvent H w.dx w.dy =
      { evType := SE_MOUSE, evValue := 0, evValue2 := 0, evPtrLength := 0, evPtr := 0 } := by
    unfold CreateMouseEvent
    rw [hv, floatToInt_eq_zero _ h1, floatToInt_eq_zero _ h2]
  refine ⟨hv, h1, h2, hcm, ?_⟩
  obtain ⟨o, T, prims, ho, hT, hd, hpre, hres⟩ := RunEventLoop_ends H fuel w ce hsize hfuel
  rw [if_pos hne, hcm] at hT
  exact ⟨o, T, prims, ho, hT, hd, hpre, hres⟩

/-- C19 at a concrete input: the axis state `(2184, -2184)`, journal off,
nothing in the ring buffer, nothing pending.  The pass ends; it has dispatched
the zero-delta mouse event, handed to the session, and no other event. -/
theorem C19_dead_zone_zero_delta_witness :
    CreateMouseEvent sampleDecls 2184 (-2184) =
      { evType := SE_MOUSE, evValue := 0, evValue2 := 0, evPtrLength := 0, evPtr := 0 } ∧
    ∃ o T, RunEventLoop sampleDecls 3 deadZoneWorld false = some o ∧
      o.world.trace =
        [Effect.ProcessEvent
            { evType := SE_MOUSE, evValue := 0, evValue2 := 0, evPtrLength := 0, evPtr := 0 }
            none,
          Effect.session_ProcessEvent
            { evType := SE_MOUSE, evValue := 0, evValue2 := 0, evPtrLength := 0, evPtr := 0 }] ++
          Effect.GetEvent :: T ∧
      dispatched T = [] := by
  obtain ⟨_, _, _, hcm, o, T, prims, ho, hT, hd, hpre, _⟩ :=
    C19_dead_zone_zero_delta sampleDecls 3 deadZoneWorld false (by decide) (by decide)
      (Or.inl (by decide)) (fun _ => by decide) (by decide)
  refine ⟨hcm, o, T, ho, hT, ?_⟩
  have hp : prims = [] := by
    have h : available sampleDecls deadZoneWorld = [] := by decide
    rw [h] at hpre
    exact List.prefix_nil.mp hpre
  rw [hd, hp]
  rfl

end EventLoop
